import Mathlib

/-!
# Seeding pipeline of `pkg/invoices/infrastructure/postgres/schema.go`

A shallow embedding of `Seed` and `insertBatch`.

* Go `int` / `int64` values are Lean `Int`s; every arithmetic operation of the
  source that can leave the 64-bit range is wrapped with `wrap64`
  (two's-complement wrap-around, as the Go specification prescribes for
  signed integers).
* Loops are recursive functions (with fuel where the source loop has no
  syntactic bound).
* The goroutines and channels of `Seed` are a labelled transition system on
  `SeedState` (further below).
-/

namespace Seeding

/-! ## Machine integers -/

/-- Smallest value of a Go `int` on a 64-bit platform. -/
def minInt : Int := -9223372036854775808

/-- Largest value of a Go `int` on a 64-bit platform. -/
def maxInt : Int := 9223372036854775807

/-- Two's-complement wrap-around of a mathematical integer into the range of a
64-bit Go `int`. -/
def wrap64 (x : Int) : Int := (x + 9223372036854775808) % 18446744073709551616 - 9223372036854775808

/-! ## The producer loop (`schema.go`, lines 81 and 120-123) -/

/-- Constant of line 81: `batchSize := 5000`. -/
def batchSize : Int := 5000

/-- Argument of the send at line 122: `min(batchSize, remaining-i)`. -/
def jobSize (remaining i : Int) : Int := min batchSize (wrap64 (remaining - i))

/-- Post statement of the loop at line 121: `i += batchSize`. -/
def nextIndex (i : Int) : Int := wrap64 (i + batchSize)

/-- The loop of lines 121-123, started at index `i`, as the list of the values
sent on `jobs`. The source loop has no syntactic bound, so the function takes
fuel: `none` means that the loop is still running after `fuel` iterations. -/
def sendJobs : Nat → Int → Int → Option (List Int)
  | 0, _, _ => none
  | fuel + 1, remaining, i =>
    if i < remaining then
      (sendJobs fuel remaining (nextIndex i)).map (fun js => jobSize remaining i :: js)
    else
      some []

/-- The values sent on `jobs` by the first `n` iterations of the loop of lines
121-123 started at index `i` (fewer when the loop exits earlier). -/
def sendPrefix : Nat → Int → Int → List Int
  | 0, _, _ => []
  | n + 1, remaining, i =>
    if i < remaining then jobSize remaining i :: sendPrefix n remaining (nextIndex i) else []


/-! ## Errors -/

/-- Modelled from the spec: an error value reported by the relational store
collaborator (section 6 of the specification; `database/sql` is not part of
the repository). Only its identity matters. -/
abbrev StoreErr := String

/-- The error values that `Seed` and `insertBatch` build with `fmt.Errorf`, one
constructor per message; the argument is the wrapped cause. A Go `error` is an
`Option SeedErr`, with `none` for `nil`. -/
inductive SeedErr where
  /-- Line 69: "failed to check existing data". -/
  | checkExisting (cause : StoreErr)
  /-- Line 146: "failed to begin transaction". -/
  | beginTx (cause : StoreErr)
  /-- Lines 155 and 164: "failed to prepare statement". -/
  | prepare (cause : StoreErr)
  /-- Line 174: "failed to insert into invoices_with_virtual". -/
  | insertWith (cause : StoreErr)
  /-- Line 178: "failed to insert into invoices_without_virtual". -/
  | insertWithout (cause : StoreErr)
  /-- Line 183: "failed to commit transaction". -/
  | commit (cause : StoreErr)
  deriving DecidableEq, Repr

/-! ## Configuration (`schema.go`, lines 50-64) -/

/-- Value of a decimal digit, `none` for any other character. -/
def digitVal (c : Char) : Option Nat :=
  if 48 ≤ c.toNat ∧ c.toNat ≤ 57 then some (c.toNat - 48) else none

/-- Value of a string of decimal digits read left to right after the prefix
whose value is `acc`; `none` when a character is not a digit. -/
def parseDigits : List Char → Nat → Option Nat
  | [], acc => some acc
  | c :: cs, acc =>
    match digitVal c with
    | some d => parseDigits cs (acc * 10 + d)
    | none => none

/-- Modelled from the spec: `strconv.Atoi` of the Go standard library (not part
of the repository), `none` standing for a non-nil error. It accepts an optional
sign followed by one or more decimal digits whose value fits an `int`. -/
def Atoi (s : String) : Option Int :=
  let neg : Bool := s.toList.head? = some '-'
  let ds : List Char :=
    if s.toList.head? = some '-' ∨ s.toList.head? = some '+' then s.toList.tail else s.toList
  if ds = [] then none
  else
    match parseDigits ds 0 with
    | none => none
    | some n =>
      let v : Int := if neg then -(n : Int) else (n : Int)
      if minInt ≤ v ∧ v ≤ maxInt then some v else none

/-- Lines 50-56: the target row count, from the value of `SEED_COUNT` (the empty
string when the variable is unset). -/
def seedCountOf (seedCountStr : String) : Int :=
  if seedCountStr ≠ "" then
    match Atoi seedCountStr with
    | some n => n
    | none => 1000000000
  else 1000000000

/-- Lines 59-64: the number of workers, from the value of `SEED_WORKERS`. -/
def numWorkersOf (w : String) : Int :=
  if w ≠ "" then
    match Atoi w with
    | some n => n
    | none => 10
  else 10

/-! ## Record generation (`schema.go`, lines 169-171) -/

/-- Modelled from the spec: the private `math/rand` stream of a worker (the
generator is not part of the repository). `raw k` is the outcome of the `k`-th
draw before it is reduced to the requested range, `pos` the number of draws
made so far. -/
structure Rand where
  raw : Nat → Nat
  pos : Nat

/-- Modelled from the spec: `r.Int63n(n)` for `n > 0`, a value of `[0, n)`,
together with the advanced stream. -/
def Rand.Int63n (r : Rand) (n : Nat) : Int × Rand :=
  (Int.ofNat (r.raw r.pos % n), { r with pos := r.pos + 1 })

/-- Modelled from the spec: `r.Intn(n)` for `n > 0`, a value of `[0, n)`,
together with the advanced stream. -/
def Rand.Intn (r : Rand) (n : Nat) : Int × Rand :=
  (Int.ofNat (r.raw r.pos % n), { r with pos := r.pos + 1 })

/-- The three values bound to the parameters of both INSERT statements. The
source computes `taxRate` as the `float64` quotient `float64(k) / 100`; it is
represented here by the exact rational `k / 100`, which is also the value the
`NUMERIC(4,2)` column holds. -/
structure Row where
  customerID : Int
  amountCents : Int
  taxRate : ℚ
  deriving DecidableEq

/-- Lines 169-171 as a function of the three draws `d1 = r.Int63n(10000)`,
`d2 = r.Int63n(1000000)` and `d3 = r.Intn(25)`. -/
def mkRecord (d1 d2 d3 : Int) : Row :=
  { customerID := d1 + 1, amountCents := d2 + 100, taxRate := ((d3 + 1 : Int) : ℚ) / 100 }

/-- Lines 169-171: the record of one loop iteration and the advanced stream. -/
def nextRecord (r : Rand) : Row × Rand :=
  let d1 := r.Int63n 10000
  let d2 := d1.2.Int63n 1000000
  let d3 := d2.2.Intn 25
  (mkRecord d1.1 d2.1 d3.1, d3.2)

/-! ## The store and `insertBatch` (`schema.go`, lines 143-187) -/

/-- Modelled from the spec: the committed contents of the two mirrored tables of
the relational store (section 6), as the lists of the value triples of their
rows in insertion order. The columns the store derives itself (`id`,
`total_cents`) are left out. -/
structure Store where
  withVirtual : List Row
  withoutVirtual : List Row

/-- Modelled from the spec: which calls of one transaction the store fails, and
with which error: `BeginTx`, the two `PrepareContext` calls, the `ExecContext`
calls of loop iteration `i` (counted from 0) on either statement, and
`Commit`. -/
structure TxFaults where
  beginTx : Option StoreErr
  prepareWith : Option StoreErr
  prepareWithout : Option StoreErr
  execWith : Nat → Option StoreErr
  execWithout : Nat → Option StoreErr
  commit : Option StoreErr

/-- The store fails no call. -/
def TxFaults.ok : TxFaults :=
  { beginTx := none, prepareWith := none, prepareWithout := none,
    execWith := fun _ => none, execWithout := fun _ => none, commit := none }

/-- Modelled from the spec: state of a transaction of the store. -/
inductive TxStatus where
  | active
  | committed
  | commitFailed
  | rolledBack
  deriving DecidableEq, Repr

/-- Modelled from the spec: a transaction of the store (section 6): the rows
whose insert it has accepted for either table, the number of `ExecContext`
calls issued in it, and its status. Its rows reach the tables when `Commit`
succeeds and never otherwise. -/
structure Tx where
  status : TxStatus
  writtenWith : List Row
  writtenWithout : List Row
  execCalls : Nat

/-- Modelled from the spec: `tx.Rollback()`, which has no effect on a
transaction that is already committed (or whose commit failed). -/
def Tx.rollback (tx : Tx) : Tx :=
  if tx.status = TxStatus.active then { tx with status := TxStatus.rolledBack } else tx

/-- Outcome of the loop of lines 168-180. -/
structure LoopResult where
  err : Option SeedErr
  tx : Tx
  rng : Rand

/-- The loop of lines 168-180 with `n` iterations left, at index `i`. -/
def insertLoop (f : TxFaults) : Nat → Nat → Rand → Tx → LoopResult
  | 0, _, r, tx => { err := none, tx := tx, rng := r }
  | n + 1, i, r, tx =>
    let rec1 := nextRecord r
    match f.execWith i with
    | some e =>
      { err := some (SeedErr.insertWith e), tx := { tx with execCalls := tx.execCalls + 1 },
        rng := rec1.2 }
    | none =>
      let tx1 : Tx :=
        { tx with writtenWith := tx.writtenWith ++ [rec1.1], execCalls := tx.execCalls + 1 }
      match f.execWithout i with
      | some e =>
        { err := some (SeedErr.insertWithout e),
          tx := { tx1 with execCalls := tx1.execCalls + 1 }, rng := rec1.2 }
      | none =>
        insertLoop f n (i + 1) rec1.2
          { tx1 with writtenWithout := tx1.writtenWithout ++ [rec1.1],
                     execCalls := tx1.execCalls + 1 }

/-- What a call of `insertBatch` leaves behind: the returned error, the
committed tables, the random stream, and the transaction as it is once the
deferred `tx.Rollback()` has run (`none` when `BeginTx` failed). -/
structure BatchResult where
  err : Option SeedErr
  store : Store
  rng : Rand
  tx : Option Tx

/-- Lines 143-187: `insertBatch(ctx, db, r, count)` against a store with the
committed tables `store` that fails the calls named by `f`. -/
def insertBatch (f : TxFaults) (store : Store) (r : Rand) (count : Int) : BatchResult :=
  match f.beginTx with
  | some e => { err := some (SeedErr.beginTx e), store := store, rng := r, tx := none }
  | none =>
    let tx0 : Tx :=
      { status := TxStatus.active, writtenWith := [], writtenWithout := [], execCalls := 0 }
    match f.prepareWith with
    | some e =>
      { err := some (SeedErr.prepare e), store := store, rng := r, tx := some tx0.rollback }
    | none =>
      match f.prepareWithout with
      | some e =>
        { err := some (SeedErr.prepare e), store := store, rng := r, tx := some tx0.rollback }
      | none =>
        let l := insertLoop f count.toNat 0 r tx0
        match l.err with
        | some e => { err := some e, store := store, rng := l.rng, tx := some l.tx.rollback }
        | none =>
          match f.commit with
          | some e =>
            { err := some (SeedErr.commit e), store := store, rng := l.rng,
              tx := some (Tx.rollback { l.tx with status := TxStatus.commitFailed }) }
          | none =>
            { err := none,
              store := { withVirtual := store.withVirtual ++ l.tx.writtenWith,
                         withoutVirtual := store.withoutVirtual ++ l.tx.writtenWithout },
              rng := l.rng,
              tx := some (Tx.rollback { l.tx with status := TxStatus.committed }) }

/-! ## Collecting the outcomes (`schema.go`, lines 127-137) -/

/-- Body of the loop of lines 128-132: the new value of `firstErr` after the
value `err` has been received from `results`. -/
def mergeOutcome (firstErr err : Option SeedErr) : Option SeedErr :=
  if err ≠ none ∧ firstErr = none then err else firstErr

/-- Lines 127-137: the value `Seed` returns after it has received `outcomes`, in
this order, from `results`. -/
def waitForWorkers (outcomes : List (Option SeedErr)) : Option SeedErr :=
  outcomes.foldl mergeOutcome none

/-! ## The worker goroutine (`schema.go`, lines 88-98) -/

/-- What one run of the worker goroutine does: the number of jobs it takes from
`jobs`, the amounts it adds to `inserted`, and the values it sends on
`results`. -/
structure WorkerRun where
  taken : Nat
  added : List Int
  sent : List (Option SeedErr)

/-- Lines 90-97: the worker goroutine on the sequence of jobs the `range` loop
would hand it before `jobs` is drained and closed, each paired with the error
its `insertBatch` call returns. -/
def workerRun : List (Int × Option SeedErr) → WorkerRun
  | [] => { taken := 0, added := [], sent := [none] }
  | (size, none) :: rest =>
    let run := workerRun rest
    { taken := run.taken + 1, added := size :: run.added, sent := run.sent }
  | (_, some e) :: _ => { taken := 1, added := [], sent := [some e] }

/-! ## `Seed` as a transition system (`schema.go`, lines 49-141)

The goroutine of `Seed`, the worker goroutines and the two channels form a
labelled transition system. A transition is one communication or one atomic
effect of one goroutine; a goroutine that is blocked has no transition. One
call of `insertBatch` is one transition: the store isolates transactions from
each other, and the tables change at `Commit` only. The progress reporter
(lines 102-118) reads `inserted` and the clock and writes to the log only; it
is left out. -/

/-- Where the goroutine running `Seed` stands. -/
inductive MainPc where
  /-- At the head of the loop of line 121, with loop index `i`. -/
  | sending (i : Int)
  /-- At the head of the loop of line 128, with index `w` and `firstErr`. -/
  | receiving (w : Int) (firstErr : Option SeedErr)
  /-- Has returned `res` (lines 69, 74, 136 and 140). -/
  | returned (res : Option SeedErr)
  /-- Has panicked in `make` (lines 82-83) on a negative channel capacity. -/
  | panicked
  deriving DecidableEq

/-- Where a worker goroutine (lines 88-98) stands. -/
inductive WorkerPc where
  /-- Spawned by line 88, line 89 not yet run. -/
  | created
  /-- At the `range jobs` receive of line 90. -/
  | waiting (r : Rand)
  /-- Has received `size`; about to call `insertBatch` (line 91). -/
  | holding (r : Rand) (size : Int)
  /-- The call of `insertBatch` returned nil; about to run line 95. -/
  | committed (r : Rand) (size : Int)
  /-- The call of `insertBatch` returned `err`; about to run line 92. -/
  | failing (err : SeedErr)
  /-- The `range` loop is over; about to run line 97. -/
  | finishing
  /-- Has returned. -/
  | done

/-- A worker goroutine, with the history of what it has done: the jobs whose
`insertBatch` call has returned, each with the returned error, and the values
it has sent on `results`. -/
structure Worker where
  pc : WorkerPc
  batches : List (Int × Option SeedErr)
  sent : List (Option SeedErr)

/-- State of one call of `Seed`. The fields after `store` are history
variables: they record what has happened and influence no transition. -/
structure SeedState where
  /-- Line 77: `remaining`. -/
  remaining : Int
  /-- Lines 59-64: `numWorkers`, also the capacity of `results` (line 83). -/
  numWorkers : Int
  /-- Line 82: the capacity `numWorkers*2` of `jobs`. -/
  jobsCap : Int
  main : MainPc
  /-- Buffer of the channel `jobs`, oldest value first. -/
  jobs : List Int
  /-- Whether `close(jobs)` (line 124) has run. -/
  jobsClosed : Bool
  /-- Buffer of the channel `results`, oldest value first. -/
  results : List (Option SeedErr)
  workers : List Worker
  /-- Line 84: the progress counter `inserted`. -/
  inserted : Int
  store : Store
  /-- Values sent on `jobs` so far. -/
  sentJobs : List Int
  /-- Values received from `results` by line 129 so far. -/
  received : List (Option SeedErr)
  /-- Number of `ExecContext` calls issued so far. -/
  execCalls : Nat
  /-- Number of `insertBatch` calls that returned an error so far. -/
  failedBatches : Nat

/-- State in which `Seed` has left through `main` before line 77. -/
def SeedState.early (main : MainPc) (numWorkers : Int) (store : Store) : SeedState :=
  { remaining := 0, numWorkers := numWorkers, jobsCap := 0, main := main, jobs := [],
    jobsClosed := false, results := [], workers := [], inserted := 0, store := store,
    sentJobs := [], received := [], execCalls := 0, failedBatches := 0 }

/-- Modelled from the spec: the COUNT query of line 67 on a store with the
committed tables `store`; `fault` is the error of the query when the store
fails it. -/
def countRows (fault : Option StoreErr) (store : Store) : Except StoreErr Int :=
  match fault with
  | some e => Except.error e
  | none => Except.ok (store.withVirtual.length : Int)

/-- Lines 50-99 up to the first channel operation: `Seed` called with the values
`seedCountStr` and `workersStr` of `SEED_COUNT` and `SEED_WORKERS` on a store
with the committed tables `store`. In `seedCount - count` no overflow is
possible, as `0 ≤ count < seedCount`. `make` panics on a negative capacity;
limits of memory are not modelled. The goroutines of lines 87-99 are all
spawned here. -/
def seedInit (seedCountStr workersStr : String) (countFault : Option StoreErr)
    (store : Store) : SeedState :=
  let seedCount := seedCountOf seedCountStr
  let numWorkers := numWorkersOf workersStr
  match countRows countFault store with
  | Except.error e =>
    SeedState.early (MainPc.returned (some (SeedErr.checkExisting e))) numWorkers store
  | Except.ok count =>
    if count ≥ seedCount then SeedState.early (MainPc.returned none) numWorkers store
    else if wrap64 (numWorkers * 2) < 0 ∨ numWorkers < 0 then
      SeedState.early MainPc.panicked numWorkers store
    else
      { remaining := seedCount - count, numWorkers := numWorkers,
        jobsCap := wrap64 (numWorkers * 2), main := MainPc.sending 0, jobs := [],
        jobsClosed := false, results := [],
        workers := List.replicate numWorkers.toNat
          { pc := WorkerPc.created, batches := [], sent := [] },
        inserted := 0, store := store, sentJobs := [], received := [], execCalls := 0,
        failedBatches := 0 }

/-- The next transition of the goroutine running `Seed` (lines 121-140), `none`
when it is blocked or has left `Seed`. -/
def mainStep (s : SeedState) : Option SeedState :=
  match s.main with
  | MainPc.sending i =>
    if i < s.remaining then
      if (s.jobs.length : Int) < s.jobsCap then
        some { s with jobs := s.jobs ++ [jobSize s.remaining i],
                      sentJobs := s.sentJobs ++ [jobSize s.remaining i],
                      main := MainPc.sending (nextIndex i) }
      else none
    else some { s with jobsClosed := true, main := MainPc.receiving 0 none }
  | MainPc.receiving w firstErr =>
    if w < s.numWorkers then
      match s.results with
      | [] => none
      | err :: rest =>
        some { s with results := rest, received := s.received ++ [err],
                      main := MainPc.receiving (w + 1) (mergeOutcome firstErr err) }
    else some { s with main := MainPc.returned firstErr }
  | MainPc.returned _ => none
  | MainPc.panicked => none

/-- Line 89: the seed of the random stream of worker `workerID` that reads the
clock value `now` (nanoseconds). -/
def workerSeed (now : Int) (workerID : Nat) : Int := wrap64 (now + (workerID : Int))

/-- Line 89 for worker `w`, which reads the clock value `now`; `newSource` is the
generator `rand.NewSource` of the Go standard library. -/
def startStep (newSource : Int → Nat → Nat) (s : SeedState) (w : Nat) (now : Int) :
    Option SeedState :=
  match s.workers[w]? with
  | none => none
  | some wk =>
    match wk.pc with
    | WorkerPc.created =>
      some { s with
        workers := s.workers.set w
          { wk with pc := WorkerPc.waiting (Rand.mk (newSource (workerSeed now w)) 0) } }
    | _ => none

/-- The next transition of worker `w` after line 89 (lines 90-97), `none` when it
is blocked or has returned; `f` tells which calls the store fails in the
transaction the worker opens, if it opens one. -/
def workStep (s : SeedState) (w : Nat) (f : TxFaults) : Option SeedState :=
  match s.workers[w]? with
  | none => none
  | some wk =>
    match wk.pc with
    | WorkerPc.created => none
    | WorkerPc.waiting r =>
      match s.jobs with
      | size :: rest =>
        some { s with jobs := rest,
                      workers := s.workers.set w { wk with pc := WorkerPc.holding r size } }
      | [] =>
        if s.jobsClosed then
          some { s with workers := s.workers.set w { wk with pc := WorkerPc.finishing } }
        else none
    | WorkerPc.holding r size =>
      let res := insertBatch f s.store r size
      let calls := match res.tx with
        | some tx => tx.execCalls
        | none => 0
      match res.err with
      | none =>
        some { s with store := res.store, execCalls := s.execCalls + calls,
                      workers := s.workers.set w
                        { wk with pc := WorkerPc.committed res.rng size,
                                  batches := wk.batches ++ [(size, none)] } }
      | some e =>
        some { s with store := res.store, execCalls := s.execCalls + calls,
                      failedBatches := s.failedBatches + 1,
                      workers := s.workers.set w
                        { wk with pc := WorkerPc.failing e,
                                  batches := wk.batches ++ [(size, some e)] } }
    | WorkerPc.committed r size =>
      some { s with inserted := wrap64 (s.inserted + size),
                    workers := s.workers.set w { wk with pc := WorkerPc.waiting r } }
    | WorkerPc.failing e =>
      if (s.results.length : Int) < s.numWorkers then
        some { s with results := s.results ++ [some e],
                      workers := s.workers.set w
                        { wk with pc := WorkerPc.done, sent := wk.sent ++ [some e] } }
      else none
    | WorkerPc.finishing =>
      if (s.results.length : Int) < s.numWorkers then
        some { s with results := s.results ++ [none],
                      workers := s.workers.set w
                        { wk with pc := WorkerPc.done, sent := wk.sent ++ [none] } }
      else none
    | WorkerPc.done => none

/-- Labels of the transitions: which goroutine moves, with the clock value a
starting worker reads or the faults of the transaction a worker opens. -/
inductive Action where
  | main
  | start (w : Nat) (now : Int)
  | work (w : Nat) (f : TxFaults)

/-- One transition of the system. -/
def step (newSource : Int → Nat → Nat) (s : SeedState) : Action → Option SeedState
  | Action.main => mainStep s
  | Action.start w now => startStep newSource s w now
  | Action.work w f => workStep s w f

/-- The state after the transitions `acts`, `none` when one of them is not
possible where it is due. -/
def run (newSource : Int → Nat → Nat) (s : SeedState) : List Action → Option SeedState
  | [] => some s
  | a :: acts =>
    match step newSource s a with
    | some t => run newSource t acts
    | none => none

/-! ## Reference functions used in statements -/

/-- The first `n` records that the loop of lines 168-180 draws from the stream
`r`, in order (used to state what `insertBatch` writes). -/
def recordStream : Nat → Rand → List Row
  | 0, _ => []
  | n + 1, r => (nextRecord r).1 :: recordStream n (nextRecord r).2

/-- The first non-nil error of a sequence of outcomes, `none` when all are nil
(used to state what `Seed` returns). -/
def firstError : List (Option SeedErr) → Option SeedErr
  | [] => none
  | none :: rest => firstError rest
  | some e :: _ => some e

/-! ## Invariants of the transition system -/

/-- The channel `jobs` is closed and empty. -/
def SeedState.drained (s : SeedState) : Prop := s.jobsClosed = true ∧ s.jobs = []

/-- Every call of `insertBatch` of a history returned nil. -/
def allOk (bs : List (Int × Option SeedErr)) : Prop := ∀ b ∈ bs, b.2 = none

/-- How the history of a worker relates to where the worker stands; `drained`
says whether `jobs` is closed and empty. -/
def WorkerInv (drained : Prop) (wk : Worker) : Prop :=
  match wk.pc with
  | WorkerPc.failing e =>
    wk.sent = [] ∧ ∃ oks size, wk.batches = oks ++ [(size, some e)] ∧ allOk oks
  | WorkerPc.finishing => wk.sent = [] ∧ allOk wk.batches ∧ drained
  | WorkerPc.done =>
    (∃ e oks size, wk.sent = [some e] ∧ wk.batches = oks ++ [(size, some e)] ∧ allOk oks) ∨
    (wk.sent = [none] ∧ allOk wk.batches ∧ drained)
  | _ => wk.sent = [] ∧ allOk wk.batches

/-- Facts that hold in every state of a call of `Seed` that got past line 83. -/
structure Inv (s : SeedState) : Prop where
  workersLen : (s.workers.length : Int) = s.numWorkers
  notPanicked : s.main ≠ MainPc.panicked
  closed : s.jobsClosed = true ↔ ∀ i, s.main ≠ MainPc.sending i
  sending : ∀ i, s.main = MainPc.sending i → s.received = []
  receiving : ∀ w fe, s.main = MainPc.receiving w fe →
    fe = waitForWorkers s.received ∧ w = (s.received.length : Int) ∧ w ≤ s.numWorkers
  returned : ∀ r, s.main = MainPc.returned r →
    r = waitForWorkers s.received ∧ (s.received.length : Int) = s.numWorkers
  workers : ∀ wk ∈ s.workers, WorkerInv s.drained wk
  outcomes : (s.received ++ s.results).Perm (s.workers.flatMap Worker.sent)

/-- The jobs sent so far in a state are those of the loop of lines 121-123 as the
function `sendPrefix` gives them, and the goroutine of `Seed` stands at the
index the loop has after as many iterations. -/
structure SentLink (s : SeedState) : Prop where
  index : ∀ i, s.main = MainPc.sending i → i = nextIndex^[s.sentJobs.length] 0
  sent : s.sentJobs = sendPrefix s.sentJobs.length s.remaining 0
  entered : ∀ j, j < s.sentJobs.length → nextIndex^[j] 0 < s.remaining
  exited : (∀ i, s.main ≠ MainPc.sending i) → ¬ nextIndex^[s.sentJobs.length] 0 < s.remaining

/-! ## Where the rows of the jobs are -/

/-- Size of the job a worker has received and not yet added to `inserted`. -/
def Worker.held (wk : Worker) : Int :=
  match wk.pc with
  | WorkerPc.holding _ size => size
  | WorkerPc.committed _ size => size
  | _ => 0

/-- Size of the job a worker has committed and not yet added to `inserted`. -/
def Worker.unadded (wk : Worker) : Int :=
  match wk.pc with
  | WorkerPc.committed _ size => size
  | _ => 0

/-- Total size of the jobs of a history whose `insertBatch` call returned an
error. -/
def lostSize : List (Int × Option SeedErr) → Int
  | [] => 0
  | (_, none) :: rest => lostSize rest
  | (size, some _) :: rest => size + lostSize rest

/-- Facts about the jobs that hold in every state of a call of `Seed` that got
past line 83 with `remaining` at most 9223372036854775000, on tables that held
`n0` and `m0` rows: every row of `remaining` handed out so far is in `jobs`, held
by a worker, counted in `inserted`, or was in a failed batch; and the tables
have grown by the rows of the committed batches. -/
structure Flow (n0 m0 : Nat) (s : SeedState) : Prop where
  remPos : 0 < s.remaining
  remLe : s.remaining ≤ 9223372036854775000
  sending : ∀ i, s.main = MainPc.sending i →
    0 ≤ i ∧ i % 5000 = 0 ∧ i < s.remaining + 5000 ∧ s.sentJobs.sum = min i s.remaining
  sentAll : (∀ i, s.main ≠ MainPc.sending i) → s.sentJobs.sum = s.remaining
  jobsRange : ∀ j ∈ s.jobs, 1 ≤ j ∧ j ≤ 5000
  heldRange : ∀ wk ∈ s.workers, (wk.held = 0 ∨ 1 ≤ wk.held) ∧ 0 ≤ wk.unadded ∧
    0 ≤ lostSize wk.batches
  conservation : s.sentJobs.sum = s.jobs.sum + (s.workers.map Worker.held).sum + s.inserted
    + (s.workers.map (fun wk => lostSize wk.batches)).sum
  insertedNonneg : 0 ≤ s.inserted
  rowsWith : (s.store.withVirtual.length : Int)
    = (n0 : Int) + s.inserted + (s.workers.map Worker.unadded).sum
  rowsWithout : (s.store.withoutVirtual.length : Int)
    = (m0 : Int) + s.inserted + (s.workers.map Worker.unadded).sum

/-- While no call of `insertBatch` has returned an error, no worker is about to
report one and no history holds one. -/
def NoFail (s : SeedState) : Prop :=
  s.failedBatches = 0 → ∀ wk ∈ s.workers, (∀ e, wk.pc ≠ WorkerPc.failing e) ∧ allOk wk.batches

/-- Number of transitions a worker can still make once `jobs` is closed and
empty, apart from those on jobs still in `jobs`. -/
def Worker.cost (wk : Worker) : Nat :=
  match wk.pc with
  | WorkerPc.created => 3
  | WorkerPc.waiting _ => 2
  | WorkerPc.holding _ _ => 4
  | WorkerPc.committed _ _ => 3
  | WorkerPc.failing _ => 1
  | WorkerPc.finishing => 1
  | WorkerPc.done => 0

/-- Number of transitions the goroutine of `Seed` can still make, plus three for
each job it has still to send. -/
def mainCost (s : SeedState) : Nat :=
  match s.main with
  | MainPc.sending i =>
    4 * ((s.remaining - i + 4999) / 5000).toNat + 1 + s.numWorkers.toNat + 1
  | MainPc.receiving w _ => (s.numWorkers - w).toNat + 1
  | MainPc.returned _ => 0
  | MainPc.panicked => 0

/-- A bound on the number of transitions that are left. -/
def measure (s : SeedState) : Nat :=
  mainCost s + 3 * s.jobs.length + (s.workers.map Worker.cost).sum

/-! ## Floating-point values -/

/-- Modelled from the spec: a `float64` value up to rounding, as IEEE 754 defines
the type: a rational number, an infinity, or NaN. The sign of zero is not
represented; the zeros that occur below are quotients of non-negative numbers. -/
inductive F64 where
  | finite (q : ℚ)
  | posInf
  | negInf
  | nan
  deriving DecidableEq

/-- Modelled from the spec: the quotient `x / y` of two `float64` values (IEEE 754):
a finite number divided by zero is an infinity, or NaN when it is zero itself;
no division panics. -/
def F64.div : F64 → F64 → F64
  | F64.finite a, F64.finite b =>
    if b = 0 then (if a = 0 then F64.nan else if 0 < a then F64.posInf else F64.negInf)
    else F64.finite (a / b)
  | F64.finite _, F64.posInf => F64.finite 0
  | F64.finite _, F64.negInf => F64.finite 0
  | F64.posInf, F64.finite b => if 0 ≤ b then F64.posInf else F64.negInf
  | F64.negInf, F64.finite b => if 0 ≤ b then F64.negInf else F64.posInf
  | F64.posInf, F64.posInf => F64.nan
  | F64.posInf, F64.negInf => F64.nan
  | F64.negInf, F64.posInf => F64.nan
  | F64.negInf, F64.negInf => F64.nan
  | F64.nan, _ => F64.nan
  | _, F64.nan => F64.nan

/-- Modelled from the spec: the product `x * y` of two `float64` values (IEEE 754). -/
def F64.mul : F64 → F64 → F64
  | F64.finite a, F64.finite b => F64.finite (a * b)
  | F64.finite a, F64.posInf =>
    if a = 0 then F64.nan else if 0 < a then F64.posInf else F64.negInf
  | F64.finite a, F64.negInf =>
    if a = 0 then F64.nan else if 0 < a then F64.negInf else F64.posInf
  | F64.posInf, F64.finite b =>
    if b = 0 then F64.nan else if 0 < b then F64.posInf else F64.negInf
  | F64.negInf, F64.finite b =>
    if b = 0 then F64.nan else if 0 < b then F64.negInf else F64.posInf
  | F64.posInf, F64.posInf => F64.posInf
  | F64.posInf, F64.negInf => F64.negInf
  | F64.negInf, F64.posInf => F64.negInf
  | F64.negInf, F64.negInf => F64.posInf
  | F64.nan, _ => F64.nan
  | _, F64.nan => F64.nan

/-- Modelled from the spec: the comparison `x > 0` of a `float64` value, which is
false for NaN. -/
def F64.gtZero : F64 → Bool
  | F64.finite q => decide (0 < q)
  | F64.posInf => true
  | F64.negInf => false
  | F64.nan => false

/-! ## The progress reporter (`schema.go`, lines 109-113) -/

/-- What one tick of the progress reporter computes: the value read from
`inserted`, `rate`, and the `float64` value that is converted to the
`time.Duration` `eta`. -/
structure Tick where
  ins : Int
  rate : F64
  eta : F64

/-- Lines 109-112: a tick of the progress reporter in the state `s`, when
`time.Since(start).Seconds()` is `elapsedSeconds`. -/
def reporterTick (s : SeedState) (elapsedSeconds : ℚ) : Tick :=
  let ins := s.inserted
  let rate := F64.div (F64.finite (ins : ℚ)) (F64.finite elapsedSeconds)
  let eta := F64.mul
    (F64.div (F64.finite ((wrap64 (s.remaining - ins) : Int) : ℚ)) rate)
    (F64.finite 1000000000)
  { ins := ins, rate := rate, eta := eta }

/-! ## The winner of the benchmark (`interfaces/http/invoices.go`, lines 217-243) -/

/-- The two scores and the winner that `Benchmark` computes. -/
structure Verdict where
  virtualScore : Int
  calcScore : Int
  winner : String

/-- One of the three `if`/`else` statements of lines 221-235 on the pair
`(virtualScore, calcScore)`. -/
def bumpScore (virtualBetter : Bool) (scores : Int × Int) : Int × Int :=
  if virtualBetter then (scores.1 + 1, scores.2) else (scores.1, scores.2 + 1)

/-- Lines 217-243, as a function of `QueryTimeDiffMs`, `TotalTimeDiffMs` and
`MemoryDiffBytes`. -/
def benchmarkWinner (queryTimeDiffMs totalTimeDiffMs : F64) (memoryDiffBytes : Int) :
    Verdict :=
  let s0 : Int × Int := (0, 0)
  let s1 := bumpScore queryTimeDiffMs.gtZero s0
  let s2 := bumpScore totalTimeDiffMs.gtZero s1
  let s3 := bumpScore (decide (memoryDiffBytes > 0)) s2
  { virtualScore := s3.1, calcScore := s3.2,
    winner := if s3.1 > s3.2 then "virtual" else if s3.2 > s3.1 then "calculated" else "tie" }

/-! ## The progress counter -/

/-- Total size of the jobs of a history whose `insertBatch` call returned nil. -/
def okSize : List (Int × Option SeedErr) → Int
  | [] => 0
  | (size, none) :: rest => size + okSize rest
  | (_, some _) :: rest => okSize rest

/-- The counter `inserted`, together with the sizes of the batches that are
committed and not yet added to it, is the total size of the batches whose
transaction has committed; and `jobs` holds no more values than its
capacity. -/
structure Ack (s : SeedState) : Prop where
  acked : s.inserted + (s.workers.map Worker.unadded).sum
    = (s.workers.map (fun wk => okSize wk.batches)).sum
  capacity : (s.jobs.length : Int) ≤ s.jobsCap

/-- A state of the call of `Seed` with the largest target and one worker in which
`Seed` stands at index `i` of the loop of line 121, `jobs` is empty, the counter
is `ins`, and the worker waits for a job. -/
def IdleAt (s : SeedState) (i ins : Int) : Prop :=
  s.remaining = 9223372036854775807 ∧ s.jobsCap = 2 ∧ s.main = MainPc.sending i ∧
    s.jobs = [] ∧ s.inserted = ins ∧
    ∃ wk r, s.workers = [wk] ∧ wk.pc = WorkerPc.waiting r

/-- As `IdleAt`, but the worker has committed a batch of size `size` and is about
to run line 95. -/
def CommittedAt (s : SeedState) (i ins size : Int) : Prop :=
  s.remaining = 9223372036854775807 ∧ s.jobsCap = 2 ∧ s.main = MainPc.sending i ∧
    s.jobs = [] ∧ s.inserted = ins ∧
    ∃ wk r, s.workers = [wk] ∧ wk.pc = WorkerPc.committed r size

/-! ## Sample inputs -/

/-- A generator whose every raw draw is 0. -/
def zeroSource : Int → Nat → Nat := fun _ _ => 0

/-- Both tables empty. -/
def emptyStore : Store := { withVirtual := [], withoutVirtual := [] }

/-- A store that fails every insert into `invoices_with_virtual`. -/
def failingInserts : TxFaults := { TxFaults.ok with execWith := fun _ => some "boom" }

/-- A complete run of `Seed` with two workers and one job: worker 0 takes the job,
its `insertBatch` call fails and it reports the error; worker 1 finds `jobs`
closed and empty and reports nil; `Seed` receives both outcomes and returns. -/
def failingRun : List Action :=
  [Action.start 0 5, Action.start 1 5, Action.main, Action.main, Action.work 0 TxFaults.ok,
    Action.work 0 failingInserts, Action.work 0 TxFaults.ok, Action.work 1 TxFaults.ok,
    Action.work 1 TxFaults.ok, Action.main, Action.main, Action.main]

/-- A complete run of `Seed` with one worker and one job in which the store fails
no call: the job is sent, taken, inserted and added; `jobs` is closed; the
worker reports nil; `Seed` receives it and returns. -/
def successfulRun : List Action :=
  [Action.main, Action.start 0 5, Action.work 0 TxFaults.ok, Action.work 0 TxFaults.ok,
    Action.work 0 TxFaults.ok, Action.main, Action.work 0 TxFaults.ok,
    Action.work 0 TxFaults.ok, Action.main, Action.main]

/-- A stream whose first three draws are the largest ones. -/
def maxDraws : Rand := { raw := fun k => if k = 0 then 9999 else if k = 1 then 999999 else 24, pos := 0 }

/-- A stream whose every draw is 0. -/
def zeroDraws : Rand := { raw := fun _ => 0, pos := 0 }

/-- A worker that holds a job of three rows. -/
def holdingWorker : Worker :=
  { pc := WorkerPc.holding zeroDraws 3, batches := [], sent := [] }

/-- A state of `Seed` with one worker, which holds the only job. -/
def holdingState : SeedState :=
  { remaining := 3, numWorkers := 1, jobsCap := 2, main := MainPc.sending 5000, jobs := [],
    jobsClosed := false, results := [], workers := [holdingWorker], inserted := 0,
    store := emptyStore, sentJobs := [3], received := [], execCalls := 0, failedBatches := 0 }

/-- A store that accepts the inserts of the first two records and fails the
insert of the third one into `invoices_without_virtual`. -/
def failsThirdInsert : TxFaults :=
  { TxFaults.ok with execWithout := fun i => if i = 2 then some "boom" else none }

/-- A run of `Seed` with one worker and four jobs in which the first call of
`insertBatch` fails: the worker takes the first job, fails, reports the error
and returns; `Seed` then sends two more jobs, which fill `jobs`. -/
def deadlockRun : List Action :=
  [Action.start 0 5, Action.main, Action.work 0 TxFaults.ok, Action.work 0 failingInserts,
    Action.work 0 TxFaults.ok, Action.main, Action.main]

/-! ## Facts about the producer loop -/

theorem wrap64_of_inRange (x : Int) (h1 : -9223372036854775808 ≤ x) (h2 : x ≤ 9223372036854775807) :
    wrap64 x = x := by
  unfold wrap64
  omega

theorem wrap64_even (x : Int) (h : x % 2 = 0) : wrap64 x % 2 = 0 := by
  unfold wrap64
  omega

theorem wrap64_le (x : Int) : wrap64 x ≤ 9223372036854775807 := by
  unfold wrap64
  omega

/-- In the range where the loop index cannot overflow, the loop started at a
multiple `i` of the batch size exits within `k` iterations when at most
`5000 * k` rows are left, and sends the expected partition of what is left. -/
theorem sendJobs_inRange (k : Nat) : ∀ (remaining i : Int) (fuel : Nat),
    0 ≤ i → remaining ≤ 9223372036854775000 → i % 5000 = 0 →
    remaining - i ≤ 5000 * (k : Int) → k < fuel →
    ∃ js, sendJobs fuel remaining i = some js ∧
      (js.length : Int) = (max (remaining - i) 0 + 4999) / 5000 ∧
      js.sum = max (remaining - i) 0 ∧
      (∀ j ∈ js, 1 ≤ j ∧ j ≤ 5000) ∧
      (∀ n : Nat, n + 1 < js.length → js[n]? = some 5000) ∧
      (i < remaining → js.getLast? =
        some (if (remaining - i) % 5000 = 0 then 5000 else (remaining - i) % 5000)) := by
  induction k with
  | zero =>
    intro remaining i fuel h0 hr hm hk hf
    obtain ⟨f, rfl⟩ : ∃ f, fuel = f + 1 := ⟨fuel - 1, by omega⟩
    have hlt : ¬ i < remaining := by omega
    refine ⟨[], by simp [sendJobs, hlt], ?_, ?_, ?_, ?_, ?_⟩
    · simp; omega
    · simp; omega
    · simp
    · simp
    · intro h; exact absurd h hlt
  | succ k ih =>
    intro remaining i fuel h0 hr hm hk hf
    obtain ⟨f, rfl⟩ : ∃ f, fuel = f + 1 := ⟨fuel - 1, by omega⟩
    by_cases hlt : i < remaining
    · have hnext : nextIndex i = i + 5000 := by
        unfold nextIndex batchSize
        exact wrap64_of_inRange _ (by omega) (by omega)
      have hjob : jobSize remaining i = min 5000 (remaining - i) := by
        unfold jobSize batchSize
        rw [wrap64_of_inRange _ (by omega) (by omega)]
      obtain ⟨js, hjs, hlen, hsum, hall, hfull, hlast⟩ :=
        ih remaining (i + 5000) f (by omega) hr (by omega) (by push_cast at hk; omega) (by omega)
      refine ⟨min 5000 (remaining - i) :: js, ?_, ?_, ?_, ?_, ?_, ?_⟩
      · simp [sendJobs, hlt, hnext, hjob, hjs]
      · simp only [List.length_cons]
        push_cast
        rw [hlen]
        omega
      · simp only [List.sum_cons]
        rw [hsum]
        omega
      · intro j hj
        rcases List.mem_cons.mp hj with rfl | hj
        · omega
        · exact hall j hj
      · intro n hn
        cases n with
        | zero =>
          have hpos : 0 < js.length := by simpa using hn
          have : (0 : Int) < (js.length : Int) := by exact_mod_cast hpos
          simp only [List.getElem?_cons_zero, Option.some.injEq]
          omega
        | succ n =>
          simp only [List.getElem?_cons_succ]
          exact hfull n (by simpa using hn)
      · intro _
        by_cases hmore : i + 5000 < remaining
        · have hne : js ≠ [] := by
            intro he
            rw [he] at hlen
            simp at hlen
            omega
          have e : (remaining - (i + 5000)) % 5000 = (remaining - i) % 5000 := by omega
          have hl := hlast hmore
          rw [e] at hl
          cases js with
          | nil => exact absurd rfl hne
          | cons b t => rw [List.getLast?_cons_cons, hl]
        · have he : js = [] := by
            apply List.eq_nil_of_length_eq_zero
            have : (js.length : Int) = 0 := by rw [hlen]; omega
            exact_mod_cast this
          subst he
          simp only [List.getLast?_singleton, Option.some.injEq]
          split <;> omega
    · refine ⟨[], by simp [sendJobs, hlt], ?_, ?_, ?_, ?_, ?_⟩
      · simp; omega
      · simp; omega
      · simp
      · simp
      · intro h; exact absurd h hlt


/-- While whole batches are left and the index stays in range, the loop sends
`batchSize` and advances the index by `batchSize`. -/
theorem sendPrefix_full (remaining : Int) (m : Nat) (hr : remaining ≤ 9223372036854775807)
    (k : Nat) : ∀ i : Int, 0 ≤ i → i + 5000 * (k : Int) ≤ remaining →
      sendPrefix (k + m) remaining i
        = List.replicate k 5000 ++ sendPrefix m remaining (i + 5000 * (k : Int)) := by
  induction k with
  | zero => intro i _ _; simp
  | succ k ih =>
    intro i h0 hk
    push_cast at hk
    have hlt : i < remaining := by omega
    have hnext : nextIndex i = i + 5000 := by
      unfold nextIndex batchSize
      exact wrap64_of_inRange _ (by omega) (by omega)
    have hjob : jobSize remaining i = 5000 := by
      unfold jobSize batchSize
      rw [wrap64_of_inRange _ (by omega) (by omega)]
      omega
    have e : k + 1 + m = (k + m) + 1 := by omega
    rw [e, sendPrefix, if_pos hlt, hnext, hjob, ih (i + 5000) (by omega) (by omega),
      List.replicate_succ, List.cons_append]
    congr 2
    push_cast
    congr 1
    ring

/-- With `remaining` equal to the largest `int`, the loop condition holds at
every even index, and the index stays even. -/
theorem sendJobs_maxInt_none (fuel : Nat) : ∀ i : Int, i % 2 = 0 → i ≤ 9223372036854775807 →
    sendJobs fuel 9223372036854775807 i = none := by
  induction fuel with
  | zero => intro i _ _; rfl
  | succ f ih =>
    intro i he hle
    have hlt : i < 9223372036854775807 := by omega
    rw [sendJobs, if_pos hlt, ih (nextIndex i) (wrap64_even _ (by unfold batchSize; omega))
      (wrap64_le _)]
    rfl

/-- C1 (evaluation at the failing input): with `remaining = 9223372036854775807`
(the largest `int`) the loop of lines 121-123 never exits, whatever the fuel;
its first 1844674407370957 iterations send 1844674407370955 jobs of size 5000,
then a job of size 807 (here `remaining` rows have been handed out), and then,
the index `i += batchSize` having wrapped around to a negative number, a job of
size -4193. -/
theorem sendJobs_overflow_at_maxInt :
    (∀ fuel, sendJobs fuel 9223372036854775807 0 = none) ∧
    sendPrefix (1844674407370955 + 2) 9223372036854775807 0
      = List.replicate 1844674407370955 5000 ++ [807, -4193] := by
  refine ⟨fun fuel => sendJobs_maxInt_none fuel 0 (by decide) (by decide), ?_⟩
  rw [sendPrefix_full 9223372036854775807 2 (by decide) 1844674407370955 0 (by decide)
    (by decide)]
  congr 1


/-! ## Facts about `insertBatch` -/

theorem insertLoop_status (f : TxFaults) (n : Nat) : ∀ (i : Nat) (r : Rand) (tx : Tx),
    (insertLoop f n i r tx).tx.status = tx.status := by
  induction n with
  | zero => intro i r tx; rfl
  | succ n ih =>
    intro i r tx
    unfold insertLoop
    cases h1 : f.execWith i with
    | some e => rfl
    | none =>
      cases h2 : f.execWithout i with
      | some e => rfl
      | none => simp only [ih]

/-- A loop that returns nil has issued all its inserts and has written the
records of the stream, in order, for both tables. -/
theorem insertLoop_ok (f : TxFaults) (n : Nat) : ∀ (i : Nat) (r : Rand) (tx : Tx),
    (insertLoop f n i r tx).err = none →
      (insertLoop f n i r tx).tx.writtenWith = tx.writtenWith ++ recordStream n r ∧
      (insertLoop f n i r tx).tx.writtenWithout = tx.writtenWithout ++ recordStream n r ∧
      (insertLoop f n i r tx).tx.execCalls = tx.execCalls + 2 * n ∧
      (∀ k, i ≤ k → k < i + n → f.execWith k = none ∧ f.execWithout k = none) := by
  induction n with
  | zero =>
    intro i r tx _
    refine ⟨by simp [insertLoop, recordStream], by simp [insertLoop, recordStream],
      by simp [insertLoop], ?_⟩
    intro k h1 h2
    omega
  | succ n ih =>
    intro i r tx
    unfold insertLoop
    cases h1 : f.execWith i with
    | some e => intro h; simp at h
    | none =>
      cases h2 : f.execWithout i with
      | some e => intro h; simp at h
      | none =>
        intro h
        obtain ⟨a, b, c, d⟩ := ih (i + 1) (nextRecord r).2 _ h
        refine ⟨?_, ?_, ?_, ?_⟩
        · simp only [a, recordStream, List.append_assoc, List.singleton_append]
        · simp only [b, recordStream, List.append_assoc, List.singleton_append]
        · simp only [c]; omega
        · intro k hk1 hk2
          by_cases hk : k = i
          · subst hk; exact ⟨h1, h2⟩
          · exact d k (by omega) (by omega)

/-- The loop returns nil when the store fails none of its inserts. -/
theorem insertLoop_succeeds (f : TxFaults) (n : Nat) : ∀ (i : Nat) (r : Rand) (tx : Tx),
    (∀ k, i ≤ k → k < i + n → f.execWith k = none ∧ f.execWithout k = none) →
      (insertLoop f n i r tx).err = none := by
  induction n with
  | zero => intro i r tx _; rfl
  | succ n ih =>
    intro i r tx h
    unfold insertLoop
    obtain ⟨h1, h2⟩ := h i (by omega) (by omega)
    simp only [h1, h2]
    exact ih _ _ _ (fun k hk1 hk2 => h k (by omega) (by omega))

/-- When the first insert that the store fails is one of iteration `i + m` of the
loop, the loop returns an error after the `m` earlier records have been written
for both tables. -/
theorem insertLoop_first_failure (f : TxFaults) (m : Nat) :
    ∀ (n i : Nat) (r : Rand) (tx : Tx), m < n →
      (∀ k, i ≤ k → k < i + m → f.execWith k = none ∧ f.execWithout k = none) →
      (f.execWith (i + m) ≠ none ∨ f.execWithout (i + m) ≠ none) →
      (insertLoop f n i r tx).err ≠ none ∧
      tx.writtenWithout ++ recordStream m r = (insertLoop f n i r tx).tx.writtenWithout ∧
      tx.writtenWith ++ recordStream m r <+: (insertLoop f n i r tx).tx.writtenWith := by
  induction m with
  | zero =>
    intro n i r tx hn _ hf
    obtain ⟨n, rfl⟩ : ∃ n0, n = n0 + 1 := ⟨n - 1, by omega⟩
    simp only [Nat.add_zero] at hf
    unfold insertLoop
    cases h1 : f.execWith i with
    | some e => simp [recordStream]
    | none =>
      cases h2 : f.execWithout i with
      | some e => simp [recordStream]
      | none => simp [h1, h2] at hf
  | succ m ih =>
    intro n i r tx hn hok hf
    obtain ⟨n, rfl⟩ : ∃ n0, n = n0 + 1 := ⟨n - 1, by omega⟩
    obtain ⟨h1, h2⟩ := hok i (by omega) (by omega)
    unfold insertLoop
    simp only [h1, h2]
    have e : i + (m + 1) = (i + 1) + m := by omega
    rw [e] at hf
    obtain ⟨a, b, c⟩ := ih n (i + 1) (nextRecord r).2
      { status := tx.status, writtenWith := tx.writtenWith ++ [(nextRecord r).1],
        writtenWithout := tx.writtenWithout ++ [(nextRecord r).1],
        execCalls := tx.execCalls + 1 + 1 } (by omega)
      (fun k hk1 hk2 => hok k (by omega) (by omega)) hf
    refine ⟨a, ?_, ?_⟩
    · rw [← b]; simp [recordStream]
    · simpa [recordStream] using c


theorem recordStream_length (n : Nat) : ∀ r : Rand, (recordStream n r).length = n := by
  induction n with
  | zero => intro r; rfl
  | succ n ih => intro r; simp [recordStream, ih]

theorem rollback_status (tx : Tx) :
    tx.rollback.status = (if tx.status = TxStatus.active then TxStatus.rolledBack else tx.status) := by
  unfold Tx.rollback
  split <;> simp_all

theorem rollback_written (tx : Tx) :
    tx.rollback.writtenWith = tx.writtenWith ∧ tx.rollback.writtenWithout = tx.writtenWithout ∧
      tx.rollback.execCalls = tx.execCalls := by
  unfold Tx.rollback
  split <;> simp

/-- A call of `insertBatch` that returns an error leaves the tables as they
were, and its transaction, if it got one, is rolled back or failed to commit. -/
theorem insertBatch_error_frame (f : TxFaults) (store : Store) (r : Rand) (count : Int)
    (h : (insertBatch f store r count).err ≠ none) :
    (insertBatch f store r count).store = store ∧
    ∀ tx, (insertBatch f store r count).tx = some tx →
      tx.status = TxStatus.rolledBack ∨ tx.status = TxStatus.commitFailed := by
  unfold insertBatch at h ⊢
  cases hb : f.beginTx with
  | some e => simp
  | none =>
    cases hp1 : f.prepareWith with
    | some e => simp [rollback_status]
    | none =>
      cases hp2 : f.prepareWithout with
      | some e => simp [rollback_status]
      | none =>
        simp only [hb, hp1, hp2] at h ⊢
        cases hl : (insertLoop f count.toNat 0 r
            { status := TxStatus.active, writtenWith := [], writtenWithout := [],
              execCalls := 0 }).err with
        | some e =>
          have hs := insertLoop_status f count.toNat 0 r
            { status := TxStatus.active, writtenWith := [], writtenWithout := [],
              execCalls := 0 }
          simp only [true_and]
          intro tx htx
          simp only [Option.some.injEq] at htx
          subst htx
          left
          rw [rollback_status, hs]
          simp
        | none =>
          simp only [hl] at h
          cases hc : f.commit with
          | some e => simp [rollback_status]
          | none => simp [hc] at h

/-- What a call of `insertBatch` that returns nil has done. -/
theorem insertBatch_ok (f : TxFaults) (store : Store) (r : Rand) (count : Int)
    (h : (insertBatch f store r count).err = none) :
    (insertBatch f store r count).store.withVirtual
      = store.withVirtual ++ recordStream count.toNat r ∧
    (insertBatch f store r count).store.withoutVirtual
      = store.withoutVirtual ++ recordStream count.toNat r ∧
    ∃ tx, (insertBatch f store r count).tx = some tx ∧ tx.status = TxStatus.committed ∧
      tx.writtenWith = recordStream count.toNat r ∧
      tx.writtenWithout = recordStream count.toNat r ∧
      tx.execCalls = 2 * count.toNat := by
  unfold insertBatch at h ⊢
  cases hb : f.beginTx with
  | some e => simp [hb] at h
  | none =>
    cases hp1 : f.prepareWith with
    | some e => simp [hb, hp1] at h
    | none =>
      cases hp2 : f.prepareWithout with
      | some e => simp [hb, hp1, hp2] at h
      | none =>
        simp only [hb, hp1, hp2] at h ⊢
        cases hl : (insertLoop f count.toNat 0 r
            { status := TxStatus.active, writtenWith := [], writtenWithout := [],
              execCalls := 0 }).err with
        | some e => simp [hl] at h
        | none =>
          simp only [hl] at h ⊢
          cases hc : f.commit with
          | some e => simp [hc] at h
          | none =>
            obtain ⟨a, b, c, _⟩ := insertLoop_ok f count.toNat 0 r _ hl
            simp only [List.nil_append] at a b
            simp only [a, b, true_and]
            refine ⟨_, rfl, ?_, ?_, ?_, ?_⟩
            · simp [rollback_status]
            · simp [rollback_written, a]
            · simp [rollback_written, b]
            · simp [rollback_written, c]

/-- A call of `insertBatch` returns nil when the store fails none of its calls. -/
theorem insertBatch_succeeds (f : TxFaults) (store : Store) (r : Rand) (count : Int)
    (hb : f.beginTx = none) (hp1 : f.prepareWith = none) (hp2 : f.prepareWithout = none)
    (he : ∀ k, k < count.toNat → f.execWith k = none ∧ f.execWithout k = none)
    (hc : f.commit = none) :
    (insertBatch f store r count).err = none := by
  unfold insertBatch
  have hl := insertLoop_succeeds f count.toNat 0 r
    { status := TxStatus.active, writtenWith := [], writtenWithout := [], execCalls := 0 }
    (fun k _ hk => he k (by omega))
  simp only [hb, hp1, hp2, hl, hc]

/-- A call of `insertBatch` returns an error when the store fails an insert of
one of its iterations, or the commit. -/
theorem insertBatch_fails (f : TxFaults) (store : Store) (r : Rand) (count : Int) (k : Nat)
    (hk : k < count.toNat)
    (hf : f.execWith k ≠ none ∨ f.execWithout k ≠ none ∨ f.commit ≠ none) :
    (insertBatch f store r count).err ≠ none := by
  intro h
  unfold insertBatch at h
  cases hb : f.beginTx with
  | some e => simp [hb] at h
  | none =>
    cases hp1 : f.prepareWith with
    | some e => simp [hb, hp1] at h
    | none =>
      cases hp2 : f.prepareWithout with
      | some e => simp [hb, hp1, hp2] at h
      | none =>
        simp only [hb, hp1, hp2] at h
        cases hl : (insertLoop f count.toNat 0 r
            { status := TxStatus.active, writtenWith := [], writtenWithout := [],
              execCalls := 0 }).err with
        | some e => simp [hl] at h
        | none =>
          simp only [hl] at h
          cases hc : f.commit with
          | some e => simp [hc] at h
          | none =>
            obtain ⟨_, _, _, d⟩ := insertLoop_ok f count.toNat 0 r _ hl
            obtain ⟨d1, d2⟩ := d k (by omega) (by omega)
            rcases hf with hf | hf | hf
            · exact hf d1
            · exact hf d2
            · exact hf hc

/-- When the store accepts the transaction, both statements and the inserts of
the first `m` iterations, and fails an insert of the next iteration, the
transaction ends rolled back, with the `m` earlier records written in it. -/
theorem insertBatch_first_failure (f : TxFaults) (store : Store) (r : Rand) (count : Int)
    (m : Nat) (hm : m < count.toNat)
    (hb : f.beginTx = none) (hp1 : f.prepareWith = none) (hp2 : f.prepareWithout = none)
    (hok : ∀ k, k < m → f.execWith k = none ∧ f.execWithout k = none)
    (hf : f.execWith m ≠ none ∨ f.execWithout m ≠ none) :
    ∃ tx, (insertBatch f store r count).tx = some tx ∧ tx.status = TxStatus.rolledBack ∧
      tx.writtenWithout = recordStream m r ∧ recordStream m r <+: tx.writtenWith := by
  have hl := insertLoop_first_failure f m count.toNat 0 r
    { status := TxStatus.active, writtenWith := [], writtenWithout := [], execCalls := 0 } hm
    (fun k _ hk => hok k (by omega)) (by simpa using hf)
  obtain ⟨a, b, c⟩ := hl
  have hs := insertLoop_status f count.toNat 0 r
    { status := TxStatus.active, writtenWith := [], writtenWithout := [], execCalls := 0 }
  unfold insertBatch
  simp only [hb, hp1, hp2]
  cases hl : (insertLoop f count.toNat 0 r
      { status := TxStatus.active, writtenWith := [], writtenWithout := [],
        execCalls := 0 }).err with
  | none => exact absurd hl a
  | some e =>
    refine ⟨_, rfl, ?_, ?_, ?_⟩
    · rw [rollback_status, hs]; simp
    · rw [(rollback_written _).2.1, ← b]; simp
    · rw [(rollback_written _).1]; simpa using c


/-! ## The transitions of `Seed`, case by case -/

/-- Every transition is one of twelve: a send on `jobs`, `close(jobs)`, a
receive from `results`, the return of `Seed`; for a worker: line 89, a receive
from `jobs`, the end of the `range` loop, a call of `insertBatch` that returns
nil or an error, the addition to `inserted`, and the send of an error or of nil
on `results`. -/
theorem step_inv {newSource : Int → Nat → Nat} {s t : SeedState} {a : Action}
    (h : step newSource s a = some t) :
    (∃ i, s.main = MainPc.sending i ∧ i < s.remaining ∧ (s.jobs.length : Int) < s.jobsCap ∧
      t = { s with jobs := s.jobs ++ [jobSize s.remaining i],
                   sentJobs := s.sentJobs ++ [jobSize s.remaining i],
                   main := MainPc.sending (nextIndex i) }) ∨
    (∃ i, s.main = MainPc.sending i ∧ ¬ i < s.remaining ∧
      t = { s with jobsClosed := true, main := MainPc.receiving 0 none }) ∨
    (∃ w fe err rest, s.main = MainPc.receiving w fe ∧ w < s.numWorkers ∧
      s.results = err :: rest ∧
      t = { s with results := rest, received := s.received ++ [err],
                   main := MainPc.receiving (w + 1) (mergeOutcome fe err) }) ∨
    (∃ w fe, s.main = MainPc.receiving w fe ∧ ¬ w < s.numWorkers ∧
      t = { s with main := MainPc.returned fe }) ∨
    (∃ w wk r, s.workers[w]? = some wk ∧ wk.pc = WorkerPc.created ∧
      t = { s with workers := s.workers.set w { wk with pc := WorkerPc.waiting r } }) ∨
    (∃ w wk r size rest, s.workers[w]? = some wk ∧ wk.pc = WorkerPc.waiting r ∧
      s.jobs = size :: rest ∧
      t = { s with jobs := rest,
                   workers := s.workers.set w { wk with pc := WorkerPc.holding r size } }) ∨
    (∃ w wk r, s.workers[w]? = some wk ∧ wk.pc = WorkerPc.waiting r ∧ s.jobs = [] ∧
      s.jobsClosed = true ∧
      t = { s with workers := s.workers.set w { wk with pc := WorkerPc.finishing } }) ∨
    (∃ w wk r size f calls, s.workers[w]? = some wk ∧ wk.pc = WorkerPc.holding r size ∧
      (insertBatch f s.store r size).err = none ∧
      t = { s with store := (insertBatch f s.store r size).store,
                   execCalls := s.execCalls + calls,
                   workers := s.workers.set w
                     { wk with pc := WorkerPc.committed (insertBatch f s.store r size).rng size,
                               batches := wk.batches ++ [(size, none)] } }) ∨
    (∃ w wk r size f calls e, s.workers[w]? = some wk ∧ wk.pc = WorkerPc.holding r size ∧
      (insertBatch f s.store r size).err = some e ∧
      t = { s with store := (insertBatch f s.store r size).store,
                   execCalls := s.execCalls + calls,
                   failedBatches := s.failedBatches + 1,
                   workers := s.workers.set w
                     { wk with pc := WorkerPc.failing e,
                               batches := wk.batches ++ [(size, some e)] } }) ∨
    (∃ w wk r size, s.workers[w]? = some wk ∧ wk.pc = WorkerPc.committed r size ∧
      t = { s with inserted := wrap64 (s.inserted + size),
                   workers := s.workers.set w { wk with pc := WorkerPc.waiting r } }) ∨
    (∃ w wk e, s.workers[w]? = some wk ∧ wk.pc = WorkerPc.failing e ∧
      (s.results.length : Int) < s.numWorkers ∧
      t = { s with results := s.results ++ [some e],
                   workers := s.workers.set w
                     { wk with pc := WorkerPc.done, sent := wk.sent ++ [some e] } }) ∨
    (∃ w wk, s.workers[w]? = some wk ∧ wk.pc = WorkerPc.finishing ∧
      (s.results.length : Int) < s.numWorkers ∧
      t = { s with results := s.results ++ [none],
                   workers := s.workers.set w
                     { wk with pc := WorkerPc.done, sent := wk.sent ++ [none] } }) := by
  cases a with
  | main =>
    simp only [step, mainStep] at h
    cases hm : s.main with
    | sending i =>
      simp only [hm] at h
      by_cases h1 : i < s.remaining
      · by_cases h2 : (s.jobs.length : Int) < s.jobsCap
        · simp only [h1, h2, if_true, Option.some.injEq] at h
          exact Or.inl ⟨i, rfl, h1, h2, h.symm⟩
        · simp [h1, h2] at h
      · simp only [h1, if_false, Option.some.injEq] at h
        exact Or.inr (Or.inl ⟨i, rfl, h1, h.symm⟩)
    | receiving w fe =>
      simp only [hm] at h
      by_cases h1 : w < s.numWorkers
      · cases hr : s.results with
        | nil => simp [h1, hr] at h
        | cons err rest =>
          simp only [h1, hr, if_true, Option.some.injEq] at h
          exact Or.inr (Or.inr (Or.inl ⟨w, fe, err, rest, rfl, h1, rfl, h.symm⟩))
      · simp only [h1, if_false, Option.some.injEq] at h
        exact Or.inr (Or.inr (Or.inr (Or.inl ⟨w, fe, rfl, h1, h.symm⟩)))
    | returned res => simp [hm] at h
    | panicked => simp [hm] at h
  | start w now =>
    simp only [step, startStep] at h
    cases hw : s.workers[w]? with
    | none => simp [hw] at h
    | some wk =>
      simp only [hw] at h
      cases hpc : wk.pc <;> simp only [hpc, Option.some.injEq, reduceCtorEq] at h
      exact Or.inr (Or.inr (Or.inr (Or.inr (Or.inl ⟨w, wk, _, hw, hpc, h.symm⟩))))
  | work w f =>
    simp only [step, workStep] at h
    cases hw : s.workers[w]? with
    | none => simp [hw] at h
    | some wk =>
      simp only [hw] at h
      cases hpc : wk.pc with
      | created => simp [hpc] at h
      | waiting r =>
        simp only [hpc] at h
        cases hj : s.jobs with
        | nil =>
          by_cases hc : s.jobsClosed = true
          · simp only [hj, hc, if_true, Option.some.injEq] at h
            exact Or.inr (Or.inr (Or.inr (Or.inr (Or.inr (Or.inr (Or.inl
              ⟨w, wk, r, hw, hpc, rfl, hc, by rw [hc]; exact h.symm⟩))))))
          · simp [hj, hc] at h
        | cons size rest =>
          simp only [hj, Option.some.injEq] at h
          exact Or.inr (Or.inr (Or.inr (Or.inr (Or.inr (Or.inl
            ⟨w, wk, r, size, rest, hw, hpc, rfl, h.symm⟩)))))
      | holding r size =>
        simp only [hpc] at h
        cases he : (insertBatch f s.store r size).err with
        | none =>
          simp only [he, Option.some.injEq] at h
          exact Or.inr (Or.inr (Or.inr (Or.inr (Or.inr (Or.inr (Or.inr (Or.inl
            ⟨w, wk, r, size, f, _, hw, hpc, he, h.symm⟩)))))))
        | some e =>
          simp only [he, Option.some.injEq] at h
          exact Or.inr (Or.inr (Or.inr (Or.inr (Or.inr (Or.inr (Or.inr (Or.inr (Or.inl
            ⟨w, wk, r, size, f, _, e, hw, hpc, he, h.symm⟩))))))))
      | committed r size =>
        simp only [hpc, Option.some.injEq] at h
        exact Or.inr (Or.inr (Or.inr (Or.inr (Or.inr (Or.inr (Or.inr (Or.inr (Or.inr (Or.inl
          ⟨w, wk, r, size, hw, hpc, h.symm⟩)))))))))
      | failing e =>
        simp only [hpc] at h
        by_cases hc : (s.results.length : Int) < s.numWorkers
        · simp only [hc, if_true, Option.some.injEq] at h
          exact Or.inr (Or.inr (Or.inr (Or.inr (Or.inr (Or.inr (Or.inr (Or.inr (Or.inr (Or.inr
            (Or.inl ⟨w, wk, e, hw, hpc, hc, h.symm⟩))))))))))
        · simp [hc] at h
      | finishing =>
        simp only [hpc] at h
        by_cases hc : (s.results.length : Int) < s.numWorkers
        · simp only [hc, if_true, Option.some.injEq] at h
          exact Or.inr (Or.inr (Or.inr (Or.inr (Or.inr (Or.inr (Or.inr (Or.inr (Or.inr (Or.inr
            (Or.inr ⟨w, wk, hw, hpc, hc, h.symm⟩))))))))))
        · simp [hc] at h
      | done => simp [hpc] at h


/-! ## Invariants: proofs -/

theorem run_invariant (newSource : Int → Nat → Nat) (P : SeedState → Prop)
    (hstep : ∀ s a t, P s → step newSource s a = some t → P t) :
    ∀ (acts : List Action) (s t : SeedState), P s → run newSource s acts = some t → P t := by
  intro acts
  induction acts with
  | nil =>
    intro s t hs h
    simp only [run, Option.some.injEq] at h
    exact h ▸ hs
  | cons a acts ih =>
    intro s t hs h
    simp only [run] at h
    cases hst : step newSource s a with
    | none => simp [hst] at h
    | some u =>
      simp only [hst] at h
      exact ih u t (hstep s a u hs hst) h

theorem flatMap_set_same {α β : Type} (f : α → List β) : ∀ (l : List α) (w : Nat) (a x : α),
    l[w]? = some a → f x = f a → (l.set w x).flatMap f = l.flatMap f := by
  intro l
  induction l with
  | nil => intro w a x h; simp at h
  | cons b t ih =>
    intro w a x h hf
    cases w with
    | zero =>
      simp only [List.getElem?_cons_zero, Option.some.injEq] at h
      subst h
      simp [List.flatMap_cons, hf]
    | succ w =>
      simp only [List.getElem?_cons_succ] at h
      simp only [List.set_cons_succ, List.flatMap_cons, ih w a x h hf]

theorem flatMap_set_append {α β : Type} (f : α → List β) :
    ∀ (l : List α) (w : Nat) (a x : α) (v : β),
    l[w]? = some a → f x = f a ++ [v] → ((l.set w x).flatMap f).Perm (l.flatMap f ++ [v]) := by
  intro l
  induction l with
  | nil => intro w a x v h; simp at h
  | cons b t ih =>
    intro w a x v h hf
    cases w with
    | zero =>
      simp only [List.getElem?_cons_zero, Option.some.injEq] at h
      subst h
      simp only [List.set_cons_zero, List.flatMap_cons, hf, List.append_assoc]
      exact List.Perm.append_left _ List.perm_append_comm
    | succ w =>
      simp only [List.getElem?_cons_succ] at h
      simp only [List.set_cons_succ, List.flatMap_cons, List.append_assoc]
      exact List.Perm.append_left _ (ih w a x v h hf)

theorem workerInv_mono {d1 d2 : Prop} (h : d1 → d2) (wk : Worker) (hw : WorkerInv d1 wk) :
    WorkerInv d2 wk := by
  unfold WorkerInv at hw ⊢
  cases hpc : wk.pc <;> simp only [hpc] at hw ⊢
  · exact hw
  · exact hw
  · exact hw
  · exact hw
  · exact hw
  · exact ⟨hw.1, hw.2.1, h hw.2.2⟩
  · rcases hw with hw | hw
    · exact Or.inl hw
    · exact Or.inr ⟨hw.1, hw.2.1, h hw.2.2⟩

/-- A transition of worker `w` that leaves the goroutine of `Seed` alone keeps the
invariant, provided the new history of the worker matches its new position. -/
theorem inv_worker_update {s t : SeedState} {w : Nat} {wk wk2 : Worker} (hs : Inv s)
    (hw : s.workers[w]? = some wk) (hwk : t.workers = s.workers.set w wk2)
    (hmain : t.main = s.main) (hrecv : t.received = s.received)
    (hnum : t.numWorkers = s.numWorkers) (hclosed : t.jobsClosed = s.jobsClosed)
    (hdr : s.drained → t.drained) (hinv : WorkerInv t.drained wk2)
    (hout : (wk2.sent = wk.sent ∧ t.results = s.results) ∨
      ∃ v, wk2.sent = wk.sent ++ [v] ∧ t.results = s.results ++ [v]) : Inv t := by
  refine
    { workersLen := ?_, notPanicked := ?_, closed := ?_, sending := ?_, receiving := ?_,
      returned := ?_, workers := ?_, outcomes := ?_ }
  · rw [hwk, List.length_set, hnum]; exact hs.workersLen
  · rw [hmain]; exact hs.notPanicked
  · rw [hmain, hclosed]; exact hs.closed
  · rw [hmain, hrecv]; exact hs.sending
  · rw [hmain, hrecv, hnum]; exact hs.receiving
  · rw [hmain, hrecv, hnum]; exact hs.returned
  · intro x hx
    rw [hwk] at hx
    rcases List.mem_or_eq_of_mem_set hx with hx | hx
    · exact workerInv_mono hdr x (hs.workers x hx)
    · exact hx ▸ hinv
  · rw [hwk, hrecv]
    rcases hout with ⟨h1, h2⟩ | ⟨v, h1, h2⟩
    · rw [h2, flatMap_set_same Worker.sent s.workers w wk wk2 hw h1]
      exact hs.outcomes
    · rw [h2, ← List.append_assoc]
      exact (List.Perm.append_right [v] hs.outcomes).trans
        (flatMap_set_append Worker.sent s.workers w wk wk2 v hw h1).symm


theorem waitForWorkers_snoc (outcomes : List (Option SeedErr)) (err : Option SeedErr) :
    waitForWorkers (outcomes ++ [err]) = mergeOutcome (waitForWorkers outcomes) err := by
  simp [waitForWorkers, List.foldl_append]

theorem inv_step {newSource : Int → Nat → Nat} {s t : SeedState} {a : Action} (hs : Inv s)
    (h : step newSource s a = some t) : Inv t := by
  rcases step_inv h with ⟨i, hm, _, _, rfl⟩ | ⟨i, hm, _, rfl⟩ | ⟨w, fe, err, rest, hm, hlt, hr, rfl⟩ |
    ⟨w, fe, hm, hge, rfl⟩ | ⟨w, wk, r, hw, hpc, rfl⟩ | ⟨w, wk, r, size, rest, hw, hpc, hj, rfl⟩ |
    ⟨w, wk, r, hw, hpc, hj, hc, rfl⟩ | ⟨w, wk, r, size, f, calls, hw, hpc, he, rfl⟩ |
    ⟨w, wk, r, size, f, calls, e, hw, hpc, he, rfl⟩ | ⟨w, wk, r, size, hw, hpc, rfl⟩ |
    ⟨w, wk, e, hw, hpc, _, rfl⟩ | ⟨w, wk, hw, hpc, _, rfl⟩
  · -- send on jobs
    have hopen : ¬ s.jobsClosed = true := fun hc => hs.closed.mp hc i hm
    refine
      { workersLen := hs.workersLen, notPanicked := by simp, closed := ?_, sending := ?_,
        receiving := by simp, returned := by simp, workers := ?_, outcomes := hs.outcomes }
    · constructor
      · intro hc; exact absurd hc hopen
      · intro hall; exact absurd rfl (hall _)
    · intro _ _; exact hs.sending i hm
    · intro x hx
      exact workerInv_mono (fun hd => absurd hd.1 hopen) x (hs.workers x hx)
  · -- close(jobs)
    refine
      { workersLen := hs.workersLen, notPanicked := by simp, closed := by simp, sending := by simp,
        receiving := ?_, returned := by simp, workers := ?_, outcomes := hs.outcomes }
    · intro w fe hwf
      simp only [MainPc.receiving.injEq] at hwf
      obtain ⟨rfl, rfl⟩ := hwf
      have hnil := hs.sending i hm
      have hlen := hs.workersLen
      simp only [hnil, waitForWorkers, List.foldl_nil, List.length_nil, Nat.cast_zero, true_and]
      omega
    · intro x hx
      refine workerInv_mono (fun hd => ?_) x (hs.workers x hx)
      exact ⟨rfl, hd.2⟩
  · -- receive from results
    obtain ⟨h1, h2, h3⟩ := hs.receiving w fe hm
    have hcl : s.jobsClosed = true := hs.closed.mpr (fun i hi => by rw [hm] at hi; cases hi)
    refine
      { workersLen := hs.workersLen, notPanicked := by simp, closed := ?_, sending := by simp,
        receiving := ?_, returned := by simp, workers := hs.workers, outcomes := ?_ }
    · simp [hcl]
    · intro w2 fe2 hwf
      simp only [MainPc.receiving.injEq] at hwf
      obtain ⟨rfl, rfl⟩ := hwf
      refine ⟨?_, ?_, ?_⟩
      · rw [waitForWorkers_snoc, h1]
      · simp only [List.length_append, List.length_singleton]; push_cast; omega
      · dsimp only; omega
    · have := hs.outcomes
      rw [hr] at this
      simpa using this
  · -- return
    obtain ⟨h1, h2, h3⟩ := hs.receiving w fe hm
    have hcl : s.jobsClosed = true := hs.closed.mpr (fun i hi => by rw [hm] at hi; cases hi)
    refine
      { workersLen := hs.workersLen, notPanicked := by simp, closed := ?_, sending := by simp,
        receiving := by simp, returned := ?_, workers := hs.workers, outcomes := hs.outcomes }
    · simp [hcl]
    · intro r hr
      simp only [MainPc.returned.injEq] at hr
      subst hr
      exact ⟨h1, by dsimp only; omega⟩
  · -- line 89
    have hi := hs.workers wk (List.getElem?_mem hw)
    refine inv_worker_update hs hw rfl rfl rfl rfl rfl id ?_ (Or.inl ⟨rfl, rfl⟩)
    unfold WorkerInv at hi ⊢
    simpa [hpc] using hi
  · -- receive from jobs
    have hi := hs.workers wk (List.getElem?_mem hw)
    refine inv_worker_update hs hw rfl rfl rfl rfl rfl ?_ ?_ (Or.inl ⟨rfl, rfl⟩)
    · intro hd
      have := hd.2
      rw [hj] at this
      cases this
    · unfold WorkerInv at hi ⊢
      simpa [hpc] using hi
  · -- end of the range loop
    have hi := hs.workers wk (List.getElem?_mem hw)
    refine inv_worker_update hs hw rfl rfl rfl rfl rfl id ?_ (Or.inl ⟨rfl, rfl⟩)
    unfold WorkerInv at hi ⊢
    simp only [hpc] at hi
    exact ⟨hi.1, hi.2, hc, hj⟩
  · -- insertBatch returns nil
    have hi := hs.workers wk (List.getElem?_mem hw)
    refine inv_worker_update hs hw rfl rfl rfl rfl rfl id ?_ (Or.inl ⟨rfl, rfl⟩)
    unfold WorkerInv at hi ⊢
    simp only [hpc] at hi
    refine ⟨hi.1, ?_⟩
    intro b hb
    rcases List.mem_append.mp hb with hb | hb
    · exact hi.2 b hb
    · simp only [List.mem_singleton] at hb
      rw [hb]
  · -- insertBatch returns an error
    have hi := hs.workers wk (List.getElem?_mem hw)
    refine inv_worker_update hs hw rfl rfl rfl rfl rfl id ?_ (Or.inl ⟨rfl, rfl⟩)
    unfold WorkerInv at hi ⊢
    simp only [hpc] at hi
    exact ⟨hi.1, wk.batches, size, rfl, hi.2⟩
  · -- addition to inserted
    have hi := hs.workers wk (List.getElem?_mem hw)
    refine inv_worker_update hs hw rfl rfl rfl rfl rfl id ?_ (Or.inl ⟨rfl, rfl⟩)
    unfold WorkerInv at hi ⊢
    simpa [hpc] using hi
  · -- send of an error
    have hi := hs.workers wk (List.getElem?_mem hw)
    refine inv_worker_update hs hw rfl rfl rfl rfl rfl id ?_ (Or.inr ⟨some e, rfl, rfl⟩)
    unfold WorkerInv at hi ⊢
    simp only [hpc] at hi
    obtain ⟨h1, oks, size, h2, h3⟩ := hi
    exact Or.inl ⟨e, oks, size, by simp [h1], h2, h3⟩
  · -- send of nil
    have hi := hs.workers wk (List.getElem?_mem hw)
    refine inv_worker_update hs hw rfl rfl rfl rfl rfl id ?_ (Or.inr ⟨none, rfl, rfl⟩)
    unfold WorkerInv at hi ⊢
    simp only [hpc] at hi
    exact Or.inr ⟨by simp [hi.1], hi.2.1, hi.2.2⟩


/-! ## The states in which the transition system starts -/

/-- The state that `seedInit` builds when `Seed` gets past line 83. -/
theorem seedInit_run (seedCountStr workersStr : String) (store : Store)
    (h1 : (store.withVirtual.length : Int) < seedCountOf seedCountStr)
    (h2 : 0 ≤ wrap64 (numWorkersOf workersStr * 2)) (h3 : 0 ≤ numWorkersOf workersStr) :
    seedInit seedCountStr workersStr none store =
      { remaining := seedCountOf seedCountStr - (store.withVirtual.length : Int),
        numWorkers := numWorkersOf workersStr,
        jobsCap := wrap64 (numWorkersOf workersStr * 2), main := MainPc.sending 0, jobs := [],
        jobsClosed := false, results := [],
        workers := List.replicate (numWorkersOf workersStr).toNat
          { pc := WorkerPc.created, batches := [], sent := [] },
        inserted := 0, store := store, sentJobs := [], received := [], execCalls := 0,
        failedBatches := 0 } := by
  unfold seedInit countRows
  have a : ¬ ((store.withVirtual.length : Int) ≥ seedCountOf seedCountStr) := by omega
  have b : ¬ (wrap64 (numWorkersOf workersStr * 2) < 0 ∨ numWorkersOf workersStr < 0) := by omega
  simp only [a, b, if_false]

/-- `Seed` gets past line 83 exactly when the COUNT query succeeds with a count
below the target and neither channel capacity is negative. -/
theorem seedInit_sending (seedCountStr workersStr : String) (countFault : Option StoreErr)
    (store : Store) (i : Int)
    (h : (seedInit seedCountStr workersStr countFault store).main = MainPc.sending i) :
    countFault = none ∧ (store.withVirtual.length : Int) < seedCountOf seedCountStr ∧
      0 ≤ wrap64 (numWorkersOf workersStr * 2) ∧ 0 ≤ numWorkersOf workersStr := by
  unfold seedInit countRows at h
  cases countFault with
  | some e => simp [SeedState.early] at h
  | none =>
    simp only at h
    by_cases a : (store.withVirtual.length : Int) ≥ seedCountOf seedCountStr
    · simp [a, SeedState.early] at h
    · by_cases b : wrap64 (numWorkersOf workersStr * 2) < 0 ∨ numWorkersOf workersStr < 0
      · simp [a, b, SeedState.early] at h
      · exact ⟨rfl, by omega, by omega, by omega⟩

theorem workerInv_created (d : Prop) :
    WorkerInv d { pc := WorkerPc.created, batches := [], sent := [] } := by
  unfold WorkerInv allOk
  simp

theorem flatMap_replicate_nil {α β : Type} (f : α → List β) (a : α) (h : f a = []) :
    ∀ n : Nat, (List.replicate n a).flatMap f = [] := by
  intro n
  induction n with
  | zero => rfl
  | succ n ih => simp [List.replicate_succ, List.flatMap_cons, h, ih]

/-- The state that `seedInit` builds when the count has reached the target. -/
theorem seedInit_skip (seedCountStr workersStr : String) (store : Store)
    (h : seedCountOf seedCountStr ≤ (store.withVirtual.length : Int)) :
    seedInit seedCountStr workersStr none store
      = SeedState.early (MainPc.returned none) (numWorkersOf workersStr) store := by
  unfold seedInit countRows
  have a : (store.withVirtual.length : Int) ≥ seedCountOf seedCountStr := h
  simp only [a, if_true]

/-- The invariant holds when `Seed` gets past line 83. -/
theorem inv_init (seedCountStr workersStr : String) (countFault : Option StoreErr)
    (store : Store) (i : Int)
    (h : (seedInit seedCountStr workersStr countFault store).main = MainPc.sending i) :
    Inv (seedInit seedCountStr workersStr countFault store) := by
  obtain ⟨rfl, h1, h2, h3⟩ := seedInit_sending _ _ _ _ _ h
  rw [seedInit_run _ _ _ h1 h2 h3]
  refine
    { workersLen := ?_, notPanicked := by simp, closed := ?_, sending := by simp,
      receiving := by simp, returned := by simp, workers := ?_, outcomes := ?_ }
  · simp only [List.length_replicate]
    omega
  · constructor
    · intro hc; cases hc
    · intro hall; exact absurd rfl (hall 0)
  · intro wk hwk
    rw [List.eq_of_mem_replicate hwk]
    exact workerInv_created _
  · simp only [List.append_nil]
    rw [flatMap_replicate_nil Worker.sent _ rfl]

/-- The invariant holds in every state that a call of `Seed` that got past line
83 can reach. -/
theorem inv_reachable (newSource : Int → Nat → Nat) (seedCountStr workersStr : String)
    (countFault : Option StoreErr) (store : Store) (acts : List Action) (t : SeedState)
    (h : (seedInit seedCountStr workersStr countFault store).main = MainPc.sending 0)
    (hrun : run newSource (seedInit seedCountStr workersStr countFault store) acts = some t) :
    Inv t :=
  run_invariant newSource Inv (fun _ _ _ hs hst => inv_step hs hst) acts _ t
    (inv_init _ _ _ _ 0 h) hrun

/-- A state in which `Seed` has returned or panicked without any worker has no
transition. -/
theorem early_stuck (newSource : Int → Nat → Nat) (s : SeedState) (a : Action)
    (hw : s.workers = [])
    (hm : (∃ res, s.main = MainPc.returned res) ∨ s.main = MainPc.panicked) :
    step newSource s a = none := by
  cases a with
  | main =>
    rcases hm with ⟨res, hm⟩ | hm <;> simp [step, mainStep, hm]
  | start w now => simp [step, startStep, hw]
  | work w f => simp [step, workStep, hw]

theorem run_of_stuck (newSource : Int → Nat → Nat) (s : SeedState)
    (hstuck : ∀ a, step newSource s a = none) (acts : List Action) (t : SeedState)
    (h : run newSource s acts = some t) : t = s ∧ acts = [] := by
  cases acts with
  | nil =>
    simp only [run, Option.some.injEq] at h
    exact ⟨h.symm, rfl⟩
  | cons a acts => simp [run, hstuck a] at h


/-! ## Workers that have stopped -/

theorem getElem?_set_worker (l : List Worker) (w v : Nat) (wk x : Worker)
    (hw : l[w]? = some wk) :
    (l.set v x)[w]? = if v = w then some x else some wk := by
  rw [List.getElem?_set]
  have hlt : w < l.length := (List.getElem?_eq_some.mp hw).1
  by_cases h : v = w
  · subst h; simp [hlt]
  · simp [h, hw]

/-- A worker whose `insertBatch` call has failed, or that has returned, stays so. -/
theorem stopped_step {newSource : Int → Nat → Nat} {s t : SeedState} {a : Action} (w : Nat)
    (e : SeedErr)
    (hs : ∃ wk, s.workers[w]? = some wk ∧ (wk.pc = WorkerPc.failing e ∨ wk.pc = WorkerPc.done))
    (h : step newSource s a = some t) :
    ∃ wk, t.workers[w]? = some wk ∧ (wk.pc = WorkerPc.failing e ∨ wk.pc = WorkerPc.done) := by
  obtain ⟨wk0, hw0, hpc0⟩ := hs
  rcases step_inv h with ⟨i, hm, _, _, rfl⟩ | ⟨i, hm, _, rfl⟩ | ⟨_, fe, err, rest, hm, hlt, hr, rfl⟩ |
    ⟨_, fe, hm, hge, rfl⟩ | ⟨v, wk, r, hw, hpc, rfl⟩ | ⟨v, wk, r, size, rest, hw, hpc, hj, rfl⟩ |
    ⟨v, wk, r, hw, hpc, hj, hc, rfl⟩ | ⟨v, wk, r, size, f, calls, hw, hpc, he, rfl⟩ |
    ⟨v, wk, r, size, f, calls, e2, hw, hpc, he, rfl⟩ | ⟨v, wk, r, size, hw, hpc, rfl⟩ |
    ⟨v, wk, e2, hw, hpc, _, rfl⟩ | ⟨v, wk, hw, hpc, _, rfl⟩
  · exact ⟨wk0, hw0, hpc0⟩
  · exact ⟨wk0, hw0, hpc0⟩
  · exact ⟨wk0, hw0, hpc0⟩
  · exact ⟨wk0, hw0, hpc0⟩
  all_goals
    simp only [getElem?_set_worker _ w v wk0 _ hw0]
    by_cases hv : v = w
    · subst hv
      rw [hw0] at hw
      simp only [Option.some.injEq] at hw
      subst hw
      rw [hpc] at hpc0
      rw [if_pos rfl]
      first
        | exact ⟨_, rfl, Or.inr rfl⟩
        | (rcases hpc0 with h1 | h1 <;> cases h1)
    · exact ⟨wk0, by simp [hv], hpc0⟩

/-- A transition of a worker whose `insertBatch` call has failed, or that has
returned, changes neither `inserted` nor the tables nor `jobs`. -/
theorem stopped_work_frame {s t : SeedState} (w : Nat) (e : SeedErr) (f : TxFaults)
    (hs : ∃ wk, s.workers[w]? = some wk ∧ (wk.pc = WorkerPc.failing e ∨ wk.pc = WorkerPc.done))
    (h : workStep s w f = some t) :
    t.inserted = s.inserted ∧ t.store = s.store ∧ t.jobs = s.jobs := by
  obtain ⟨wk0, hw0, hpc0⟩ := hs
  unfold workStep at h
  simp only [hw0] at h
  rcases hpc0 with hpc | hpc
  · simp only [hpc] at h
    by_cases hc : (s.results.length : Int) < s.numWorkers
    · simp only [hc, if_true, Option.some.injEq] at h
      subst h
      exact ⟨rfl, rfl, rfl⟩
    · simp [hc] at h
  · simp [hpc] at h

/-! ## The worker goroutine as a function -/

theorem workerRun_sent (bs : List (Int × Option SeedErr)) :
    (workerRun bs).sent = [firstError (bs.map Prod.snd)] := by
  induction bs with
  | nil => rfl
  | cons b rest ih =>
    obtain ⟨size, err⟩ := b
    cases err with
    | none => simpa [workerRun, firstError] using ih
    | some e => simp [workerRun, firstError]

theorem workerRun_append (oks rest : List (Int × Option SeedErr)) (h : allOk oks) :
    (workerRun (oks ++ rest)).taken = oks.length + (workerRun rest).taken ∧
    (workerRun (oks ++ rest)).sent = (workerRun rest).sent ∧
    (workerRun (oks ++ rest)).added = oks.map Prod.fst ++ (workerRun rest).added := by
  induction oks with
  | nil => simp
  | cons b oks ih =>
    obtain ⟨size, err⟩ := b
    have hb : err = none := h (size, err) (List.mem_cons_self _ _)
    subst hb
    obtain ⟨a, b, c⟩ := ih (fun x hx => h x (List.mem_cons_of_mem _ hx))
    refine ⟨?_, ?_, ?_⟩
    · show (workerRun (oks ++ rest)).taken + 1 = (oks.length + 1) + (workerRun rest).taken
      omega
    · show (workerRun (oks ++ rest)).sent = (workerRun rest).sent
      exact b
    · show size :: (workerRun (oks ++ rest)).added
        = size :: (oks.map Prod.fst ++ (workerRun rest).added)
      rw [c]

theorem workerRun_allOk (bs : List (Int × Option SeedErr)) (h : allOk bs) :
    (workerRun bs).taken = bs.length ∧ (workerRun bs).sent = [none] ∧
      (workerRun bs).added = bs.map Prod.fst := by
  have := workerRun_append bs [] h
  simpa [workerRun] using this

theorem workerRun_failure (oks rest : List (Int × Option SeedErr)) (size : Int) (e : SeedErr)
    (h : allOk oks) :
    (workerRun (oks ++ (size, some e) :: rest)).taken = oks.length + 1 ∧
    (workerRun (oks ++ (size, some e) :: rest)).sent = [some e] ∧
    (workerRun (oks ++ (size, some e) :: rest)).added = oks.map Prod.fst := by
  have := workerRun_append oks ((size, some e) :: rest) h
  simpa [workerRun] using this

/-- What the invariant says about the values a worker has sent. -/
theorem workerInv_facts (d : Prop) (wk : Worker) (h : WorkerInv d wk) :
    wk.sent.length ≤ 1 ∧ (wk.pc ≠ WorkerPc.done → wk.sent = []) ∧
    (wk.pc = WorkerPc.done →
      wk.sent = (workerRun wk.batches).sent ∧
      (workerRun wk.batches).taken = wk.batches.length ∧ (wk.sent = [none] → d)) := by
  unfold WorkerInv at h
  cases hpc : wk.pc <;> simp only [hpc] at h
  case done =>
    rcases h with ⟨e, oks, size, h1, h2, h3⟩ | ⟨h1, h2, h3⟩
    · obtain ⟨a, b, _⟩ := workerRun_failure oks [] size e h3
      refine ⟨by simp [h1], fun hne => absurd rfl hne, fun _ => ⟨?_, ?_, ?_⟩⟩
      · rw [h1, h2, b]
      · rw [h2, a]; simp
      · intro hn; rw [h1] at hn; simp at hn
    · obtain ⟨a, b, _⟩ := workerRun_allOk wk.batches h2
      exact ⟨by simp [h1], fun hne => absurd rfl hne, fun _ => ⟨by rw [h1, b], a, fun _ => h3⟩⟩
  all_goals
    exact ⟨by simp [h.1], fun _ => h.1, fun hd => by cases hd⟩

theorem length_flatMap_le {α β : Type} (f : α → List β) : ∀ l : List α,
    (∀ x ∈ l, (f x).length ≤ 1) →
      (l.flatMap f).length ≤ l.length ∧
      (l.length ≤ (l.flatMap f).length → ∀ x ∈ l, (f x).length = 1) := by
  intro l
  induction l with
  | nil => intro _; simp
  | cons a t ih =>
    intro h
    have ha := h a (List.mem_cons_self _ _)
    obtain ⟨i1, i2⟩ := ih (fun x hx => h x (List.mem_cons_of_mem _ hx))
    simp only [List.flatMap_cons, List.length_append, List.length_cons]
    refine ⟨by omega, ?_⟩
    intro hle x hx
    rcases List.mem_cons.mp hx with rfl | hx
    · omega
    · exact i2 (by omega) x hx

theorem flatMap_singleton_map {α β : Type} (f : α → List β) (g : α → β) : ∀ l : List α,
    (∀ x ∈ l, f x = [g x]) → l.flatMap f = l.map g := by
  intro l
  induction l with
  | nil => intro _; rfl
  | cons a t ih =>
    intro h
    simp only [List.flatMap_cons, List.map_cons, h a (List.mem_cons_self _ _),
      ih (fun x hx => h x (List.mem_cons_of_mem _ hx)), List.singleton_append]

/-- When `Seed` has returned, `results` is empty, every worker has returned, and
the values received are the outcomes of the workers up to their order. -/
theorem returned_all_done {t : SeedState} (hinv : Inv t) (res : Option SeedErr)
    (hres : t.main = MainPc.returned res) :
    t.results = [] ∧ t.received.length = t.workers.length ∧
    (∀ wk ∈ t.workers, wk.pc = WorkerPc.done) ∧
    t.received.Perm (t.workers.map (fun wk => firstError (wk.batches.map Prod.snd))) := by
  obtain ⟨_, hlen⟩ := hinv.returned res hres
  have hwl := hinv.workersLen
  have hle : ∀ wk ∈ t.workers, wk.sent.length ≤ 1 :=
    fun wk hwk => (workerInv_facts _ wk (hinv.workers wk hwk)).1
  obtain ⟨c1, c2⟩ := length_flatMap_le Worker.sent t.workers hle
  have hperm := hinv.outcomes
  have hpl := hperm.length_eq
  simp only [List.length_append] at hpl
  have hrl : t.received.length = t.workers.length := by omega
  have hone := c2 (by omega)
  have hdone : ∀ wk ∈ t.workers, wk.pc = WorkerPc.done := by
    intro wk hwk
    by_contra hne
    have := (workerInv_facts _ wk (hinv.workers wk hwk)).2.1 hne
    have h1 := hone wk hwk
    rw [this] at h1
    simp at h1
  have hres0 : t.results = [] := List.eq_nil_of_length_eq_zero (by omega)
  refine ⟨hres0, hrl, hdone, ?_⟩
  rw [hres0, List.append_nil] at hperm
  rw [← flatMap_singleton_map Worker.sent _ t.workers (fun wk hwk => by
    have h3 := (workerInv_facts _ wk (hinv.workers wk hwk)).2.2 (hdone wk hwk)
    rw [h3.1, workerRun_sent])]
  exact hperm

/-! ## The producer loop inside the transition system, at the largest target -/

/-- With `remaining` equal to the largest `int`, the goroutine of `Seed` stays in
the loop of line 121, at an even index. -/
theorem sending_forever_step {newSource : Int → Nat → Nat} {s t : SeedState} {a : Action}
    (hs : s.remaining = 9223372036854775807 ∧
      ∃ i, s.main = MainPc.sending i ∧ i % 2 = 0 ∧ i ≤ 9223372036854775807)
    (h : step newSource s a = some t) :
    t.remaining = 9223372036854775807 ∧
      ∃ i, t.main = MainPc.sending i ∧ i % 2 = 0 ∧ i ≤ 9223372036854775807 := by
  obtain ⟨hr, i0, hm0, he0, hle0⟩ := hs
  rcases step_inv h with ⟨i, hm, _, _, rfl⟩ | ⟨i, hm, hge, rfl⟩ | ⟨_, fe, err, rest, hm, hlt, _, rfl⟩ |
    ⟨_, fe, hm, hge, rfl⟩ | ⟨v, wk, r, hw, hpc, rfl⟩ | ⟨v, wk, r, size, rest, hw, hpc, hj, rfl⟩ |
    ⟨v, wk, r, hw, hpc, hj, hc, rfl⟩ | ⟨v, wk, r, size, f, calls, hw, hpc, he, rfl⟩ |
    ⟨v, wk, r, size, f, calls, e2, hw, hpc, he, rfl⟩ | ⟨v, wk, r, size, hw, hpc, rfl⟩ |
    ⟨v, wk, e2, hw, hpc, _, rfl⟩ | ⟨v, wk, hw, hpc, _, rfl⟩
  · rw [hm0] at hm
    cases hm
    exact ⟨hr, _, rfl, wrap64_even _ (by unfold batchSize; omega), wrap64_le _⟩
  · rw [hm0] at hm
    cases hm
    omega
  · rw [hm0] at hm; cases hm
  · rw [hm0] at hm; cases hm
  all_goals exact ⟨hr, i0, hm0, he0, hle0⟩

/-! ## Conservation of the rows -/

theorem sum_map_set_int (g : Worker → Int) : ∀ (l : List Worker) (w : Nat) (a x : Worker),
    l[w]? = some a → ((l.set w x).map g).sum = (l.map g).sum - g a + g x := by
  intro l
  induction l with
  | nil => intro w a x h; simp at h
  | cons b t ih =>
    intro w a x h
    cases w with
    | zero =>
      simp only [List.getElem?_cons_zero, Option.some.injEq] at h
      subst h
      simp only [List.set_cons_zero, List.map_cons, List.sum_cons]
      omega
    | succ w =>
      simp only [List.getElem?_cons_succ] at h
      simp only [List.set_cons_succ, List.map_cons, List.sum_cons, ih w a x h]
      omega

theorem sum_map_set_nat (g : Worker → Nat) : ∀ (l : List Worker) (w : Nat) (a x : Worker),
    l[w]? = some a → ((l.set w x).map g).sum + g a = (l.map g).sum + g x := by
  intro l
  induction l with
  | nil => intro w a x h; simp at h
  | cons b t ih =>
    intro w a x h
    cases w with
    | zero =>
      simp only [List.getElem?_cons_zero, Option.some.injEq] at h
      subst h
      simp only [List.set_cons_zero, List.map_cons, List.sum_cons]
      omega
    | succ w =>
      simp only [List.getElem?_cons_succ] at h
      have := ih w a x h
      simp only [List.set_cons_succ, List.map_cons, List.sum_cons]
      omega

theorem lostSize_append_ok (bs : List (Int × Option SeedErr)) (size : Int) :
    lostSize (bs ++ [(size, none)]) = lostSize bs := by
  induction bs with
  | nil => rfl
  | cons b rest ih =>
    obtain ⟨sz, err⟩ := b
    cases err with
    | none => simpa [lostSize] using ih
    | some e => simp [lostSize, ih]

theorem lostSize_append_failed (bs : List (Int × Option SeedErr)) (size : Int) (e : SeedErr) :
    lostSize (bs ++ [(size, some e)]) = lostSize bs + size := by
  induction bs with
  | nil => simp [lostSize]
  | cons b rest ih =>
    obtain ⟨sz, err⟩ := b
    cases err with
    | none => simpa [lostSize] using ih
    | some e2 =>
      show sz + lostSize (rest ++ [(size, some e)]) = sz + lostSize rest + size
      rw [ih]
      omega

theorem lostSize_allOk (bs : List (Int × Option SeedErr)) (h : allOk bs) : lostSize bs = 0 := by
  induction bs with
  | nil => rfl
  | cons b rest ih =>
    obtain ⟨sz, err⟩ := b
    have hb : err = none := h (sz, err) (List.mem_cons_self _ _)
    subst hb
    simpa [lostSize] using ih (fun x hx => h x (List.mem_cons_of_mem _ hx))

/-- The rows handed out so far never exceed `remaining`. -/
theorem Flow.sent_le {n0 m0 : Nat} {s : SeedState} (hs : Flow n0 m0 s) :
    s.sentJobs.sum ≤ s.remaining := by
  by_cases h : ∃ i, s.main = MainPc.sending i
  · obtain ⟨i, hi⟩ := h
    have := (hs.sending i hi).2.2.2
    omega
  · have := hs.sentAll (fun i hi => h ⟨i, hi⟩)
    omega

/-- A transition of worker `w` that leaves the goroutine of `Seed` and the jobs
sent alone keeps the facts about the jobs, provided it moves rows between
`jobs`, the worker, `inserted` and the tables without creating or losing any. -/
theorem flow_worker_update {n0 m0 : Nat} {s t : SeedState} {w : Nat} {wk wk2 : Worker}
    (hs : Flow n0 m0 s)
    (hw : s.workers[w]? = some wk) (hwk : t.workers = s.workers.set w wk2)
    (hmain : t.main = s.main) (hrem : t.remaining = s.remaining)
    (hsent : t.sentJobs = s.sentJobs) (hjobs : ∀ j ∈ t.jobs, j ∈ s.jobs)
    (hrange : (wk2.held = 0 ∨ 1 ≤ wk2.held) ∧ 0 ≤ wk2.unadded ∧ 0 ≤ lostSize wk2.batches)
    (hcons : t.jobs.sum + wk2.held + t.inserted + lostSize wk2.batches
      = s.jobs.sum + wk.held + s.inserted + lostSize wk.batches)
    (hins : 0 ≤ t.inserted)
    (hrowsWith : (t.store.withVirtual.length : Int) - t.inserted - wk2.unadded
      = (s.store.withVirtual.length : Int) - s.inserted - wk.unadded)
    (hrowsWithout : (t.store.withoutVirtual.length : Int) - t.inserted - wk2.unadded
      = (s.store.withoutVirtual.length : Int) - s.inserted - wk.unadded) : Flow n0 m0 t := by
  have e1 := sum_map_set_int Worker.held s.workers w wk wk2 hw
  have e2 := sum_map_set_int (fun wk => lostSize wk.batches) s.workers w wk wk2 hw
  have e3 := sum_map_set_int Worker.unadded s.workers w wk wk2 hw
  simp only at e2
  refine
    { remPos := by rw [hrem]; exact hs.remPos, remLe := by rw [hrem]; exact hs.remLe,
      sending := by rw [hmain, hrem, hsent]; exact hs.sending,
      sentAll := by rw [hmain, hrem, hsent]; exact hs.sentAll,
      jobsRange := fun j hj => hs.jobsRange j (hjobs j hj),
      heldRange := ?_, conservation := ?_, insertedNonneg := hins, rowsWith := ?_,
      rowsWithout := ?_ }
  · intro x hx
    rw [hwk] at hx
    rcases List.mem_or_eq_of_mem_set hx with hx | hx
    · exact hs.heldRange x hx
    · exact hx ▸ hrange
  · have := hs.conservation
    rw [hwk, hsent, e1, e2]
    omega
  · have := hs.rowsWith
    rw [hwk, e3]
    omega
  · have := hs.rowsWithout
    rw [hwk, e3]
    omega

theorem flow_step {newSource : Int → Nat → Nat} {n0 m0 : Nat} {s t : SeedState} {a : Action}
    (hs : Flow n0 m0 s) (h : step newSource s a = some t) : Flow n0 m0 t := by
  have hsle := hs.sent_le
  rcases step_inv h with ⟨i, hm, hlt, _, rfl⟩ | ⟨i, hm, hge, rfl⟩ | ⟨_, fe, err, rest, hm, _, _, rfl⟩ |
    ⟨_, fe, hm, _, rfl⟩ | ⟨w, wk, r, hw, hpc, rfl⟩ | ⟨w, wk, r, size, rest, hw, hpc, hj, rfl⟩ |
    ⟨w, wk, r, hw, hpc, hj, hc, rfl⟩ | ⟨w, wk, r, size, f, calls, hw, hpc, he, rfl⟩ |
    ⟨w, wk, r, size, f, calls, e, hw, hpc, he, rfl⟩ | ⟨w, wk, r, size, hw, hpc, rfl⟩ |
    ⟨w, wk, e, hw, hpc, _, rfl⟩ | ⟨w, wk, hw, hpc, _, rfl⟩
  · -- send on jobs
    obtain ⟨h0, h5, hi, hsum⟩ := hs.sending i hm
    have hrp := hs.remPos
    have hrl := hs.remLe
    have hnext : nextIndex i = i + 5000 := by
      unfold nextIndex batchSize
      exact wrap64_of_inRange _ (by omega) (by omega)
    have hjob : jobSize s.remaining i = min 5000 (s.remaining - i) := by
      unfold jobSize batchSize
      rw [wrap64_of_inRange _ (by omega) (by omega)]
    have hcons := hs.conservation
    refine
      { remPos := hs.remPos, remLe := hs.remLe, sending := ?_, sentAll := ?_, jobsRange := ?_,
        heldRange := hs.heldRange, conservation := ?_, insertedNonneg := hs.insertedNonneg,
        rowsWith := hs.rowsWith, rowsWithout := hs.rowsWithout }
    · intro i2 hi2
      simp only [MainPc.sending.injEq] at hi2
      subst hi2
      simp only [hnext, hjob, List.sum_append, List.sum_singleton, hsum]
      omega
    · intro hall
      exact absurd rfl (hall _)
    · intro j hj
      rcases List.mem_append.mp hj with hj | hj
      · exact hs.jobsRange j hj
      · simp only [List.mem_singleton] at hj
        rw [hj, hjob]
        omega
    · simp only [List.sum_append, List.sum_singleton]
      omega
  · -- close(jobs)
    obtain ⟨h0, h5, hi, hsum⟩ := hs.sending i hm
    refine
      { remPos := hs.remPos, remLe := hs.remLe, sending := by simp, sentAll := ?_,
        jobsRange := hs.jobsRange, heldRange := hs.heldRange, conservation := hs.conservation,
        insertedNonneg := hs.insertedNonneg, rowsWith := hs.rowsWith,
        rowsWithout := hs.rowsWithout }
    intro _
    show s.sentJobs.sum = s.remaining
    omega
  · -- receive from results
    have hall := hs.sentAll (fun i hi => by rw [hm] at hi; cases hi)
    exact
      { remPos := hs.remPos, remLe := hs.remLe, sending := by simp, sentAll := fun _ => hall,
        jobsRange := hs.jobsRange, heldRange := hs.heldRange, conservation := hs.conservation,
        insertedNonneg := hs.insertedNonneg, rowsWith := hs.rowsWith,
        rowsWithout := hs.rowsWithout }
  · -- return
    have hall := hs.sentAll (fun i hi => by rw [hm] at hi; cases hi)
    exact
      { remPos := hs.remPos, remLe := hs.remLe, sending := by simp, sentAll := fun _ => hall,
        jobsRange := hs.jobsRange, heldRange := hs.heldRange, conservation := hs.conservation,
        insertedNonneg := hs.insertedNonneg, rowsWith := hs.rowsWith,
        rowsWithout := hs.rowsWithout }
  · -- line 89
    have hr := hs.heldRange wk (List.getElem?_mem hw)
    have e1 : wk.held = 0 := by simp [Worker.held, hpc]
    have e2 : wk.unadded = 0 := by simp [Worker.unadded, hpc]
    refine flow_worker_update hs hw rfl rfl rfl rfl (fun j hj => hj) ?_ ?_ hs.insertedNonneg ?_ ?_
    · exact ⟨Or.inl rfl, le_refl _, hr.2.2⟩
    · rw [e1]; rfl
    · rw [e2]; rfl
    · rw [e2]; rfl
  · -- receive from jobs
    have hr := hs.heldRange wk (List.getElem?_mem hw)
    have e1 : wk.held = 0 := by simp [Worker.held, hpc]
    have e2 : wk.unadded = 0 := by simp [Worker.unadded, hpc]
    have hsz := hs.jobsRange size (by rw [hj]; exact List.mem_cons_self _ _)
    refine flow_worker_update hs hw rfl rfl rfl rfl ?_ ?_ ?_ hs.insertedNonneg ?_ ?_
    · intro j hjm
      rw [hj]
      exact List.mem_cons_of_mem _ hjm
    · exact ⟨Or.inr hsz.1, le_refl _, hr.2.2⟩
    · rw [e1, hj, List.sum_cons]
      show rest.sum + size + s.inserted + lostSize wk.batches = _
      omega
    · rw [e2]; rfl
    · rw [e2]; rfl
  · -- end of the range loop
    have hr := hs.heldRange wk (List.getElem?_mem hw)
    have e1 : wk.held = 0 := by simp [Worker.held, hpc]
    have e2 : wk.unadded = 0 := by simp [Worker.unadded, hpc]
    refine flow_worker_update hs hw rfl rfl rfl rfl (fun j hj => hj) ?_ ?_ hs.insertedNonneg ?_ ?_
    · exact ⟨Or.inl rfl, le_refl _, hr.2.2⟩
    · rw [e1]; rfl
    · rw [e2]; rfl
    · rw [e2]; rfl
  · -- insertBatch returns nil
    have hr := hs.heldRange wk (List.getElem?_mem hw)
    have e1 : wk.held = size := by simp [Worker.held, hpc]
    have e2 : wk.unadded = 0 := by simp [Worker.unadded, hpc]
    obtain ⟨a1, a2, _⟩ := insertBatch_ok f s.store r size he
    have hlen := recordStream_length size.toNat r
    have hsz0 : 0 ≤ size := by
      have := hr.1
      omega
    have hsz : ((size.toNat : Nat) : Int) = size := by omega
    refine flow_worker_update hs hw rfl rfl rfl rfl (fun j hj => hj) ?_ ?_ hs.insertedNonneg ?_ ?_
    · refine ⟨?_, ?_, ?_⟩
      · show size = 0 ∨ 1 ≤ size
        omega
      · exact hsz0
      · show 0 ≤ lostSize (wk.batches ++ [(size, none)])
        rw [lostSize_append_ok]
        exact hr.2.2
    · show s.jobs.sum + size + s.inserted + lostSize (wk.batches ++ [(size, none)]) = _
      rw [lostSize_append_ok, e1]
    · show (((insertBatch f s.store r size).store.withVirtual.length : Nat) : Int)
        - s.inserted - size = _
      rw [a1, List.length_append, hlen, e2]
      push_cast
      omega
    · show (((insertBatch f s.store r size).store.withoutVirtual.length : Nat) : Int)
        - s.inserted - size = _
      rw [a2, List.length_append, hlen, e2]
      push_cast
      omega
  · -- insertBatch returns an error
    have hr := hs.heldRange wk (List.getElem?_mem hw)
    have e1 : wk.held = size := by simp [Worker.held, hpc]
    have e2 : wk.unadded = 0 := by simp [Worker.unadded, hpc]
    have hst := (insertBatch_error_frame f s.store r size (by rw [he]; simp)).1
    have hsz0 : 0 ≤ size := by
      have := hr.1
      omega
    refine flow_worker_update hs hw rfl rfl rfl rfl (fun j hj => hj) ?_ ?_ hs.insertedNonneg ?_ ?_
    · refine ⟨Or.inl rfl, le_refl _, ?_⟩
      show 0 ≤ lostSize (wk.batches ++ [(size, some e)])
      rw [lostSize_append_failed]
      have := hr.2.2
      omega
    · show s.jobs.sum + 0 + s.inserted + lostSize (wk.batches ++ [(size, some e)]) = _
      rw [lostSize_append_failed, e1]
      omega
    · show (((insertBatch f s.store r size).store.withVirtual.length : Nat) : Int)
        - s.inserted - 0 = _
      rw [hst, e2]
    · show (((insertBatch f s.store r size).store.withoutVirtual.length : Nat) : Int)
        - s.inserted - 0 = _
      rw [hst, e2]
  · -- addition to inserted
    have hr := hs.heldRange wk (List.getElem?_mem hw)
    have e1 : wk.held = size := by simp [Worker.held, hpc]
    have e2 : wk.unadded = size := by simp [Worker.unadded, hpc]
    have hcons := hs.conservation
    have hins := hs.insertedNonneg
    have hrl := hs.remLe
    have hjn : 0 ≤ s.jobs.sum := List.sum_nonneg (fun j hj => by have := hs.jobsRange j hj; omega)
    have hln : 0 ≤ (s.workers.map (fun wk => lostSize wk.batches)).sum :=
      List.sum_nonneg (fun x hx => by
        obtain ⟨y, hy, rfl⟩ := List.mem_map.mp hx
        exact (hs.heldRange y hy).2.2)
    have hhn : wk.held ≤ (s.workers.map Worker.held).sum :=
      List.single_le_sum (fun x hx => by
        obtain ⟨y, hy, rfl⟩ := List.mem_map.mp hx
        have := (hs.heldRange y hy).1
        omega) _ (List.mem_map.mpr ⟨wk, List.getElem?_mem hw, rfl⟩)
    have hsize : 0 ≤ size := by
      have := hr.1
      omega
    have hwrap : wrap64 (s.inserted + size) = s.inserted + size :=
      wrap64_of_inRange _ (by omega) (by omega)
    refine flow_worker_update hs hw rfl rfl rfl rfl (fun j hj => hj) ?_ ?_ ?_ ?_ ?_
    · exact ⟨Or.inl rfl, le_refl _, hr.2.2⟩
    · show s.jobs.sum + 0 + wrap64 (s.inserted + size) + lostSize wk.batches = _
      rw [hwrap, e1]
      omega
    · show 0 ≤ wrap64 (s.inserted + size)
      rw [hwrap]
      omega
    · show ((s.store.withVirtual.length : Nat) : Int) - wrap64 (s.inserted + size) - 0 = _
      rw [hwrap, e2]
      omega
    · show ((s.store.withoutVirtual.length : Nat) : Int) - wrap64 (s.inserted + size) - 0 = _
      rw [hwrap, e2]
      omega
  · -- send of an error
    have hr := hs.heldRange wk (List.getElem?_mem hw)
    have e1 : wk.held = 0 := by simp [Worker.held, hpc]
    have e2 : wk.unadded = 0 := by simp [Worker.unadded, hpc]
    refine flow_worker_update hs hw rfl rfl rfl rfl (fun j hj => hj) ?_ ?_ hs.insertedNonneg ?_ ?_
    · exact ⟨Or.inl rfl, le_refl _, hr.2.2⟩
    · rw [e1]; rfl
    · rw [e2]; rfl
    · rw [e2]; rfl
  · -- send of nil
    have hr := hs.heldRange wk (List.getElem?_mem hw)
    have e1 : wk.held = 0 := by simp [Worker.held, hpc]
    have e2 : wk.unadded = 0 := by simp [Worker.unadded, hpc]
    refine flow_worker_update hs hw rfl rfl rfl rfl (fun j hj => hj) ?_ ?_ hs.insertedNonneg ?_ ?_
    · exact ⟨Or.inl rfl, le_refl _, hr.2.2⟩
    · rw [e1]; rfl
    · rw [e2]; rfl
    · rw [e2]; rfl

/-! ## Every run is finite -/

/-- Every transition lowers the measure. -/
theorem measure_step {newSource : Int → Nat → Nat} {n0 m0 : Nat} {s t : SeedState} {a : Action}
    (hs : Flow n0 m0 s) (h : step newSource s a = some t) : measure t < measure s := by
  rcases step_inv h with ⟨i, hm, hlt, _, rfl⟩ | ⟨i, hm, hge, rfl⟩ | ⟨v, fe, err, rest, hm, hv, hr, rfl⟩ |
    ⟨v, fe, hm, _, rfl⟩ | ⟨w, wk, r, hw, hpc, rfl⟩ | ⟨w, wk, r, size, rest, hw, hpc, hj, rfl⟩ |
    ⟨w, wk, r, hw, hpc, hj, hc, rfl⟩ | ⟨w, wk, r, size, f, calls, hw, hpc, he, rfl⟩ |
    ⟨w, wk, r, size, f, calls, e, hw, hpc, he, rfl⟩ | ⟨w, wk, r, size, hw, hpc, rfl⟩ |
    ⟨w, wk, e, hw, hpc, _, rfl⟩ | ⟨w, wk, hw, hpc, _, rfl⟩
  · obtain ⟨h0, h5, hi, hsum⟩ := hs.sending i hm
    have hrl := hs.remLe
    have hnext : nextIndex i = i + 5000 := by
      unfold nextIndex batchSize
      exact wrap64_of_inRange _ (by omega) (by omega)
    simp only [measure, mainCost, hm, hnext, List.length_append, List.length_singleton]
    omega
  · simp only [measure, mainCost, hm]
    omega
  · simp only [measure, mainCost, hm, hr, List.length_cons]
    omega
  · simp only [measure, mainCost, hm]
    omega
  · have e := sum_map_set_nat Worker.cost s.workers w wk
      { wk with pc := WorkerPc.waiting r } hw
    have c1 : wk.cost = 3 := by simp [Worker.cost, hpc]
    have c2 : ({ wk with pc := WorkerPc.waiting r } : Worker).cost = 2 := rfl
    simp only [measure, mainCost]
    omega
  · have e := sum_map_set_nat Worker.cost s.workers w wk
      { wk with pc := WorkerPc.holding r size } hw
    have c1 : wk.cost = 2 := by simp [Worker.cost, hpc]
    have c2 : ({ wk with pc := WorkerPc.holding r size } : Worker).cost = 4 := rfl
    simp only [measure, mainCost, hj, List.length_cons]
    omega
  · have e := sum_map_set_nat Worker.cost s.workers w wk
      { wk with pc := WorkerPc.finishing } hw
    have c1 : wk.cost = 2 := by simp [Worker.cost, hpc]
    have c2 : ({ wk with pc := WorkerPc.finishing } : Worker).cost = 1 := rfl
    simp only [measure, mainCost]
    omega
  · have e := sum_map_set_nat Worker.cost s.workers w wk
      { wk with pc := WorkerPc.committed (insertBatch f s.store r size).rng size,
                batches := wk.batches ++ [(size, none)] } hw
    have c1 : wk.cost = 4 := by simp [Worker.cost, hpc]
    have c2 : ({ wk with pc := WorkerPc.committed (insertBatch f s.store r size).rng size,
                         batches := wk.batches ++ [(size, none)] } : Worker).cost = 3 := rfl
    simp only [measure, mainCost]
    omega
  · have e1 := sum_map_set_nat Worker.cost s.workers w wk
      { wk with pc := WorkerPc.failing e, batches := wk.batches ++ [(size, some e)] } hw
    have c1 : wk.cost = 4 := by simp [Worker.cost, hpc]
    have c2 : ({ wk with pc := WorkerPc.failing e,
                         batches := wk.batches ++ [(size, some e)] } : Worker).cost = 1 := rfl
    simp only [measure, mainCost]
    omega
  · have e := sum_map_set_nat Worker.cost s.workers w wk
      { wk with pc := WorkerPc.waiting r } hw
    have c1 : wk.cost = 3 := by simp [Worker.cost, hpc]
    have c2 : ({ wk with pc := WorkerPc.waiting r } : Worker).cost = 2 := rfl
    simp only [measure, mainCost]
    omega
  · have e1 := sum_map_set_nat Worker.cost s.workers w wk
      { wk with pc := WorkerPc.done, sent := wk.sent ++ [some e] } hw
    have c1 : wk.cost = 1 := by simp [Worker.cost, hpc]
    have c2 : ({ wk with pc := WorkerPc.done, sent := wk.sent ++ [some e] } : Worker).cost = 0 :=
      rfl
    simp only [measure, mainCost]
    omega
  · have e1 := sum_map_set_nat Worker.cost s.workers w wk
      { wk with pc := WorkerPc.done, sent := wk.sent ++ [none] } hw
    have c1 : wk.cost = 1 := by simp [Worker.cost, hpc]
    have c2 : ({ wk with pc := WorkerPc.done, sent := wk.sent ++ [none] } : Worker).cost = 0 :=
      rfl
    simp only [measure, mainCost]
    omega

/-- A run is no longer than the measure of the state it starts from. -/
theorem run_length_le (newSource : Int → Nat → Nat) (n0 m0 : Nat) :
    ∀ (acts : List Action) (s t : SeedState), Flow n0 m0 s → run newSource s acts = some t →
      acts.length + measure t ≤ measure s := by
  intro acts
  induction acts with
  | nil =>
    intro s t _ h
    simp only [run, Option.some.injEq] at h
    subst h
    simp
  | cons a acts ih =>
    intro s t hs h
    simp only [run] at h
    cases hst : step newSource s a with
    | none => simp [hst] at h
    | some u =>
      simp only [hst] at h
      have h1 := measure_step hs hst
      have h2 := ih u t (flow_step hs hst) h
      simp only [List.length_cons]
      omega

/-! ## Runs in which no call of `insertBatch` fails -/

/-- A transition changes none of `remaining`, `numWorkers` and the capacity of
`jobs`, and does not lower the number of failed calls. -/
theorem step_constants {newSource : Int → Nat → Nat} {s t : SeedState} {a : Action}
    (h : step newSource s a = some t) :
    t.remaining = s.remaining ∧ t.numWorkers = s.numWorkers ∧ t.jobsCap = s.jobsCap ∧
      s.failedBatches ≤ t.failedBatches := by
  rcases step_inv h with ⟨i, hm, hlt, _, rfl⟩ | ⟨i, hm, hge, rfl⟩ | ⟨v, fe, err, rest, hm, hv, hr, rfl⟩ |
    ⟨v, fe, hm, _, rfl⟩ | ⟨w, wk, r, hw, hpc, rfl⟩ | ⟨w, wk, r, size, rest, hw, hpc, hj, rfl⟩ |
    ⟨w, wk, r, hw, hpc, hj, hc, rfl⟩ | ⟨w, wk, r, size, f, calls, hw, hpc, he, rfl⟩ |
    ⟨w, wk, r, size, f, calls, e, hw, hpc, he, rfl⟩ | ⟨w, wk, r, size, hw, hpc, rfl⟩ |
    ⟨w, wk, e, hw, hpc, _, rfl⟩ | ⟨w, wk, hw, hpc, _, rfl⟩ <;>
  exact ⟨rfl, rfl, rfl, by simp⟩

theorem nofail_step {newSource : Int → Nat → Nat} {s t : SeedState} {a : Action}
    (hs : NoFail s) (h : step newSource s a = some t) : NoFail t := by
  intro hfb
  have hle := (step_constants h).2.2.2
  have hs0 := hs (by omega)
  rcases step_inv h with ⟨i, hm, hlt, _, rfl⟩ | ⟨i, hm, hge, rfl⟩ | ⟨v, fe, err, rest, hm, hv, hr, rfl⟩ |
    ⟨v, fe, hm, _, rfl⟩ | ⟨w, wk, r, hw, hpc, rfl⟩ | ⟨w, wk, r, size, rest, hw, hpc, hj, rfl⟩ |
    ⟨w, wk, r, hw, hpc, hj, hc, rfl⟩ | ⟨w, wk, r, size, f, calls, hw, hpc, he, rfl⟩ |
    ⟨w, wk, r, size, f, calls, e, hw, hpc, he, rfl⟩ | ⟨w, wk, r, size, hw, hpc, rfl⟩ |
    ⟨w, wk, e, hw, hpc, _, rfl⟩ | ⟨w, wk, hw, hpc, _, rfl⟩
  · exact hs0
  · exact hs0
  · exact hs0
  · exact hs0
  all_goals
    have hwk := hs0 wk (List.getElem?_mem hw)
    intro x hx
    rcases List.mem_or_eq_of_mem_set hx with hx | hx
    · exact hs0 x hx
    · subst hx
      first
        | exact ⟨fun e2 he2 => by simp at he2, hwk.2⟩
        | (refine ⟨fun e2 he2 => by simp at he2, ?_⟩
           intro b hb
           rcases List.mem_append.mp hb with hb | hb
           · exact hwk.2 b hb
           · simp only [List.mem_singleton] at hb
             rw [hb])
        | (simp at hfb)

theorem length_flatMap_lt {α β : Type} (f : α → List β) : ∀ l : List α,
    (∀ x ∈ l, (f x).length ≤ 1) → (∃ x ∈ l, f x = []) → (l.flatMap f).length < l.length := by
  intro l
  induction l with
  | nil => intro _ h; obtain ⟨x, hx, _⟩ := h; cases hx
  | cons a t ih =>
    intro h hex
    have ha := h a (List.mem_cons_self _ _)
    have ht := (length_flatMap_le f t (fun x hx => h x (List.mem_cons_of_mem _ hx))).1
    simp only [List.flatMap_cons, List.length_append, List.length_cons]
    obtain ⟨x, hx, hfx⟩ := hex
    rcases List.mem_cons.mp hx with rfl | hx
    · rw [hfx]; simp only [List.length_nil]; omega
    · have := ih (fun y hy => h y (List.mem_cons_of_mem _ hy)) ⟨x, hx, hfx⟩
      omega

/-- In a state of a call of `Seed` that got past line 83, a worker that has not
sent its outcome finds room in `results`. -/
theorem results_has_room {s : SeedState} (hinv : Inv s) (wk : Worker) (hwk : wk ∈ s.workers)
    (hsent : wk.sent = []) : (s.results.length : Int) < s.numWorkers := by
  have hle : ∀ x ∈ s.workers, x.sent.length ≤ 1 :=
    fun x hx => (workerInv_facts _ x (hinv.workers x hx)).1
  have hlt := length_flatMap_lt Worker.sent s.workers hle ⟨wk, hwk, hsent⟩
  have hpl := hinv.outcomes.length_eq
  simp only [List.length_append] at hpl
  have := hinv.workersLen
  omega

theorem insertBatch_ok_faults (store : Store) (r : Rand) (count : Int) :
    (insertBatch TxFaults.ok store r count).err = none :=
  insertBatch_succeeds TxFaults.ok store r count rfl rfl rfl (fun _ _ => ⟨rfl, rfl⟩) rfl

theorem work_ok_failedBatches {newSource : Int → Nat → Nat} {s t : SeedState} (w : Nat)
    (h : step newSource s (Action.work w TxFaults.ok) = some t) :
    t.failedBatches = s.failedBatches := by
  simp only [step, workStep] at h
  cases hw : s.workers[w]? with
  | none => simp [hw] at h
  | some wk =>
    simp only [hw] at h
    cases hpc : wk.pc with
    | holding r size =>
      have hok := insertBatch_ok_faults s.store r size
      simp only [hpc, hok, Option.some.injEq] at h
      rw [← h]
    | _ =>
      simp only [hpc] at h
      repeat' split at h
      all_goals first
        | (cases h; rfl)
        | cases h

theorem main_failedBatches {newSource : Int → Nat → Nat} {s t : SeedState}
    (h : step newSource s Action.main = some t) :
    t.failedBatches = s.failedBatches := by
  simp only [step, mainStep] at h
  repeat' split at h
  all_goals first
    | (cases h; rfl)
    | cases h

theorem start_failedBatches {newSource : Int → Nat → Nat} {s t : SeedState} (w : Nat) (now : Int)
    (h : step newSource s (Action.start w now) = some t) :
    t.failedBatches = s.failedBatches := by
  simp only [step, startStep] at h
  repeat' split at h
  all_goals first
    | (cases h; rfl)
    | cases h

/-- A transition that is possible and in which the store fails no call. -/
theorem exists_ok_step (newSource : Int → Nat → Nat) {s : SeedState} (a : Action)
    (ha : a = Action.main ∨ (∃ w now, a = Action.start w now) ∨
      ∃ w, a = Action.work w TxFaults.ok)
    (hfb : s.failedBatches = 0) (hsome : (step newSource s a).isSome = true) :
    ∃ a t, step newSource s a = some t ∧ t.failedBatches = 0 := by
  obtain ⟨t, ht⟩ := Option.isSome_iff_exists.mp hsome
  refine ⟨a, t, ht, ?_⟩
  rcases ha with rfl | ⟨w, now, rfl⟩ | ⟨w, rfl⟩
  · rw [main_failedBatches ht, hfb]
  · rw [start_failedBatches w now ht, hfb]
  · rw [work_ok_failedBatches w ht, hfb]

/-- While no call of `insertBatch` has failed and `Seed` has not returned, with at
least one worker and a queue of capacity `2 * numWorkers`, some goroutine has a
transition in which no call of `insertBatch` fails. -/
theorem progress_nofail (newSource : Int → Nat → Nat) {s : SeedState} (hinv : Inv s)
    (hnf : NoFail s) (hfb : s.failedBatches = 0) (hW : 1 ≤ s.numWorkers)
    (hcap : s.jobsCap = 2 * s.numWorkers) (hnr : ∀ res, s.main ≠ MainPc.returned res) :
    ∃ a t, step newSource s a = some t ∧ t.failedBatches = 0 := by
  have hall := hnf hfb
  by_cases hA : ∃ (w : Nat) (wk : Worker), s.workers[w]? = some wk ∧
      (wk.pc = WorkerPc.created ∨ (∃ r size, wk.pc = WorkerPc.holding r size) ∨
        (∃ r size, wk.pc = WorkerPc.committed r size) ∨ wk.pc = WorkerPc.finishing)
  · obtain ⟨w, wk, hw, hpc⟩ := hA
    rcases hpc with hpc | ⟨r, size, hpc⟩ | ⟨r, size, hpc⟩ | hpc
    · exact exists_ok_step newSource (Action.start w 0) (Or.inr (Or.inl ⟨_, _, rfl⟩)) hfb
        (by simp only [step, startStep, hw, hpc, Option.isSome_some])
    · have hok := insertBatch_ok_faults s.store r size
      exact exists_ok_step newSource (Action.work w TxFaults.ok) (Or.inr (Or.inr ⟨_, rfl⟩)) hfb
        (by simp only [step, workStep, hw, hpc, hok, Option.isSome_some])
    · exact exists_ok_step newSource (Action.work w TxFaults.ok) (Or.inr (Or.inr ⟨_, rfl⟩)) hfb
        (by simp only [step, workStep, hw, hpc, Option.isSome_some])
    · have hwi := hinv.workers wk (List.getElem?_mem hw)
      have hsent : wk.sent = [] := by
        unfold WorkerInv at hwi
        simp only [hpc] at hwi
        exact hwi.1
      have hroom := results_has_room hinv wk (List.getElem?_mem hw) hsent
      exact exists_ok_step newSource (Action.work w TxFaults.ok) (Or.inr (Or.inr ⟨_, rfl⟩)) hfb
        (by simp only [step, workStep, hw, hpc, hroom, if_true, Option.isSome_some])
  · -- every worker is at the receive of line 90 or has returned
    have hB : ∀ (w : Nat) (wk : Worker), s.workers[w]? = some wk →
        (∃ r, wk.pc = WorkerPc.waiting r) ∨ wk.pc = WorkerPc.done := by
      intro w wk hw
      cases hpc : wk.pc with
      | created => exact absurd ⟨w, wk, hw, Or.inl hpc⟩ hA
      | waiting r => exact Or.inl ⟨r, rfl⟩
      | holding r size => exact absurd ⟨w, wk, hw, Or.inr (Or.inl ⟨r, size, hpc⟩)⟩ hA
      | committed r size =>
        exact absurd ⟨w, wk, hw, Or.inr (Or.inr (Or.inl ⟨r, size, hpc⟩))⟩ hA
      | failing e => exact absurd hpc ((hall wk (List.getElem?_mem hw)).1 e)
      | finishing => exact absurd ⟨w, wk, hw, Or.inr (Or.inr (Or.inr hpc))⟩ hA
      | done => exact Or.inr rfl
    -- a worker that has returned has found jobs closed
    have hdone : ∀ wk ∈ s.workers, wk.pc = WorkerPc.done → s.jobsClosed = true := by
      intro wk hwk hpc
      have hwi := hinv.workers wk hwk
      unfold WorkerInv at hwi
      simp only [hpc] at hwi
      rcases hwi with ⟨e, oks, size, _, hb, _⟩ | ⟨_, _, hd⟩
      · have := (hall wk hwk).2 (size, some e) (by rw [hb]; simp)
        cases this
      · exact hd.1
    cases hm : s.main with
    | sending i =>
      by_cases hlt : i < s.remaining
      · by_cases hroom : (s.jobs.length : Int) < s.jobsCap
        · exact exists_ok_step newSource (Action.main) (Or.inl rfl) hfb
            (by simp only [step, mainStep, hm, hlt, hroom, if_true, Option.isSome_some])
        · have hopen : ¬ s.jobsClosed = true := fun hc => hinv.closed.mp hc i hm
          have hwl := hinv.workersLen
          have h0 : 0 < s.workers.length := by omega
          obtain ⟨wk, hw⟩ : ∃ wk, s.workers[0]? = some wk :=
            ⟨s.workers[0], List.getElem?_eq_getElem h0⟩
          cases hj : s.jobs with
          | nil =>
            rw [hj] at hroom
            simp only [List.length_nil, Nat.cast_zero] at hroom
            omega
          | cons size rest =>
            rcases hB 0 wk hw with ⟨r, hpc⟩ | hpc
            · exact exists_ok_step newSource (Action.work 0 TxFaults.ok) (Or.inr (Or.inr ⟨_, rfl⟩)) hfb
                (by simp only [step, workStep, hw, hpc, hj, Option.isSome_some])
            · exact absurd (hdone wk (List.getElem?_mem hw) hpc) hopen
      · exact exists_ok_step newSource (Action.main) (Or.inl rfl) hfb
          (by simp only [step, mainStep, hm, hlt, if_false, Option.isSome_some])
    | receiving v fe =>
      obtain ⟨_, hv, _⟩ := hinv.receiving v fe hm
      have hclosed : s.jobsClosed = true :=
        hinv.closed.mpr (fun i hi => by rw [hm] at hi; cases hi)
      by_cases hlt : v < s.numWorkers
      · cases hr : s.results with
        | cons err rest =>
          exact exists_ok_step newSource (Action.main) (Or.inl rfl) hfb
            (by simp only [step, mainStep, hm, hlt, hr, if_true, Option.isSome_some])
        | nil =>
          have hwl := hinv.workersLen
          have hpl := hinv.outcomes.length_eq
          simp only [hr, List.append_nil] at hpl
          have hex : ∃ (w : Nat) (wk : Worker), s.workers[w]? = some wk ∧
              wk.pc ≠ WorkerPc.done := by
            by_contra hno
            have hone : ∀ wk ∈ s.workers, wk.sent = [firstError (wk.batches.map Prod.snd)] := by
              intro wk hwk
              obtain ⟨w, hw⟩ := List.mem_iff_getElem?.mp hwk
              have hd : wk.pc = WorkerPc.done := by
                by_contra hne
                exact hno ⟨w, wk, hw, hne⟩
              have := (workerInv_facts _ wk (hinv.workers wk hwk)).2.2 hd
              rw [this.1, workerRun_sent]
            rw [flatMap_singleton_map Worker.sent _ s.workers hone, List.length_map] at hpl
            omega
          obtain ⟨w, wk, hw, hne⟩ := hex
          rcases hB w wk hw with ⟨r, hpc⟩ | hpc
          · cases hj : s.jobs with
            | nil =>
              exact exists_ok_step newSource (Action.work w TxFaults.ok) (Or.inr (Or.inr ⟨_, rfl⟩)) hfb
                (by simp only [step, workStep, hw, hpc, hj, hclosed, if_true, Option.isSome_some])
            | cons size rest =>
              exact exists_ok_step newSource (Action.work w TxFaults.ok) (Or.inr (Or.inr ⟨_, rfl⟩)) hfb
                (by simp only [step, workStep, hw, hpc, hj, Option.isSome_some])
          · exact absurd hpc hne
      · exact exists_ok_step newSource (Action.main) (Or.inl rfl) hfb
          (by simp only [step, mainStep, hm, hlt, if_false, Option.isSome_some])
    | returned res => exact absurd hm (hnr res)
    | panicked => exact absurd hm hinv.notPanicked

/-! ## The jobs sent in the transition system are those of the producer loop -/

theorem sendPrefix_snoc (remaining : Int) (k : Nat) : ∀ i : Int,
    (∀ j, j ≤ k → nextIndex^[j] i < remaining) →
    sendPrefix (k + 1) remaining i
      = sendPrefix k remaining i ++ [jobSize remaining (nextIndex^[k] i)] := by
  induction k with
  | zero =>
    intro i h
    have h0 : i < remaining := h 0 (le_refl _)
    simp [sendPrefix, h0]
  | succ k ih =>
    intro i h
    have h0 : i < remaining := h 0 (Nat.zero_le _)
    have hrec := ih (nextIndex i) (fun j hj => by
      have := h (j + 1) (by omega)
      rwa [Function.iterate_succ_apply] at this)
    rw [sendPrefix, if_pos h0, hrec, sendPrefix, if_pos h0, Function.iterate_succ_apply,
      List.cons_append]

theorem sendJobs_after_exit (remaining : Int) (k : Nat) : ∀ (i : Int) (fuel : Nat),
    (∀ j, j < k → nextIndex^[j] i < remaining) → ¬ nextIndex^[k] i < remaining → k < fuel →
    sendJobs fuel remaining i = some (sendPrefix k remaining i) := by
  induction k with
  | zero =>
    intro i fuel _ hex hf
    obtain ⟨f, rfl⟩ : ∃ f, fuel = f + 1 := ⟨fuel - 1, by omega⟩
    have h0 : ¬ i < remaining := hex
    simp [sendJobs, sendPrefix, h0]
  | succ k ih =>
    intro i fuel hen hex hf
    obtain ⟨f, rfl⟩ : ∃ f, fuel = f + 1 := ⟨fuel - 1, by omega⟩
    have h0 : i < remaining := hen 0 (Nat.succ_pos _)
    have hrec := ih (nextIndex i) f (fun j hj => by
      have := hen (j + 1) (by omega)
      rwa [Function.iterate_succ_apply] at this)
      (by rwa [Function.iterate_succ_apply] at hex) (by omega)
    rw [sendJobs, if_pos h0, hrec, sendPrefix, if_pos h0]
    rfl

theorem sentLink_step {newSource : Int → Nat → Nat} {s t : SeedState} {a : Action}
    (hs : SentLink s) (h : step newSource s a = some t) : SentLink t := by
  rcases step_inv h with ⟨i, hm, hlt, _, rfl⟩ | ⟨i, hm, hge, rfl⟩ | ⟨v, fe, err, rest, hm, hv, hr, rfl⟩ |
    ⟨v, fe, hm, _, rfl⟩ | ⟨w, wk, r, hw, hpc, rfl⟩ | ⟨w, wk, r, size, rest, hw, hpc, hj, rfl⟩ |
    ⟨w, wk, r, hw, hpc, hj, hc, rfl⟩ | ⟨w, wk, r, size, f, calls, hw, hpc, he, rfl⟩ |
    ⟨w, wk, r, size, f, calls, e, hw, hpc, he, rfl⟩ | ⟨w, wk, r, size, hw, hpc, rfl⟩ |
    ⟨w, wk, e, hw, hpc, _, rfl⟩ | ⟨w, wk, hw, hpc, _, rfl⟩
  · -- send on jobs
    have hi := hs.index i hm
    have hen : ∀ j, j ≤ s.sentJobs.length → nextIndex^[j] 0 < s.remaining := by
      intro j hj
      rcases Nat.lt_or_ge j s.sentJobs.length with hlt2 | hge2
      · exact hs.entered j hlt2
      · have : j = s.sentJobs.length := by omega
        rw [this, ← hi]
        exact hlt
    refine { index := ?_, sent := ?_, entered := ?_, exited := ?_ }
    · intro i2 hi2
      simp only [MainPc.sending.injEq] at hi2
      subst hi2
      simp only [List.length_append, List.length_singleton, Function.iterate_succ_apply']
      rw [← hi]
    · simp only [List.length_append, List.length_singleton]
      rw [sendPrefix_snoc _ _ _ hen, ← hs.sent, ← hi]
    · intro j hj
      simp only [List.length_append, List.length_singleton] at hj
      exact hen j (by omega)
    · intro hall
      exact absurd rfl (hall _)
  · -- close(jobs)
    have hi := hs.index i hm
    refine { index := by simp, sent := hs.sent, entered := hs.entered, exited := ?_ }
    intro _
    show ¬ nextIndex^[s.sentJobs.length] 0 < s.remaining
    rw [← hi]
    exact hge
  · have hex := hs.exited (fun i hi => by rw [hm] at hi; cases hi)
    exact { index := by simp, sent := hs.sent, entered := hs.entered, exited := fun _ => hex }
  · have hex := hs.exited (fun i hi => by rw [hm] at hi; cases hi)
    exact { index := by simp, sent := hs.sent, entered := hs.entered, exited := fun _ => hex }
  all_goals
    exact { index := hs.index, sent := hs.sent, entered := hs.entered, exited := hs.exited }

/-- In every state that a call of `Seed` that got past line 83 can reach, the jobs
sent so far are the values the loop of lines 121-123 sends in its first
iterations; and once `jobs` is closed they are all the values the loop sends. -/
theorem sentJobs_eq_sendJobs (newSource : Int → Nat → Nat) (seedCountStr workersStr : String)
    (countFault : Option StoreErr) (store : Store) (acts : List Action) (t : SeedState)
    (hinit : (seedInit seedCountStr workersStr countFault store).main = MainPc.sending 0)
    (hrun : run newSource (seedInit seedCountStr workersStr countFault store) acts = some t) :
    t.sentJobs = sendPrefix t.sentJobs.length t.remaining 0 ∧
    (t.jobsClosed = true →
      ∀ fuel, t.sentJobs.length < fuel → sendJobs fuel t.remaining 0 = some t.sentJobs) := by
  have hinv := inv_reachable newSource _ _ _ _ acts t hinit hrun
  obtain ⟨rfl, h1, h2, h3⟩ := seedInit_sending _ _ _ _ _ hinit
  have hlink := run_invariant newSource SentLink (fun _ _ _ hx hst => sentLink_step hx hst)
    acts _ t
    (by
      rw [seedInit_run _ _ _ h1 h2 h3]
      refine { index := ?_, sent := rfl, entered := ?_, exited := ?_ }
      · intro i hi
        simp only [MainPc.sending.injEq] at hi
        rw [← hi]
        rfl
      · intro j hj
        simp at hj
      · intro hall
        exact absurd rfl (hall 0)) hrun
  refine ⟨hlink.sent, ?_⟩
  intro hc fuel hf
  have hex := hlink.exited (hinv.closed.mp hc)
  rw [sendJobs_after_exit t.remaining t.sentJobs.length 0 fuel hlink.entered hex hf, ← hlink.sent]

/-! ## The claims -/










/-- C2: when the COUNT query succeeds and the count of `invoices_with_virtual` is
at least the target (a zero or negative target included), `Seed` returns nil at
once: no job has been sent, no worker spawned, no `ExecContext` call issued,
both tables are as they were, and no goroutine has a transition left, so that
the state after the call is the state before it. -/
theorem seed_skips_when_seeded (newSource : Int → Nat → Nat) (seedCountStr workersStr : String)
    (store : Store) (h : seedCountOf seedCountStr ≤ (store.withVirtual.length : Int)) :
    (seedInit seedCountStr workersStr none store).main = MainPc.returned none ∧
    (seedInit seedCountStr workersStr none store).sentJobs = [] ∧
    (seedInit seedCountStr workersStr none store).jobs = [] ∧
    (seedInit seedCountStr workersStr none store).workers = [] ∧
    (seedInit seedCountStr workersStr none store).execCalls = 0 ∧
    (seedInit seedCountStr workersStr none store).inserted = 0 ∧
    (seedInit seedCountStr workersStr none store).store = store ∧
    ∀ acts t, run newSource (seedInit seedCountStr workersStr none store) acts = some t →
      acts = [] ∧ t.store = store := by
  rw [seedInit_skip seedCountStr workersStr store h]
  refine ⟨rfl, rfl, rfl, rfl, rfl, rfl, rfl, ?_⟩
  intro acts t hrun
  obtain ⟨ht, ha⟩ := run_of_stuck newSource _
    (fun a => early_stuck newSource _ a rfl (Or.inl ⟨none, rfl⟩)) acts t hrun
  exact ⟨ha, by rw [ht]; rfl⟩

/-- Witness of C2: a target of -5 on empty tables. -/
theorem seed_skips_when_seeded_witness :
    seedCountOf "-5" ≤ ((emptyStore.withVirtual.length : Nat) : Int) ∧
    (seedInit "-5" "4" none emptyStore).main = MainPc.returned none ∧
    (seedInit "-5" "4" none emptyStore).workers = [] :=
  ⟨by decide,
    (seed_skips_when_seeded zeroSource "-5" "4" emptyStore (by decide)).1,
    (seed_skips_when_seeded zeroSource "-5" "4" emptyStore (by decide)).2.2.2.1⟩

/-- C9: when the store fails the COUNT query with the error `e`, `Seed` returns at
once an error that wraps `e`: no job has been sent, no worker spawned, no
`ExecContext` call issued, both tables are as they were, and no goroutine has a
transition left. -/
theorem seed_count_query_failure (newSource : Int → Nat → Nat)
    (seedCountStr workersStr : String) (e : StoreErr) (store : Store) :
    (seedInit seedCountStr workersStr (some e) store).main
      = MainPc.returned (some (SeedErr.checkExisting e)) ∧
    (seedInit seedCountStr workersStr (some e) store).sentJobs = [] ∧
    (seedInit seedCountStr workersStr (some e) store).jobs = [] ∧
    (seedInit seedCountStr workersStr (some e) store).workers = [] ∧
    (seedInit seedCountStr workersStr (some e) store).execCalls = 0 ∧
    (seedInit seedCountStr workersStr (some e) store).inserted = 0 ∧
    (seedInit seedCountStr workersStr (some e) store).store = store ∧
    ∀ acts t, run newSource (seedInit seedCountStr workersStr (some e) store) acts = some t →
      acts = [] ∧ t.store = store := by
  have e1 : seedInit seedCountStr workersStr (some e) store
      = SeedState.early (MainPc.returned (some (SeedErr.checkExisting e)))
          (numWorkersOf workersStr) store := by
    unfold seedInit countRows
    rfl
  rw [e1]
  refine ⟨rfl, rfl, rfl, rfl, rfl, rfl, rfl, ?_⟩
  intro acts t hrun
  obtain ⟨ht, ha⟩ := run_of_stuck newSource _
    (fun a => early_stuck newSource _ a rfl (Or.inl ⟨_, rfl⟩)) acts t hrun
  exact ⟨ha, by rw [ht]; rfl⟩

theorem seedCountOf_eq (seedCountStr : String) :
    seedCountOf seedCountStr = (Atoi seedCountStr).getD 1000000000 := by
  unfold seedCountOf
  by_cases h : seedCountStr = ""
  · subst h
    have : Atoi "" = none := by decide
    simp [this]
  · simp only [ne_eq, h, not_false_eq_true, if_true]
    cases Atoi seedCountStr <;> rfl

theorem numWorkersOf_eq (w : String) : numWorkersOf w = (Atoi w).getD 10 := by
  unfold numWorkersOf
  by_cases h : w = ""
  · subst h
    have : Atoi "" = none := by decide
    simp [this]
  · simp only [ne_eq, h, not_false_eq_true, if_true]
    cases Atoi w <;> rfl

theorem seedInit_numWorkers (seedCountStr workersStr : String) (countFault : Option StoreErr)
    (store : Store) :
    (seedInit seedCountStr workersStr countFault store).numWorkers = numWorkersOf workersStr := by
  unfold seedInit countRows
  cases countFault with
  | some e => rfl
  | none =>
    simp only
    split
    · rfl
    · split <;> rfl

/-- C10: the target of `Seed` is the integer `strconv.Atoi` reads from the value
of `SEED_COUNT`, and 1000000000 when that value is empty or `Atoi` rejects it;
the number of workers is the integer read from the value of `SEED_WORKERS`, and
10 when that value is empty or rejected. `Seed` uses these values: it skips
exactly when the count reaches that target, and otherwise either panics on a
negative channel capacity or starts with `remaining` equal to the target minus
the count and with that number of workers. With a successful COUNT query no value of the two
settings makes `Seed` return an error before the workers run. -/
theorem config_fallback (seedCountStr workersStr : String) (store : Store) :
    seedCountOf seedCountStr = (Atoi seedCountStr).getD 1000000000 ∧
    numWorkersOf workersStr = (Atoi workersStr).getD 10 ∧
    Atoi "" = none ∧ seedCountOf "" = 1000000000 ∧ numWorkersOf "" = 10 ∧
    Atoi "250" = some 250 ∧ Atoi "-3" = some (-3) ∧ Atoi "+7" = some 7 ∧
    Atoi "12x" = none ∧ Atoi "9223372036854775808" = none ∧
    (seedInit seedCountStr workersStr none store).numWorkers = (Atoi workersStr).getD 10 ∧
    ((seedInit seedCountStr workersStr none store).main = MainPc.returned none ↔
      (Atoi seedCountStr).getD 1000000000 ≤ (store.withVirtual.length : Int)) ∧
    ((seedInit seedCountStr workersStr none store).main = MainPc.returned none ∨
      (seedInit seedCountStr workersStr none store).main = MainPc.panicked ∨
      ((seedInit seedCountStr workersStr none store).main = MainPc.sending 0 ∧
        (seedInit seedCountStr workersStr none store).remaining
          = (Atoi seedCountStr).getD 1000000000 - (store.withVirtual.length : Int))) ∧
    ∀ e, (seedInit seedCountStr workersStr none store).main ≠ MainPc.returned (some e) := by
  have hc := seedCountOf_eq seedCountStr
  have hw := numWorkersOf_eq workersStr
  have hmain : ((seedInit seedCountStr workersStr none store).main = MainPc.returned none ∧
        seedCountOf seedCountStr ≤ (store.withVirtual.length : Int)) ∨
      ((seedInit seedCountStr workersStr none store).main = MainPc.panicked ∧
        (store.withVirtual.length : Int) < seedCountOf seedCountStr) ∨
      ((seedInit seedCountStr workersStr none store).main = MainPc.sending 0 ∧
        (seedInit seedCountStr workersStr none store).remaining
          = seedCountOf seedCountStr - (store.withVirtual.length : Int) ∧
        (store.withVirtual.length : Int) < seedCountOf seedCountStr) := by
    by_cases a : (store.withVirtual.length : Int) ≥ seedCountOf seedCountStr
    · left
      have e : seedInit seedCountStr workersStr none store
          = SeedState.early (MainPc.returned none) (numWorkersOf workersStr) store := by
        unfold seedInit countRows
        simp only [a, if_true]
      rw [e]
      exact ⟨rfl, a⟩
    · by_cases b : wrap64 (numWorkersOf workersStr * 2) < 0 ∨ numWorkersOf workersStr < 0
      · right; left
        have e : seedInit seedCountStr workersStr none store
            = SeedState.early MainPc.panicked (numWorkersOf workersStr) store := by
          unfold seedInit countRows
          simp only [a, b, if_true, if_false]
        rw [e]
        exact ⟨rfl, by omega⟩
      · right; right
        rw [seedInit_run _ _ _ (by omega) (by omega) (by omega)]
        exact ⟨rfl, rfl, by omega⟩
  refine ⟨hc, hw, by decide, by decide, by decide, by decide, by decide, by decide, by decide,
    by decide, ?_, ?_, ?_, ?_⟩
  · rw [seedInit_numWorkers, hw]
  · rw [← hc]
    rcases hmain with ⟨h1, h2⟩ | ⟨h1, h2⟩ | ⟨h1, _, h2⟩
    · exact ⟨fun _ => h2, fun _ => h1⟩
    · rw [h1]
      exact ⟨fun h => (by cases h), fun h => (by omega)⟩
    · rw [h1]
      exact ⟨fun h => (by cases h), fun h => (by omega)⟩
  · rw [← hc]
    rcases hmain with ⟨h1, _⟩ | ⟨h1, _⟩ | ⟨h1, h2, _⟩
    · exact Or.inl h1
    · exact Or.inr (Or.inl h1)
    · exact Or.inr (Or.inr ⟨h1, h2⟩)
  · intro e he
    rcases hmain with ⟨h1, _⟩ | ⟨h1, _⟩ | ⟨h1, _⟩ <;> rw [h1] at he <;> cases he


theorem nextRecord_eq (r : Rand) :
    (nextRecord r).1 = mkRecord (Int.ofNat (r.raw r.pos % 10000))
      (Int.ofNat (r.raw (r.pos + 1) % 1000000)) (Int.ofNat (r.raw (r.pos + 1 + 1) % 25)) := rfl

theorem mkRecord_ranges (d1 d2 d3 : Int) (h1 : 0 ≤ d1 ∧ d1 < 10000)
    (h2 : 0 ≤ d2 ∧ d2 < 1000000) (h3 : 0 ≤ d3 ∧ d3 < 25) :
    (1 ≤ (mkRecord d1 d2 d3).customerID ∧ (mkRecord d1 d2 d3).customerID ≤ 10000) ∧
    (100 ≤ (mkRecord d1 d2 d3).amountCents ∧ (mkRecord d1 d2 d3).amountCents ≤ 1000099) ∧
    ∃ k : Int, 1 ≤ k ∧ k ≤ 25 ∧ (mkRecord d1 d2 d3).taxRate = (k : ℚ) / 100 := by
  refine ⟨⟨?_, ?_⟩, ⟨?_, ?_⟩, d3 + 1, ?_, ?_, rfl⟩ <;>
    first | omega | (simp only [mkRecord]; omega)

/-- C6: for draws `d1` of `[0, 10000)`, `d2` of `[0, 1000000)` and `d3` of
`[0, 25)` the record of lines 169-171 has `customerID` in `[1, 10000]`,
`amountCents` in `[100, 1000099]` and `taxRate = k / 100` for an integer `k` of
`[1, 25]`; so has the record drawn from any stream `r`; and the bounds are
attained, by the streams `zeroDraws` and `maxDraws`. -/
theorem record_ranges (r : Rand) (d1 d2 d3 : Int) (h1 : 0 ≤ d1 ∧ d1 < 10000)
    (h2 : 0 ≤ d2 ∧ d2 < 1000000) (h3 : 0 ≤ d3 ∧ d3 < 25) :
    ((1 ≤ (mkRecord d1 d2 d3).customerID ∧ (mkRecord d1 d2 d3).customerID ≤ 10000) ∧
      (100 ≤ (mkRecord d1 d2 d3).amountCents ∧ (mkRecord d1 d2 d3).amountCents ≤ 1000099) ∧
      ∃ k : Int, 1 ≤ k ∧ k ≤ 25 ∧ (mkRecord d1 d2 d3).taxRate = (k : ℚ) / 100) ∧
    ((1 ≤ (nextRecord r).1.customerID ∧ (nextRecord r).1.customerID ≤ 10000) ∧
      (100 ≤ (nextRecord r).1.amountCents ∧ (nextRecord r).1.amountCents ≤ 1000099) ∧
      ∃ k : Int, 1 ≤ k ∧ k ≤ 25 ∧ (nextRecord r).1.taxRate = (k : ℚ) / 100) ∧
    ((nextRecord zeroDraws).1.customerID = 1 ∧ (nextRecord zeroDraws).1.amountCents = 100 ∧
      (nextRecord zeroDraws).1.taxRate = (1 : ℚ) / 100) ∧
    ((nextRecord maxDraws).1.customerID = 10000 ∧
      (nextRecord maxDraws).1.amountCents = 1000099 ∧
      (nextRecord maxDraws).1.taxRate = (25 : ℚ) / 100) := by
  refine ⟨mkRecord_ranges d1 d2 d3 h1 h2 h3, ?_, ?_, ?_⟩
  · rw [nextRecord_eq]
    apply mkRecord_ranges
    · constructor
      · exact Int.ofNat_nonneg _
      · have := Nat.mod_lt (r.raw r.pos) (by decide : 10000 > 0)
        simp only [Int.ofNat_eq_coe]; omega
    · constructor
      · exact Int.ofNat_nonneg _
      · have := Nat.mod_lt (r.raw (r.pos + 1)) (by decide : 1000000 > 0)
        simp only [Int.ofNat_eq_coe]; omega
    · constructor
      · exact Int.ofNat_nonneg _
      · have := Nat.mod_lt (r.raw (r.pos + 1 + 1)) (by decide : 25 > 0)
        simp only [Int.ofNat_eq_coe]; omega
  · rw [nextRecord_eq]
    refine ⟨by decide, by decide, ?_⟩
    simp [mkRecord, zeroDraws]
  · rw [nextRecord_eq]
    refine ⟨by decide, by decide, ?_⟩
    simp [mkRecord, maxDraws]

/-- Witness of C6: the draws 9999, 0 and 24. -/
theorem record_ranges_witness :
    ((0 : Int) ≤ 9999 ∧ (9999 : Int) < 10000) ∧ ((0 : Int) ≤ 0 ∧ (0 : Int) < 1000000) ∧
    ((0 : Int) ≤ 24 ∧ (24 : Int) < 25) ∧
    (1 ≤ (mkRecord 9999 0 24).customerID ∧ (mkRecord 9999 0 24).customerID ≤ 10000) :=
  ⟨by decide, by decide, by decide,
    (record_ranges zeroDraws 9999 0 24 (by decide) (by decide) (by decide)).1.1⟩

/-- C5: when a call of `insertBatch` with batch size `N` returns nil, the rows it
has added to `invoices_with_virtual` and those it has added to
`invoices_without_virtual` are the same sequence, the first `N` records of the
stream in the order drawn, and they are the rows written in the one transaction
of the call, which is committed. -/
theorem insertBatch_mirrors (f : TxFaults) (store : Store) (r : Rand) (N : Int)
    (h : (insertBatch f store r N).err = none) :
    ∃ rows tx, rows = recordStream N.toNat r ∧ rows.length = N.toNat ∧
      (insertBatch f store r N).store.withVirtual = store.withVirtual ++ rows ∧
      (insertBatch f store r N).store.withoutVirtual = store.withoutVirtual ++ rows ∧
      (insertBatch f store r N).tx = some tx ∧ tx.status = TxStatus.committed ∧
      tx.writtenWith = rows ∧ tx.writtenWithout = rows ∧
      ∀ i : Nat, tx.writtenWith[i]? = tx.writtenWithout[i]? := by
  obtain ⟨a, b, tx, c, d, e1, e2, _⟩ := insertBatch_ok f store r N h
  exact ⟨_, tx, rfl, recordStream_length _ _, a, b, c, d, e1, e2, fun i => by rw [e1, e2]⟩

/-- Witness of C5: a batch of three records on a store that fails no call. -/
theorem insertBatch_mirrors_witness :
    (insertBatch TxFaults.ok emptyStore zeroDraws 3).err = none ∧
    ∃ rows tx, rows = recordStream (3 : Int).toNat zeroDraws ∧ rows.length = (3 : Int).toNat ∧
      (insertBatch TxFaults.ok emptyStore zeroDraws 3).store.withVirtual
        = emptyStore.withVirtual ++ rows ∧
      (insertBatch TxFaults.ok emptyStore zeroDraws 3).store.withoutVirtual
        = emptyStore.withoutVirtual ++ rows ∧
      (insertBatch TxFaults.ok emptyStore zeroDraws 3).tx = some tx ∧
      tx.status = TxStatus.committed ∧
      tx.writtenWith = rows ∧ tx.writtenWithout = rows ∧
      ∀ i : Nat, tx.writtenWith[i]? = tx.writtenWithout[i]? :=
  ⟨by decide, insertBatch_mirrors TxFaults.ok emptyStore zeroDraws 3 (by decide)⟩

theorem foldl_mergeOutcome (outcomes : List (Option SeedErr)) : ∀ acc : Option SeedErr,
    outcomes.foldl mergeOutcome acc
      = match acc with
        | some e => some e
        | none => firstError outcomes := by
  induction outcomes with
  | nil => intro acc; cases acc <;> rfl
  | cons o rest ih =>
    intro acc
    rw [List.foldl_cons, ih]
    cases acc with
    | some e => simp [mergeOutcome]
    | none => cases o <;> simp [mergeOutcome, firstError]

theorem waitForWorkers_eq (outcomes : List (Option SeedErr)) :
    waitForWorkers outcomes = firstError outcomes := by
  unfold waitForWorkers
  rw [foldl_mergeOutcome]

theorem firstError_none_iff (outcomes : List (Option SeedErr)) :
    firstError outcomes = none ↔ ∀ o ∈ outcomes, o = none := by
  induction outcomes with
  | nil => simp [firstError]
  | cons o rest ih =>
    cases o with
    | none => simp [firstError, ih]
    | some e => simp [firstError]

theorem firstError_append (pre post : List (Option SeedErr)) (e : SeedErr)
    (h : ∀ o ∈ pre, o = none) : firstError (pre ++ some e :: post) = some e := by
  induction pre with
  | nil => simp [firstError]
  | cons o rest ih =>
    have ho : o = none := h o (List.mem_cons_self _ _)
    subst ho
    simp only [List.cons_append, firstError]
    exact ih (fun o ho => h o (List.mem_cons_of_mem _ ho))

/-- C7: in every run of a call of `Seed` that got past line 83, when `Seed`
returns it has received as many outcomes from `results` as there are workers,
and what it returns is the result of the loop of lines 127-132 on them, which
is the first non-nil error in the order received: it is nil exactly when every
outcome is nil, and an error that is preceded by nil outcomes only is
returned whatever follows it. The loop computes the first error on every
sequence of outcomes. -/
theorem seed_returns_first_error (newSource : Int → Nat → Nat)
    (seedCountStr workersStr : String) (countFault : Option StoreErr) (store : Store)
    (acts : List Action) (t : SeedState) (res : Option SeedErr)
    (hinit : (seedInit seedCountStr workersStr countFault store).main = MainPc.sending 0)
    (hrun : run newSource (seedInit seedCountStr workersStr countFault store) acts = some t)
    (hret : t.main = MainPc.returned res) :
    (t.received.length : Int) = t.numWorkers ∧
    res = waitForWorkers t.received ∧
    res = firstError t.received ∧
    (res = none ↔ ∀ o ∈ t.received, o = none) ∧
    (∀ pre e post, t.received = pre ++ some e :: post → (∀ o ∈ pre, o = none) →
      res = some e) ∧
    ∀ outcomes, waitForWorkers outcomes = firstError outcomes := by
  have hinv := inv_reachable newSource _ _ _ _ acts t hinit hrun
  obtain ⟨h1, h2⟩ := hinv.returned res hret
  have h3 : res = firstError t.received := by rw [h1, waitForWorkers_eq]
  refine ⟨h2, h1, h3, ?_, ?_, waitForWorkers_eq⟩
  · rw [h3]; exact firstError_none_iff _
  · intro pre e post hsplit hpre
    rw [h3, hsplit]
    exact firstError_append pre post e hpre

/-- Witness of C7: the run `failingRun`, in which `Seed` receives the error of
worker 0, then nil from worker 1, and returns the error. -/
theorem seed_returns_first_error_witness :
    (seedInit "3" "2" none emptyStore).main = MainPc.sending 0 ∧
    ∃ t, run zeroSource (seedInit "3" "2" none emptyStore) failingRun = some t ∧
      t.main = MainPc.returned (some (SeedErr.insertWith "boom")) ∧
      some (SeedErr.insertWith "boom") = firstError t.received := by
  refine ⟨by decide, ?_⟩
  have hsome : (run zeroSource (seedInit "3" "2" none emptyStore) failingRun).isSome = true := by
    rfl
  obtain ⟨t, ht⟩ := Option.isSome_iff_exists.mp hsome
  have hmain : (run zeroSource (seedInit "3" "2" none emptyStore) failingRun).map
      (fun u => u.main) = some (MainPc.returned (some (SeedErr.insertWith "boom"))) := by
    rfl
  rw [ht] at hmain
  simp only [Option.map_some', Option.some.injEq] at hmain
  exact ⟨t, ht, hmain,
    (seed_returns_first_error zeroSource "3" "2" none emptyStore failingRun t _ (by decide) ht
      hmain).2.2.1⟩


/-- C4: let a worker hold a job of size `N`, and let the store fail an insert of
the `K`-th record of its batch (`1 ≤ K ≤ N`), into either table, or the commit.
Then `insertBatch` returns an error; the tables are as they were; the
transaction, if one was begun, ends rolled back or with a failed commit, never
committed; when the failed insert is the first call the store fails, the
transaction ends rolled back with the `K - 1` earlier records written in it,
none of which is in the tables. The transition of the worker leaves `inserted`
as it is, and from then on the worker is about to report the error or has
returned, and none of its transitions changes `inserted` or the tables. -/
theorem insertBatch_all_or_nothing (newSource : Int → Nat → Nat) (f : TxFaults) (r : Rand)
    (N : Int) (K : Nat) (s : SeedState) (w : Nat) (wk : Worker)
    (hK1 : 1 ≤ K) (hK2 : (K : Int) ≤ N)
    (hfail : f.execWith (K - 1) ≠ none ∨ f.execWithout (K - 1) ≠ none ∨ f.commit ≠ none)
    (hw : s.workers[w]? = some wk) (hpc : wk.pc = WorkerPc.holding r N) :
    ∃ e t, (insertBatch f s.store r N).err = some e ∧
      (insertBatch f s.store r N).store = s.store ∧
      (∀ tx, (insertBatch f s.store r N).tx = some tx →
        tx.status = TxStatus.rolledBack ∨ tx.status = TxStatus.commitFailed) ∧
      (f.beginTx = none → f.prepareWith = none → f.prepareWithout = none →
        (∀ k, k < K - 1 → f.execWith k = none ∧ f.execWithout k = none) →
        (f.execWith (K - 1) ≠ none ∨ f.execWithout (K - 1) ≠ none) →
        ∃ tx, (insertBatch f s.store r N).tx = some tx ∧ tx.status = TxStatus.rolledBack ∧
          tx.writtenWithout = recordStream (K - 1) r ∧
          recordStream (K - 1) r <+: tx.writtenWith) ∧
      step newSource s (Action.work w f) = some t ∧
      t.inserted = s.inserted ∧ t.store = s.store ∧
      t.failedBatches = s.failedBatches + 1 ∧
      (∃ wk2, t.workers[w]? = some wk2 ∧ wk2.pc = WorkerPc.failing e) ∧
      ∀ acts u, run newSource t acts = some u →
        (∃ wk3, u.workers[w]? = some wk3 ∧
          (wk3.pc = WorkerPc.failing e ∨ wk3.pc = WorkerPc.done)) ∧
        ∀ f2 u2, step newSource u (Action.work w f2) = some u2 →
          u2.inserted = u.inserted ∧ u2.store = u.store := by
  have hlt : K - 1 < N.toNat := by omega
  have herr := insertBatch_fails f s.store r N (K - 1) hlt hfail
  obtain ⟨hstore, htx⟩ := insertBatch_error_frame f s.store r N herr
  cases hres : (insertBatch f s.store r N).err with
  | none => exact absurd hres herr
  | some e =>
    have hwlt : w < s.workers.length := (List.getElem?_eq_some.mp hw).1
    have hstep : step newSource s (Action.work w f) = some
        { s with store := (insertBatch f s.store r N).store,
                 execCalls := s.execCalls + (match (insertBatch f s.store r N).tx with
                   | some tx => tx.execCalls
                   | none => 0),
                 failedBatches := s.failedBatches + 1,
                 workers := s.workers.set w
                   { wk with pc := WorkerPc.failing e,
                             batches := wk.batches ++ [(N, some e)] } } := by
      simp only [step, workStep, hw, hpc, hres]
    have hstopped : ∃ wk2, (s.workers.set w
        { wk with pc := WorkerPc.failing e, batches := wk.batches ++ [(N, some e)] })[w]?
          = some wk2 ∧ wk2.pc = WorkerPc.failing e :=
      ⟨_, List.getElem?_set_self hwlt, rfl⟩
    refine ⟨e, _, rfl, hstore, htx, ?_, hstep, rfl, hstore, rfl, hstopped, ?_⟩
    · intro hb hp1 hp2 hok hf
      exact insertBatch_first_failure f s.store r N (K - 1) hlt hb hp1 hp2 hok hf
    · intro acts u hrun
      have hu := run_invariant newSource
        (fun x => ∃ wk3, x.workers[w]? = some wk3 ∧
          (wk3.pc = WorkerPc.failing e ∨ wk3.pc = WorkerPc.done))
        (fun _ _ _ hx hst => stopped_step w e hx hst) acts _ u
        (by
          obtain ⟨wk2, h1, h2⟩ := hstopped
          exact ⟨wk2, h1, Or.inl h2⟩) hrun
      refine ⟨hu, ?_⟩
      intro f2 u2 hst
      have := stopped_work_frame w e f2 hu hst
      exact ⟨this.1, this.2.1⟩

/-- Witness of C4: a batch of three records in which the store fails the insert of
the third record into `invoices_without_virtual`. -/
theorem insertBatch_all_or_nothing_witness :
    (1 ≤ 3 ∧ ((3 : Nat) : Int) ≤ 3 ∧ failsThirdInsert.execWithout (3 - 1) ≠ none ∧
      holdingState.workers[0]? = some holdingWorker ∧
      holdingWorker.pc = WorkerPc.holding zeroDraws 3) ∧
    ∃ e t, (insertBatch failsThirdInsert holdingState.store zeroDraws 3).err = some e ∧
      (insertBatch failsThirdInsert holdingState.store zeroDraws 3).store = holdingState.store ∧
      step zeroSource holdingState (Action.work 0 failsThirdInsert) = some t ∧
      t.inserted = holdingState.inserted := by
  refine ⟨⟨by decide, by decide, by decide, rfl, rfl⟩, ?_⟩
  obtain ⟨e, t, h1, h2, _, _, h3, h4, _⟩ :=
    insertBatch_all_or_nothing zeroSource failsThirdInsert zeroDraws 3 3 holdingState 0
      holdingWorker (by decide) (by decide) (Or.inr (Or.inl (by decide))) rfl rfl
  exact ⟨e, t, h1, h2, h3, h4⟩


/-- The worker goroutine, as a function of the jobs it is handed and of the
results of their `insertBatch` calls, sends exactly one value: the error of the
first failed call, after which it takes no further job, or nil when no call
fails. In every run of a call of `Seed` that got past line 83, a worker that has
not returned has sent nothing; a worker that has returned has sent what the
function says on the history of its calls, and if that is nil, `jobs` is
closed and empty; a worker whose call has failed, or that has returned, takes
nothing from `jobs`; a worker that is about to send its outcome finds room in
`results`, and has then returned having sent one value. When `Seed` returns, `results` is empty, every worker has
returned, and the values `Seed` has received are, up to their order, the outcomes of
the workers, one for each worker. -/
theorem worker_outcomes (newSource : Int → Nat → Nat) (seedCountStr workersStr : String)
    (countFault : Option StoreErr) (store : Store) (acts : List Action) (t : SeedState)
    (hinit : (seedInit seedCountStr workersStr countFault store).main = MainPc.sending 0)
    (hrun : run newSource (seedInit seedCountStr workersStr countFault store) acts = some t) :
    (∀ bs, (workerRun bs).sent = [firstError (bs.map Prod.snd)]) ∧
    (∀ oks size e rest, allOk oks →
      (workerRun (oks ++ (size, some e) :: rest)).taken = oks.length + 1 ∧
      (workerRun (oks ++ (size, some e) :: rest)).sent = [some e]) ∧
    (∀ bs, allOk bs → (workerRun bs).taken = bs.length ∧ (workerRun bs).sent = [none]) ∧
    (∀ wk ∈ t.workers,
      (wk.pc ≠ WorkerPc.done → wk.sent = []) ∧
      (wk.pc = WorkerPc.done →
        wk.sent = (workerRun wk.batches).sent ∧
        (workerRun wk.batches).taken = wk.batches.length ∧
        (wk.sent = [none] → t.jobsClosed = true ∧ t.jobs = []))) ∧
    (∀ w wk, t.workers[w]? = some wk →
      ((∃ e, wk.pc = WorkerPc.failing e) ∨ wk.pc = WorkerPc.done) →
      ∀ f u, step newSource t (Action.work w f) = some u → u.jobs = t.jobs) ∧
    (∀ w wk f, t.workers[w]? = some wk →
      ((∃ e, wk.pc = WorkerPc.failing e) ∨ wk.pc = WorkerPc.finishing) →
      ∃ u wk2, step newSource t (Action.work w f) = some u ∧ u.workers[w]? = some wk2 ∧
        wk2.pc = WorkerPc.done ∧ wk2.sent.length = 1) ∧
    (∀ res, t.main = MainPc.returned res →
      t.results = [] ∧ (t.workers.length : Int) = t.numWorkers ∧
      t.received.length = t.workers.length ∧
      (∀ wk ∈ t.workers, wk.pc = WorkerPc.done) ∧
      t.received.Perm (t.workers.map (fun wk => firstError (wk.batches.map Prod.snd)))) := by
  have hinv := inv_reachable newSource _ _ _ _ acts t hinit hrun
  refine ⟨workerRun_sent, ?_, ?_, ?_, ?_, ?_, ?_⟩
  · intro oks size e rest hok
    exact ⟨(workerRun_failure oks rest size e hok).1, (workerRun_failure oks rest size e hok).2.1⟩
  · intro bs hok
    exact ⟨(workerRun_allOk bs hok).1, (workerRun_allOk bs hok).2.1⟩
  · intro wk hwk
    obtain ⟨_, h2, h3⟩ := workerInv_facts _ wk (hinv.workers wk hwk)
    exact ⟨h2, h3⟩
  · intro w wk hw hpc f u hst
    rcases hpc with ⟨e, hpc⟩ | hpc
    · exact (stopped_work_frame w e f ⟨wk, hw, Or.inl hpc⟩ hst).2.2
    · exact (stopped_work_frame w (SeedErr.commit "") f ⟨wk, hw, Or.inr hpc⟩ hst).2.2
  · intro w wk f hw hpc
    have hmem := List.getElem?_mem hw
    have hwlt : w < t.workers.length := (List.getElem?_eq_some.mp hw).1
    have hsent : wk.sent = [] := by
      apply (workerInv_facts _ wk (hinv.workers wk hmem)).2.1
      rcases hpc with ⟨e, hpc⟩ | hpc <;> rw [hpc] <;> intro hd <;> cases hd
    have hroom := results_has_room hinv wk hmem hsent
    rcases hpc with ⟨e, hpc⟩ | hpc
    · have hst : step newSource t (Action.work w f) = some
          { t with results := t.results ++ [some e],
                   workers := t.workers.set w
                     { wk with pc := WorkerPc.done, sent := wk.sent ++ [some e] } } := by
        simp only [step, workStep, hw, hpc, hroom, if_true]
      exact ⟨_, { wk with pc := WorkerPc.done, sent := wk.sent ++ [some e] }, hst,
        List.getElem?_set_self hwlt, rfl, by simp [hsent]⟩
    · have hst : step newSource t (Action.work w f) = some
          { t with results := t.results ++ [none],
                   workers := t.workers.set w
                     { wk with pc := WorkerPc.done, sent := wk.sent ++ [none] } } := by
        simp only [step, workStep, hw, hpc, hroom, if_true]
      exact ⟨_, { wk with pc := WorkerPc.done, sent := wk.sent ++ [none] }, hst,
        List.getElem?_set_self hwlt, rfl, by simp [hsent]⟩
  · intro res hres
    obtain ⟨h1, h2, h3, h4⟩ := returned_all_done hinv res hres
    exact ⟨h1, hinv.workersLen, h2, h3, h4⟩

/-- The run `failingRun`, at the end of which both workers have
returned and `Seed` has received one outcome of each. -/
theorem worker_outcomes_example :
    (seedInit "3" "2" none emptyStore).main = MainPc.sending 0 ∧
    ∃ t, run zeroSource (seedInit "3" "2" none emptyStore) failingRun = some t ∧
      t.main = MainPc.returned (some (SeedErr.insertWith "boom")) ∧
      t.received.length = t.workers.length ∧
      ∀ wk ∈ t.workers, wk.pc = WorkerPc.done := by
  refine ⟨by decide, ?_⟩
  have hsome : (run zeroSource (seedInit "3" "2" none emptyStore) failingRun).isSome = true := by
    rfl
  obtain ⟨t, ht⟩ := Option.isSome_iff_exists.mp hsome
  have hmain : (run zeroSource (seedInit "3" "2" none emptyStore) failingRun).map
      (fun u => u.main) = some (MainPc.returned (some (SeedErr.insertWith "boom"))) := by
    rfl
  rw [ht] at hmain
  simp only [Option.map_some', Option.some.injEq] at hmain
  have h := (worker_outcomes zeroSource "3" "2" none emptyStore failingRun t (by decide)
    ht).2.2.2.2.2.2 _ hmain
  exact ⟨t, ht, hmain, h.2.2.1, h.2.2.2.1⟩


/-- C3 (evaluation at the failing input): with a target of 9223372036854775807 on
empty tables, `remaining` is the largest `int`, and whatever the number of
workers, whatever the store does and however the goroutines are scheduled,
`Seed` is in the loop of line 121 in every state it reaches: it never closes
`jobs`, never receives an outcome and never returns. -/
theorem seed_never_returns_at_maxInt (newSource : Int → Nat → Nat) (workersStr : String)
    (acts : List Action) (t : SeedState)
    (hinit : (seedInit "9223372036854775807" workersStr none emptyStore).main
      = MainPc.sending 0)
    (hrun : run newSource (seedInit "9223372036854775807" workersStr none emptyStore) acts
      = some t) :
    t.remaining = 9223372036854775807 ∧ (∃ i, t.main = MainPc.sending i) ∧
      t.jobsClosed = false ∧ t.received = [] ∧ ∀ res, t.main ≠ MainPc.returned res := by
  have hinv := inv_reachable newSource _ _ _ _ acts t hinit hrun
  obtain ⟨_, h1, h2, h3⟩ := seedInit_sending _ _ _ _ _ hinit
  have hP := run_invariant newSource
    (fun x => x.remaining = 9223372036854775807 ∧
      ∃ i, x.main = MainPc.sending i ∧ i % 2 = 0 ∧ i ≤ 9223372036854775807)
    (fun _ _ _ hx hst => sending_forever_step hx hst) acts _ t
    (by
      rw [seedInit_run _ _ _ h1 h2 h3]
      refine ⟨?_, 0, rfl, by decide, by decide⟩
      have : seedCountOf "9223372036854775807" = 9223372036854775807 := by decide
      simp only [this]
      rfl) hrun
  obtain ⟨hr, i, hm, _, _⟩ := hP
  refine ⟨hr, ⟨i, hm⟩, ?_, hinv.sending i hm, ?_⟩
  · cases hc : t.jobsClosed with
    | false => rfl
    | true => exact absurd hm (hinv.closed.mp hc i)
  · intro res hres
    rw [hm] at hres
    cases hres

/-- Witness of C3 (failing input): one worker, after the first job has been sent
and taken. -/
theorem seed_never_returns_at_maxInt_witness :
    (seedInit "9223372036854775807" "1" none emptyStore).main = MainPc.sending 0 ∧
    ∃ t, run zeroSource (seedInit "9223372036854775807" "1" none emptyStore)
        [Action.main, Action.start 0 5, Action.work 0 TxFaults.ok] = some t ∧
      t.remaining = 9223372036854775807 ∧ ∀ res, t.main ≠ MainPc.returned res := by
  refine ⟨by decide, ?_⟩
  have hsome : (run zeroSource (seedInit "9223372036854775807" "1" none emptyStore)
      [Action.main, Action.start 0 5, Action.work 0 TxFaults.ok]).isSome = true := by
    rfl
  obtain ⟨t, ht⟩ := Option.isSome_iff_exists.mp hsome
  have h := seed_never_returns_at_maxInt zeroSource "1"
    [Action.main, Action.start 0 5, Action.work 0 TxFaults.ok] t (by decide) ht
  exact ⟨t, ht, h.1, h.2.2.2.2⟩


/-! ## Runs without failures, in the range without overflow -/

theorem sum_map_replicate_nat (g : Worker → Nat) (a : Worker) : ∀ n : Nat,
    ((List.replicate n a).map g).sum = n * g a := by
  intro n
  induction n with
  | zero => simp
  | succ n ih =>
    simp only [List.replicate_succ, List.map_cons, List.sum_cons, ih]
    rw [Nat.succ_mul]
    omega

theorem sum_map_zero (g : Worker → Int) : ∀ l : List Worker, (∀ x ∈ l, g x = 0) →
    (l.map g).sum = 0 := by
  intro l
  induction l with
  | nil => intro _; rfl
  | cons a t ih =>
    intro h
    simp only [List.map_cons, List.sum_cons, h a (List.mem_cons_self _ _),
      ih (fun x hx => h x (List.mem_cons_of_mem _ hx))]
    rfl

/-- The facts about the jobs hold when `Seed` gets past line 83 with `remaining` in
the range without overflow. -/
theorem flow_init (seedCountStr workersStr : String) (store : Store)
    (h1 : (store.withVirtual.length : Int) < seedCountOf seedCountStr)
    (h2 : 0 ≤ wrap64 (numWorkersOf workersStr * 2)) (h3 : 0 ≤ numWorkersOf workersStr)
    (hrange : seedCountOf seedCountStr - (store.withVirtual.length : Int)
      ≤ 9223372036854775000) :
    Flow store.withVirtual.length store.withoutVirtual.length
      (seedInit seedCountStr workersStr none store) := by
  rw [seedInit_run _ _ _ h1 h2 h3]
  have hz1 : ((List.replicate (numWorkersOf workersStr).toNat
      ({ pc := WorkerPc.created, batches := [], sent := [] } : Worker)).map Worker.held).sum
        = 0 :=
    sum_map_zero _ _ (fun x hx => by rw [List.eq_of_mem_replicate hx]; rfl)
  have hz2 : ((List.replicate (numWorkersOf workersStr).toNat
      ({ pc := WorkerPc.created, batches := [], sent := [] } : Worker)).map
        (fun wk => lostSize wk.batches)).sum = 0 :=
    sum_map_zero _ _ (fun x hx => by rw [List.eq_of_mem_replicate hx]; rfl)
  have hz3 : ((List.replicate (numWorkersOf workersStr).toNat
      ({ pc := WorkerPc.created, batches := [], sent := [] } : Worker)).map
        Worker.unadded).sum = 0 :=
    sum_map_zero _ _ (fun x hx => by rw [List.eq_of_mem_replicate hx]; rfl)
  refine
    { remPos := by dsimp only; omega, remLe := hrange, sending := ?_,
      sentAll := fun hall => absurd rfl (hall 0), jobsRange := by simp, heldRange := ?_,
      conservation := ?_, insertedNonneg := le_refl _, rowsWith := ?_, rowsWithout := ?_ }
  · intro i hi
    simp only [MainPc.sending.injEq] at hi
    subst hi
    simp only [List.sum_nil]
    omega
  · intro wk hwk
    rw [List.eq_of_mem_replicate hwk]
    exact ⟨Or.inl rfl, le_refl _, le_refl _⟩
  · simp only [hz1, hz2, List.sum_nil]
    rfl
  · simp only [hz3]
    omega
  · simp only [hz3]
    omega

/-- In the range without overflow and with at least one worker: a run in which no
call of `insertBatch` has failed has a bounded number of transitions; as long
as `Seed` has not returned it can go on with a transition in which no call
fails; and when `Seed` has returned, it has returned nil, `inserted` equals
`remaining`, each table has grown by `remaining` rows, the count of
`invoices_with_virtual` is the target, and a second call of `Seed` on these
tables skips. -/
theorem seed_completes_in_range (newSource : Int → Nat → Nat)
    (seedCountStr workersStr : String) (store : Store) (acts : List Action) (t : SeedState)
    (hcount : (store.withVirtual.length : Int) < seedCountOf seedCountStr)
    (hrange : seedCountOf seedCountStr - (store.withVirtual.length : Int)
      ≤ 9223372036854775000)
    (hW1 : 1 ≤ numWorkersOf workersStr) (hW2 : numWorkersOf workersStr < 4611686018427387904)
    (hrun : run newSource (seedInit seedCountStr workersStr none store) acts = some t)
    (hok : t.failedBatches = 0) :
    acts.length ≤ 4 * ((seedCountOf seedCountStr - (store.withVirtual.length : Int) + 4999)
      / 5000).toNat + 4 * (numWorkersOf workersStr).toNat + 2 ∧
    ((∀ res, t.main ≠ MainPc.returned res) →
      ∃ a u, step newSource t a = some u ∧ u.failedBatches = 0) ∧
    (∀ res, t.main = MainPc.returned res →
      res = none ∧
      t.inserted = seedCountOf seedCountStr - (store.withVirtual.length : Int) ∧
      (t.store.withVirtual.length : Int) = (store.withVirtual.length : Int)
        + (seedCountOf seedCountStr - (store.withVirtual.length : Int)) ∧
      (t.store.withoutVirtual.length : Int) = (store.withoutVirtual.length : Int)
        + (seedCountOf seedCountStr - (store.withVirtual.length : Int)) ∧
      (t.store.withVirtual.length : Int) = seedCountOf seedCountStr ∧
      (seedInit seedCountStr workersStr none t.store).main = MainPc.returned none) := by
  have hw2 : wrap64 (numWorkersOf workersStr * 2) = 2 * numWorkersOf workersStr := by
    rw [wrap64_of_inRange _ (by omega) (by omega)]
    omega
  have h2 : 0 ≤ wrap64 (numWorkersOf workersStr * 2) := by omega
  have h3 : 0 ≤ numWorkersOf workersStr := by omega
  have hs0 := seedInit_run seedCountStr workersStr store hcount h2 h3
  have hinit : (seedInit seedCountStr workersStr none store).main = MainPc.sending 0 := by
    rw [hs0]
  have hinv := inv_reachable newSource _ _ _ _ acts t hinit hrun
  have hflow0 := flow_init seedCountStr workersStr store hcount h2 h3 hrange
  have hflow := run_invariant newSource (Flow store.withVirtual.length store.withoutVirtual.length)
    (fun _ _ _ hx hst => flow_step hx hst) acts _ t hflow0 hrun
  have hnf := run_invariant newSource NoFail (fun _ _ _ hx hst => nofail_step hx hst) acts _ t
    (by
      rw [hs0]
      intro _ wk hwk
      rw [List.eq_of_mem_replicate hwk]
      exact ⟨fun e he => (by cases he), fun b hb => (by cases hb)⟩) hrun
  have hconst := run_invariant newSource
    (fun x => x.remaining = seedCountOf seedCountStr - (store.withVirtual.length : Int) ∧
      x.numWorkers = numWorkersOf workersStr ∧ x.jobsCap = 2 * numWorkersOf workersStr)
    (fun x _ y hx hst => by
      obtain ⟨c1, c2, c3, _⟩ := step_constants hst
      exact ⟨by rw [c1]; exact hx.1, by rw [c2]; exact hx.2.1, by rw [c3]; exact hx.2.2⟩)
    acts _ t (by rw [hs0]; exact ⟨rfl, rfl, hw2⟩) hrun
  obtain ⟨hrem, hnum, hcap⟩ := hconst
  have hlen := run_length_le newSource _ _ acts _ t hflow0 hrun
  have hm0 : measure (seedInit seedCountStr workersStr none store)
      = 4 * ((seedCountOf seedCountStr - (store.withVirtual.length : Int) + 4999)
          / 5000).toNat + 1 + (numWorkersOf workersStr).toNat + 1
        + 3 * (numWorkersOf workersStr).toNat := by
    rw [hs0]
    simp only [measure, mainCost, List.length_nil, sum_map_replicate_nat]
    have : (({ pc := WorkerPc.created, batches := [], sent := [] } : Worker)).cost = 3 := rfl
    rw [this]
    simp only [sub_zero]
    omega
  refine ⟨by omega, ?_, ?_⟩
  · intro hnr
    exact progress_nofail newSource hinv hnf hok (by omega) (by rw [hcap, hnum]) hnr
  · intro res hres
    obtain ⟨d1, d2, d3, d4⟩ := returned_all_done hinv res hres
    obtain ⟨r1, _⟩ := hinv.returned res hres
    have hall := hnf hok
    have hwl := hinv.workersLen
    -- every outcome is nil
    have hnil : ∀ o ∈ t.received, o = none := by
      intro o ho
      have := d4.subset ho
      obtain ⟨wk, hwk, rfl⟩ := List.mem_map.mp this
      rw [firstError_none_iff]
      intro x hx
      obtain ⟨b, hb, rfl⟩ := List.mem_map.mp hx
      exact (hall wk hwk).2 b hb
    have hresn : res = none := by
      rw [r1, waitForWorkers_eq, firstError_none_iff]
      exact hnil
    -- jobs is empty: worker 0 has returned after it found jobs closed and empty
    have h0 : 0 < t.workers.length := by omega
    have hw0 : t.workers[0] ∈ t.workers := List.getElem_mem h0
    have hjobs : t.jobs = [] := by
      have hwi := hinv.workers _ hw0
      unfold WorkerInv at hwi
      simp only [d3 _ hw0] at hwi
      rcases hwi with ⟨e, oks, size, _, hb, _⟩ | ⟨_, _, hd⟩
      · have := (hall _ hw0).2 (size, some e) (by rw [hb]; simp)
        cases this
      · exact hd.2
    have hheld : (t.workers.map Worker.held).sum = 0 :=
      sum_map_zero _ _ (fun wk hwk => by simp [Worker.held, d3 wk hwk])
    have hun : (t.workers.map Worker.unadded).sum = 0 :=
      sum_map_zero _ _ (fun wk hwk => by simp [Worker.unadded, d3 wk hwk])
    have hlost : (t.workers.map (fun wk => lostSize wk.batches)).sum = 0 :=
      sum_map_zero _ _ (fun wk hwk => lostSize_allOk _ (hall wk hwk).2)
    have hsent := hflow.sentAll (fun i hi => by rw [hres] at hi; cases hi)
    have hcons := hflow.conservation
    rw [hjobs, hheld, hlost, hsent, hrem] at hcons
    simp only [List.sum_nil] at hcons
    have hins : t.inserted = seedCountOf seedCountStr - (store.withVirtual.length : Int) := by
      omega
    have hr1 := hflow.rowsWith
    have hr2 := hflow.rowsWithout
    rw [hun, hins] at hr1 hr2
    have hcnt : (t.store.withVirtual.length : Int) = seedCountOf seedCountStr := by omega
    refine ⟨hresn, hins, by omega, by omega, hcnt, ?_⟩
    rw [seedInit_skip seedCountStr workersStr t.store (by omega)]
    rfl


/-- The run `successfulRun` is a run to which `seed_completes_in_range` applies: a
target of 3 on empty tables with one worker; `Seed` returns nil and each table
holds 3 rows. -/
theorem seed_completes_in_range_example :
    ∃ t, run zeroSource (seedInit "3" "1" none emptyStore) successfulRun = some t ∧
      t.main = MainPc.returned none ∧ t.failedBatches = 0 ∧ t.inserted = 3 ∧
      (t.store.withVirtual.length : Int) = 3 ∧ (t.store.withoutVirtual.length : Int) = 3 := by
  have hsome : (run zeroSource (seedInit "3" "1" none emptyStore) successfulRun).isSome
      = true := by
    rfl
  obtain ⟨t, ht⟩ := Option.isSome_iff_exists.mp hsome
  have hmain : (run zeroSource (seedInit "3" "1" none emptyStore) successfulRun).map
      (fun u => (u.main, u.failedBatches)) = some (MainPc.returned none, 0) := by
    rfl
  rw [ht] at hmain
  simp only [Option.map_some', Option.some.injEq, Prod.mk.injEq] at hmain
  have h := (seed_completes_in_range zeroSource "3" "1" emptyStore successfulRun t
    (by decide) (by decide) (by decide) (by decide) ht hmain.2).2.2 none hmain.1
  have e1 : seedCountOf "3" = 3 := by decide
  have e2 : ((emptyStore.withVirtual.length : Nat) : Int) = 0 := rfl
  have e3 : ((emptyStore.withoutVirtual.length : Nat) : Int) = 0 := rfl
  obtain ⟨_, h2, h3, h4, _, _⟩ := h
  rw [e1, e2] at h2 h3
  rw [e1, e2, e3] at h4
  exact ⟨t, ht, hmain.1, hmain.2, by omega, by omega, by omega⟩

/-- C15: for all values of the three differences the two scores add up to 3, so the
winner is never "tie"; the winner is "virtual" exactly when at least two of
the three differences are greater than zero, and "calculated" otherwise. A
difference of zero counts for "calculated", and so does a NaN. -/
theorem benchmarkWinner_majority (queryTimeDiffMs totalTimeDiffMs : F64)
    (memoryDiffBytes : Int) :
    (benchmarkWinner queryTimeDiffMs totalTimeDiffMs memoryDiffBytes).virtualScore
      + (benchmarkWinner queryTimeDiffMs totalTimeDiffMs memoryDiffBytes).calcScore = 3 ∧
    (benchmarkWinner queryTimeDiffMs totalTimeDiffMs memoryDiffBytes).winner ≠ "tie" ∧
    ((benchmarkWinner queryTimeDiffMs totalTimeDiffMs memoryDiffBytes).winner = "virtual" ↔
      (queryTimeDiffMs.gtZero = true ∧ totalTimeDiffMs.gtZero = true) ∨
      (queryTimeDiffMs.gtZero = true ∧ memoryDiffBytes > 0) ∨
      (totalTimeDiffMs.gtZero = true ∧ memoryDiffBytes > 0)) ∧
    ((benchmarkWinner queryTimeDiffMs totalTimeDiffMs memoryDiffBytes).winner
        = "calculated" ↔
      ¬ ((queryTimeDiffMs.gtZero = true ∧ totalTimeDiffMs.gtZero = true) ∨
        (queryTimeDiffMs.gtZero = true ∧ memoryDiffBytes > 0) ∨
        (totalTimeDiffMs.gtZero = true ∧ memoryDiffBytes > 0))) ∧
    (benchmarkWinner (F64.finite 0) (F64.finite 0) 0).winner = "calculated" ∧
    (benchmarkWinner (F64.finite 1) (F64.finite 0) 1).winner = "virtual" ∧
    (benchmarkWinner F64.nan (F64.finite 1) 0).winner = "calculated" := by
  refine ⟨?_, ?_, ?_, ?_, by decide, by decide, by decide⟩ <;>
    (unfold benchmarkWinner bumpScore
     cases queryTimeDiffMs.gtZero <;> cases totalTimeDiffMs.gtZero <;>
       by_cases hm : memoryDiffBytes > 0 <;> simp [hm])


/-- C13 (counterexample): on the first tick of a run with a target of 3 on empty
tables, 5 seconds after the start and with `inserted` still 0, `rate` is 0 and
the division by `rate` is performed all the same: its result is `+Inf`. -/
theorem reporter_divides_by_zero :
    (reporterTick (seedInit "3" "1" none emptyStore) 5).ins = 0 ∧
    (reporterTick (seedInit "3" "1" none emptyStore) 5).rate = F64.finite 0 ∧
    (reporterTick (seedInit "3" "1" none emptyStore) 5).eta = F64.posInf := by
  have h1 : (seedInit "3" "1" none emptyStore).inserted = 0 := by decide
  have h2 : (seedInit "3" "1" none emptyStore).remaining = 3 := by decide
  have h3 : wrap64 3 = 3 := by decide
  refine ⟨h1, ?_, ?_⟩
  · simp [reporterTick, F64.div, h1]
  · simp [reporterTick, F64.div, F64.mul, h1, h2, h3]

/-- C13 (as amended): on every tick, taken a positive time after the start, `rate`
is `inserted / elapsed`, which is 0 exactly when `inserted` is 0, and `eta` is
computed by dividing `remaining - inserted` by `rate` without any guard: when
`rate` is not 0 it is the quotient times 1000000000, and when `rate` is 0 it is
the result of the floating-point division by zero, an infinity or NaN. -/
theorem reporter_eta_unguarded (s : SeedState) (elapsedSeconds : ℚ)
    (hel : 0 < elapsedSeconds) :
    (reporterTick s elapsedSeconds).rate = F64.finite ((s.inserted : ℚ) / elapsedSeconds) ∧
    ((reporterTick s elapsedSeconds).rate = F64.finite 0 ↔ s.inserted = 0) ∧
    (reporterTick s elapsedSeconds).eta
      = F64.mul (F64.div (F64.finite ((wrap64 (s.remaining - s.inserted) : Int) : ℚ))
          (reporterTick s elapsedSeconds).rate) (F64.finite 1000000000) ∧
    (s.inserted ≠ 0 →
      (reporterTick s elapsedSeconds).eta
        = F64.finite (((wrap64 (s.remaining - s.inserted) : Int) : ℚ)
            / ((s.inserted : ℚ) / elapsedSeconds) * 1000000000)) ∧
    (s.inserted = 0 →
      (reporterTick s elapsedSeconds).eta
        = if wrap64 (s.remaining - s.inserted) = 0 then F64.nan
          else if 0 < wrap64 (s.remaining - s.inserted) then F64.posInf else F64.negInf) := by
  have hne : elapsedSeconds ≠ 0 := ne_of_gt hel
  have hrate : (reporterTick s elapsedSeconds).rate
      = F64.finite ((s.inserted : ℚ) / elapsedSeconds) := by
    simp [reporterTick, F64.div, hne]
  refine ⟨hrate, ?_, rfl, ?_, ?_⟩
  · rw [hrate]
    simp [hne]
  · intro hins
    have hq : (s.inserted : ℚ) / elapsedSeconds ≠ 0 := by
      apply div_ne_zero _ hne
      exact_mod_cast hins
    simp [reporterTick, F64.div, F64.mul, hne, hq]
  · intro hins
    simp only [reporterTick, F64.div, hne, hins, if_false, Int.cast_zero, zero_div, if_true,
      sub_zero]
    generalize wrap64 s.remaining = r
    by_cases h0 : r = 0
    · simp [h0, F64.mul]
    · have hq : (r : ℚ) ≠ 0 := by exact_mod_cast h0
      by_cases hp : 0 < r
      · have hpq : (0 : ℚ) < (r : ℚ) := by exact_mod_cast hp
        simp [h0, hp, F64.mul]
      · have hpq : ¬ (0 : ℚ) < (r : ℚ) := by exact_mod_cast hp
        simp [h0, hp, F64.mul]

/-- Witness of C13 (as amended): the first tick of a run with a target of 3. -/
theorem reporter_eta_unguarded_witness :
    (0 : ℚ) < 5 ∧
    (reporterTick (seedInit "3" "1" none emptyStore) 5).rate
      = F64.finite ((((seedInit "3" "1" none emptyStore).inserted : Int) : ℚ) / 5) :=
  ⟨by decide, (reporter_eta_unguarded (seedInit "3" "1" none emptyStore) 5 (by decide)).1⟩

/-! ## The seeds of the workers -/

theorem workerSeed_eq_iff (now1 now2 : Int) (i j : Nat) :
    workerSeed now1 i = workerSeed now2 j ↔
      (now1 + (i : Int) - (now2 + (j : Int))) % 18446744073709551616 = 0 := by
  unfold workerSeed wrap64
  omega

/-- Two workers that read the same clock value get different seeds. -/
theorem workerSeed_same_clock (now : Int) (i j : Nat) (hi : i < 18446744073709551616)
    (hj : j < 18446744073709551616) (hne : i ≠ j) : workerSeed now i ≠ workerSeed now j := by
  rw [Ne, workerSeed_eq_iff]
  omega

/-- C14 (counterexample): worker 0 reading the clock value 1001 and worker 1
reading the clock value 1000 get the same seed; in the run in which they start
with these readings, both have the same random stream, whatever the
generator. -/
theorem worker_seeds_collide :
    workerSeed 1001 0 = workerSeed 1000 1 ∧
    ∀ newSource : Int → Nat → Nat, ∃ t wk0 wk1,
      run newSource (seedInit "3" "2" none emptyStore)
        [Action.start 0 1001, Action.start 1 1000] = some t ∧
      t.workers = [wk0, wk1] ∧
      wk0.pc = WorkerPc.waiting (Rand.mk (newSource 1001) 0) ∧
      wk1.pc = WorkerPc.waiting (Rand.mk (newSource 1001) 0) := by
  refine ⟨by decide, fun newSource => ⟨_, _, _, rfl, rfl, rfl, rfl⟩⟩

/-- C14 (as amended): for two workers with different indices `i` and `j`, the seeds
are equal exactly when the two clock readings differ by `j - i` modulo `2^64`;
in particular they are different when both workers read the same clock
value. -/
theorem worker_seeds_distinct (now1 now2 : Int) (i j : Nat)
    (hi : (i : Int) ≤ 9223372036854775807) (hj : (j : Int) ≤ 9223372036854775807)
    (hne : i ≠ j) :
    (workerSeed now1 i = workerSeed now2 j ↔
      (now1 - now2 - ((j : Int) - (i : Int))) % 18446744073709551616 = 0) ∧
    (now1 = now2 → workerSeed now1 i ≠ workerSeed now2 j) := by
  constructor
  · rw [workerSeed_eq_iff]
    constructor <;> intro h <;> omega
  · intro he
    rw [Ne, workerSeed_eq_iff, he]
    omega

/-- Witness of C14 (as amended): workers 0 and 1 reading the clock value 5. -/
theorem worker_seeds_distinct_witness :
    (((0 : Nat) : Int) ≤ 9223372036854775807 ∧ ((1 : Nat) : Int) ≤ 9223372036854775807 ∧
      (0 : Nat) ≠ 1) ∧
    workerSeed 5 0 ≠ workerSeed 5 1 :=
  ⟨⟨by decide, by decide, by decide⟩,
    (worker_seeds_distinct 5 5 0 1 (by decide) (by decide) (by decide)).2 rfl⟩

/-! ## Where the call can get stuck -/

theorem Atoi_range (s : String) (n : Int) (h : Atoi s = some n) :
    -9223372036854775808 ≤ n ∧ n ≤ 9223372036854775807 := by
  unfold Atoi at h
  dsimp only at h
  generalize (if s.toList.head? = some '-' ∨ s.toList.head? = some '+' then s.toList.tail
    else s.toList) = ds at h
  by_cases hds : ds = []
  · simp [hds] at h
  · simp only [hds, if_false] at h
    cases hp : parseDigits ds 0 with
    | none => simp [hp] at h
    | some m =>
      simp only [hp] at h
      generalize (if decide (s.toList.head? = some '-') = true then -(m : Int) else (m : Int))
        = v at h
      by_cases hr : minInt ≤ v ∧ v ≤ maxInt
      · simp only [hr, and_self, if_true, Option.some.injEq] at h
        rw [← h]
        simpa [minInt, maxInt] using hr
      · simp only [hr, if_false] at h
        cases h
theorem numWorkersOf_le (w : String) : numWorkersOf w ≤ 9223372036854775807 := by
  rw [numWorkersOf_eq]
  cases h : Atoi w with
  | none => simp
  | some n => simpa using (Atoi_range w n h).2

/-- The capacity of `jobs` is twice the number of workers, which is not negative
and fits an `int`, in every state of a call of `Seed` that got past line 83. -/
theorem capacity_reachable (newSource : Int → Nat → Nat) (seedCountStr workersStr : String)
    (countFault : Option StoreErr) (store : Store) (acts : List Action) (t : SeedState)
    (hinit : (seedInit seedCountStr workersStr countFault store).main = MainPc.sending 0)
    (hrun : run newSource (seedInit seedCountStr workersStr countFault store) acts = some t) :
    0 ≤ t.numWorkers ∧ t.jobsCap = 2 * t.numWorkers ∧
      t.numWorkers ≤ 4611686018427387903 := by
  obtain ⟨rfl, h1, h2, h3⟩ := seedInit_sending _ _ _ _ _ hinit
  have hmax := numWorkersOf_le workersStr
  have hc := run_invariant newSource
    (fun x => x.numWorkers = numWorkersOf workersStr ∧
      x.jobsCap = wrap64 (numWorkersOf workersStr * 2))
    (fun x _ y hx hst => by
      obtain ⟨_, c2, c3, _⟩ := step_constants hst
      exact ⟨by rw [c2]; exact hx.1, by rw [c3]; exact hx.2⟩)
    acts _ t (by rw [seedInit_run _ _ _ h1 h2 h3]; exact ⟨rfl, rfl⟩) hrun
  rw [hc.1, hc.2]
  unfold wrap64 at h2 ⊢
  omega

/-- A state of a call of `Seed` that got past line 83 and has not returned has no
transition exactly when `Seed` has a job left to send, `jobs` is full and every
worker has returned. -/
theorem stuck_iff (newSource : Int → Nat → Nat) {t : SeedState} (hinv : Inv t)
    (hcap : t.jobsCap = 2 * t.numWorkers)
    (hnr : ∀ res, t.main ≠ MainPc.returned res) :
    (∀ a, step newSource t a = none) ↔
      ∃ i, t.main = MainPc.sending i ∧ i < t.remaining ∧
        t.jobsCap ≤ (t.jobs.length : Int) ∧ ∀ wk ∈ t.workers, wk.pc = WorkerPc.done := by
  constructor
  · intro hstuck
    -- what a worker without a transition looks like
    have hB : ∀ (w : Nat) (wk : Worker), t.workers[w]? = some wk →
        wk.pc = WorkerPc.done ∨
          ((∃ r, wk.pc = WorkerPc.waiting r) ∧ t.jobs = [] ∧ t.jobsClosed = false) := by
      intro w wk hw
      have hmem := List.getElem?_mem hw
      have hroom : wk.pc ≠ WorkerPc.done → (t.results.length : Int) < t.numWorkers :=
        fun hne => results_has_room hinv wk hmem
          ((workerInv_facts _ wk (hinv.workers wk hmem)).2.1 hne)
      cases hpc : wk.pc with
      | created =>
        have := hstuck (Action.start w 0)
        simp [step, startStep, hw, hpc] at this
      | waiting r =>
        have := hstuck (Action.work w TxFaults.ok)
        cases hj : t.jobs with
        | cons size rest => simp [step, workStep, hw, hpc, hj] at this
        | nil =>
          cases hc : t.jobsClosed with
          | true => simp [step, workStep, hw, hpc, hj, hc] at this
          | false => exact Or.inr ⟨⟨r, rfl⟩, rfl, rfl⟩
      | holding r size =>
        have := hstuck (Action.work w TxFaults.ok)
        have hok := insertBatch_ok_faults t.store r size
        simp [step, workStep, hw, hpc, hok] at this
      | committed r size =>
        have := hstuck (Action.work w TxFaults.ok)
        simp [step, workStep, hw, hpc] at this
      | failing e =>
        have := hstuck (Action.work w TxFaults.ok)
        have hr := hroom (by rw [hpc]; intro h; cases h)
        simp [step, workStep, hw, hpc, hr] at this
      | finishing =>
        have := hstuck (Action.work w TxFaults.ok)
        have hr := hroom (by rw [hpc]; intro h; cases h)
        simp [step, workStep, hw, hpc, hr] at this
      | done => exact Or.inl rfl
    have hwl := hinv.workersLen
    cases hm : t.main with
    | sending i =>
      have hmain := hstuck Action.main
      by_cases hlt : i < t.remaining
      · by_cases hroom : (t.jobs.length : Int) < t.jobsCap
        · simp [step, mainStep, hm, hlt, hroom] at hmain
        · refine ⟨i, rfl, hlt, by omega, ?_⟩
          intro wk hwk
          obtain ⟨w, hw⟩ := List.mem_iff_getElem?.mp hwk
          rcases hB w wk hw with hd | ⟨_, hj, _⟩
          · exact hd
          · exfalso
            have hlen : 0 < t.workers.length := List.length_pos_of_mem hwk
            rw [hj] at hroom
            simp only [List.length_nil, Nat.cast_zero] at hroom
            omega
      · simp [step, mainStep, hm, hlt] at hmain
    | receiving v fe =>
      exfalso
      have hmain := hstuck Action.main
      obtain ⟨_, hv, _⟩ := hinv.receiving v fe hm
      have hclosed : t.jobsClosed = true :=
        hinv.closed.mpr (fun i hi => by rw [hm] at hi; cases hi)
      by_cases hlt : v < t.numWorkers
      · cases hr : t.results with
        | cons err rest => simp [step, mainStep, hm, hlt, hr] at hmain
        | nil =>
          have hpl := hinv.outcomes.length_eq
          simp only [hr, List.append_nil] at hpl
          have hone : ∀ wk ∈ t.workers, wk.sent = [firstError (wk.batches.map Prod.snd)] := by
            intro wk hwk
            obtain ⟨w, hw⟩ := List.mem_iff_getElem?.mp hwk
            rcases hB w wk hw with hd | ⟨_, _, hc⟩
            · have := (workerInv_facts _ wk (hinv.workers wk hwk)).2.2 hd
              rw [this.1, workerRun_sent]
            · rw [hclosed] at hc
              cases hc
          rw [flatMap_singleton_map Worker.sent _ t.workers hone, List.length_map] at hpl
          omega
      · simp [step, mainStep, hm, hlt] at hmain
    | returned res => exact absurd hm (hnr res)
    | panicked => exact absurd hm hinv.notPanicked
  · rintro ⟨i, hm, hlt, hfull, hdone⟩ a
    cases a with
    | main =>
      have hroom : ¬ (t.jobs.length : Int) < t.jobsCap := by omega
      simp [step, mainStep, hm, hlt, hroom]
    | start w now =>
      cases hw : t.workers[w]? with
      | none => simp [step, startStep, hw]
      | some wk => simp [step, startStep, hw, hdone wk (List.getElem?_mem hw)]
    | work w f =>
      cases hw : t.workers[w]? with
      | none => simp [step, workStep, hw]
      | some wk => simp [step, workStep, hw, hdone wk (List.getElem?_mem hw)]


/-- C11 (evaluation at the failing inputs): with a target of 15001 on empty tables
and one worker whose first call of `insertBatch` fails, the run `deadlockRun`
ends in a state in which `Seed` has not returned, stands in the loop of line
121 with the last job still to send, `jobs` is full and not closed, the only
worker has returned, and no goroutine has a transition. With zero workers the
state in which `Seed` enters the loop of line 121 has no transition either. -/
theorem seed_deadlocks (newSource : Int → Nat → Nat) :
    (∃ t, run newSource (seedInit "15001" "1" none emptyStore) deadlockRun = some t ∧
      t.main = MainPc.sending 15000 ∧ t.remaining = 15001 ∧ t.jobs = [5000, 5000] ∧
      t.jobsClosed = false ∧ t.received = [] ∧
      (∀ wk ∈ t.workers, wk.pc = WorkerPc.done) ∧
      ∀ a, step newSource t a = none) ∧
    ((seedInit "3" "0" none emptyStore).main = MainPc.sending 0 ∧
      (seedInit "3" "0" none emptyStore).remaining = 3 ∧
      (seedInit "3" "0" none emptyStore).workers = [] ∧
      ∀ a, step newSource (seedInit "3" "0" none emptyStore) a = none) := by
  constructor
  · have hsome : (run newSource (seedInit "15001" "1" none emptyStore) deadlockRun).isSome
        = true := by
      rfl
    obtain ⟨t, ht⟩ := Option.isSome_iff_exists.mp hsome
    have hval : (run newSource (seedInit "15001" "1" none emptyStore) deadlockRun).map
        (fun u => (u.main, u.remaining, u.jobs, u.jobsCap, u.jobsClosed,
          u.workers.map Worker.pc))
        = some (MainPc.sending 15000, 15001, [5000, 5000], 2, false, [WorkerPc.done]) := by
      rfl
    rw [ht] at hval
    simp only [Option.map_some', Option.some.injEq, Prod.mk.injEq] at hval
    obtain ⟨hm, hr, hj, hc, hcl, hw⟩ := hval
    have hinit : (seedInit "15001" "1" none emptyStore).main = MainPc.sending 0 := by decide
    have hinv := inv_reachable newSource _ _ _ _ deadlockRun t hinit ht
    obtain ⟨hW0, hcap, _⟩ := capacity_reachable newSource _ _ _ _ deadlockRun t hinit ht
    have hdone : ∀ wk ∈ t.workers, wk.pc = WorkerPc.done := by
      intro wk hwk
      have : wk.pc ∈ t.workers.map Worker.pc := List.mem_map_of_mem _ hwk
      rw [hw] at this
      simpa using this
    have hnr : ∀ res, t.main ≠ MainPc.returned res := by
      intro res h
      rw [hm] at h
      cases h
    refine ⟨t, ht, hm, hr, hj, hcl, hinv.sending _ hm, hdone, ?_⟩
    refine (stuck_iff newSource hinv hcap hnr).mpr ⟨15000, hm, ?_, ?_, hdone⟩
    · rw [hr]; decide
    · rw [hc, hj]; decide
  · have hinit : (seedInit "3" "0" none emptyStore).main = MainPc.sending 0 := by decide
    have hinv := inv_init "3" "0" none emptyStore 0 hinit
    refine ⟨hinit, by decide, rfl, ?_⟩
    refine (stuck_iff newSource hinv (by decide)
      (fun res h => by rw [hinit] at h; cases h)).mpr ⟨0, hinit, by decide, by decide, ?_⟩
    intro wk hwk
    have : (seedInit "3" "0" none emptyStore).workers = [] := rfl
    rw [this] at hwk
    cases hwk


/-! ## The progress counter: proofs -/

theorem okSize_append_ok (bs : List (Int × Option SeedErr)) (size : Int) :
    okSize (bs ++ [(size, none)]) = okSize bs + size := by
  induction bs with
  | nil => simp [okSize]
  | cons b rest ih =>
    obtain ⟨sz, err⟩ := b
    cases err with
    | none =>
      show sz + okSize (rest ++ [(size, none)]) = sz + okSize rest + size
      rw [ih]
      omega
    | some e =>
      show okSize (rest ++ [(size, none)]) = okSize rest + size
      exact ih

theorem okSize_append_failed (bs : List (Int × Option SeedErr)) (size : Int) (e : SeedErr) :
    okSize (bs ++ [(size, some e)]) = okSize bs := by
  induction bs with
  | nil => rfl
  | cons b rest ih =>
    obtain ⟨sz, err⟩ := b
    cases err with
    | none =>
      show sz + okSize (rest ++ [(size, some e)]) = sz + okSize rest
      rw [ih]
    | some e2 =>
      show okSize (rest ++ [(size, some e)]) = okSize rest
      exact ih

/-- In the range without overflow, the addition of line 95 does not wrap around,
and the size added is not negative. -/
theorem add_in_range {n0 m0 : Nat} {s : SeedState} {w : Nat} {wk : Worker} {r : Rand}
    {size : Int} (hs : Flow n0 m0 s) (hw : s.workers[w]? = some wk)
    (hpc : wk.pc = WorkerPc.committed r size) :
    0 ≤ size ∧ wrap64 (s.inserted + size) = s.inserted + size ∧
      s.inserted + size ≤ s.remaining := by
  have hsle := hs.sent_le
  have hr := hs.heldRange wk (List.getElem?_mem hw)
  have e1 : wk.held = size := by simp [Worker.held, hpc]
  have hcons := hs.conservation
  have hins := hs.insertedNonneg
  have hrl := hs.remLe
  have hjn : 0 ≤ s.jobs.sum := List.sum_nonneg (fun j hj => by have := hs.jobsRange j hj; omega)
  have hln : 0 ≤ (s.workers.map (fun wk => lostSize wk.batches)).sum :=
    List.sum_nonneg (fun x hx => by
      obtain ⟨y, hy, rfl⟩ := List.mem_map.mp hx
      exact (hs.heldRange y hy).2.2)
  have hhn : wk.held ≤ (s.workers.map Worker.held).sum :=
    List.single_le_sum (fun x hx => by
      obtain ⟨y, hy, rfl⟩ := List.mem_map.mp hx
      have := (hs.heldRange y hy).1
      omega) _ (List.mem_map.mpr ⟨wk, List.getElem?_mem hw, rfl⟩)
  have hsize : 0 ≤ size := by
    have := hr.1
    omega
  exact ⟨hsize, wrap64_of_inRange _ (by omega) (by omega), by omega⟩

/-- The counter never exceeds `remaining` in the range without overflow. -/
theorem Flow.inserted_le {n0 m0 : Nat} {s : SeedState} (hs : Flow n0 m0 s) :
    s.inserted ≤ s.remaining := by
  have hsle := hs.sent_le
  have hcons := hs.conservation
  have hjn : 0 ≤ s.jobs.sum := List.sum_nonneg (fun j hj => by have := hs.jobsRange j hj; omega)
  have hln : 0 ≤ (s.workers.map (fun wk => lostSize wk.batches)).sum :=
    List.sum_nonneg (fun x hx => by
      obtain ⟨y, hy, rfl⟩ := List.mem_map.mp hx
      exact (hs.heldRange y hy).2.2)
  have hhn : 0 ≤ (s.workers.map Worker.held).sum :=
    List.sum_nonneg (fun x hx => by
      obtain ⟨y, hy, rfl⟩ := List.mem_map.mp hx
      have := (hs.heldRange y hy).1
      omega)
  omega

theorem ack_worker_update {s t : SeedState} {w : Nat} {wk wk2 : Worker} (hs : Ack s)
    (hw : s.workers[w]? = some wk) (hwk : t.workers = s.workers.set w wk2)
    (hcap : t.jobsCap = s.jobsCap) (hjobs : t.jobs.length ≤ s.jobs.length)
    (hacc : t.inserted + wk2.unadded - okSize wk2.batches
      = s.inserted + wk.unadded - okSize wk.batches) : Ack t := by
  have e1 := sum_map_set_int Worker.unadded s.workers w wk wk2 hw
  have e2 := sum_map_set_int (fun wk => okSize wk.batches) s.workers w wk wk2 hw
  simp only at e2
  have h1 := hs.acked
  have h2 := hs.capacity
  refine { acked := ?_, capacity := ?_ }
  · rw [hwk, e1, e2]
    omega
  · rw [hcap]
    have : (t.jobs.length : Int) ≤ (s.jobs.length : Int) := by exact_mod_cast hjobs
    omega

theorem ack_step {newSource : Int → Nat → Nat} {n0 m0 : Nat} {s t : SeedState} {a : Action}
    (hf : Flow n0 m0 s) (hs : Ack s) (h : step newSource s a = some t) : Ack t := by
  rcases step_inv h with ⟨i, hm, hlt, hroom, rfl⟩ | ⟨i, hm, hge, rfl⟩ |
    ⟨v, fe, err, rest, hm, hv, hr, rfl⟩ |
    ⟨v, fe, hm, _, rfl⟩ | ⟨w, wk, r, hw, hpc, rfl⟩ | ⟨w, wk, r, size, rest, hw, hpc, hj, rfl⟩ |
    ⟨w, wk, r, hw, hpc, hj, hc, rfl⟩ | ⟨w, wk, r, size, f, calls, hw, hpc, he, rfl⟩ |
    ⟨w, wk, r, size, f, calls, e, hw, hpc, he, rfl⟩ | ⟨w, wk, r, size, hw, hpc, rfl⟩ |
    ⟨w, wk, e, hw, hpc, _, rfl⟩ | ⟨w, wk, hw, hpc, _, rfl⟩
  · refine { acked := hs.acked, capacity := ?_ }
    simp only [List.length_append, List.length_singleton]
    push_cast
    omega
  · exact { acked := hs.acked, capacity := hs.capacity }
  · exact { acked := hs.acked, capacity := hs.capacity }
  · exact { acked := hs.acked, capacity := hs.capacity }
  · have e2 : wk.unadded = 0 := by simp [Worker.unadded, hpc]
    refine ack_worker_update hs hw rfl rfl (le_refl _) ?_
    rw [e2]; rfl
  · have e2 : wk.unadded = 0 := by simp [Worker.unadded, hpc]
    refine ack_worker_update hs hw rfl rfl (by rw [hj]; simp) ?_
    rw [e2]; rfl
  · have e2 : wk.unadded = 0 := by simp [Worker.unadded, hpc]
    refine ack_worker_update hs hw rfl rfl (le_refl _) ?_
    rw [e2]; rfl
  · have e2 : wk.unadded = 0 := by simp [Worker.unadded, hpc]
    refine ack_worker_update hs hw rfl rfl (le_refl _) ?_
    show s.inserted + size - okSize (wk.batches ++ [(size, none)]) = _
    rw [okSize_append_ok, e2]
    omega
  · have e2 : wk.unadded = 0 := by simp [Worker.unadded, hpc]
    refine ack_worker_update hs hw rfl rfl (le_refl _) ?_
    show s.inserted + 0 - okSize (wk.batches ++ [(size, some e)]) = _
    rw [okSize_append_failed, e2]
  · have e2 : wk.unadded = size := by simp [Worker.unadded, hpc]
    obtain ⟨_, hwrap, _⟩ := add_in_range hf hw hpc
    refine ack_worker_update hs hw rfl rfl (le_refl _) ?_
    show wrap64 (s.inserted + size) + 0 - okSize wk.batches = _
    rw [hwrap, e2]
    omega
  · have e2 : wk.unadded = 0 := by simp [Worker.unadded, hpc]
    refine ack_worker_update hs hw rfl rfl (le_refl _) ?_
    rw [e2]; rfl
  · have e2 : wk.unadded = 0 := by simp [Worker.unadded, hpc]
    refine ack_worker_update hs hw rfl rfl (le_refl _) ?_
    rw [e2]; rfl


/-- A transition leaves `inserted` as it is, unless it is the addition of line 95
by a worker that has committed a batch. -/
theorem step_inserted {newSource : Int → Nat → Nat} {s t : SeedState} {a : Action}
    (h : step newSource s a = some t) :
    t.inserted = s.inserted ∨
      ∃ (w : Nat) (wk : Worker) (r : Rand) (size : Int),
        s.workers[w]? = some wk ∧ wk.pc = WorkerPc.committed r size ∧
        t.inserted = wrap64 (s.inserted + size) := by
  rcases step_inv h with ⟨i, hm, hlt, hroom, rfl⟩ | ⟨i, hm, hge, rfl⟩ |
    ⟨v, fe, err, rest, hm, hv, hr, rfl⟩ |
    ⟨v, fe, hm, _, rfl⟩ | ⟨w, wk, r, hw, hpc, rfl⟩ | ⟨w, wk, r, size, rest, hw, hpc, hj, rfl⟩ |
    ⟨w, wk, r, hw, hpc, hj, hc, rfl⟩ | ⟨w, wk, r, size, f, calls, hw, hpc, he, rfl⟩ |
    ⟨w, wk, r, size, f, calls, e, hw, hpc, he, rfl⟩ | ⟨w, wk, r, size, hw, hpc, rfl⟩ |
    ⟨w, wk, e, hw, hpc, _, rfl⟩ | ⟨w, wk, hw, hpc, _, rfl⟩
  case inr.inr.inr.inr.inr.inr.inr.inr.inr.inl => exact Or.inr ⟨w, wk, r, size, hw, hpc, rfl⟩
  all_goals exact Or.inl rfl

/-- In the range without overflow: the counter starts at 0; in every state that a
call of `Seed` can reach it is the total size of the committed batches less the
sizes of those not yet added; it lies between 0 and `remaining`; a transition
leaves it as it is or adds the size, not negative, of the job that a worker
has committed; and when `Seed` has returned nil it equals `remaining`. -/
theorem counter_in_range (newSource : Int → Nat → Nat) (seedCountStr workersStr : String)
    (store : Store) (acts : List Action) (t : SeedState)
    (hinit : (seedInit seedCountStr workersStr none store).main = MainPc.sending 0)
    (hrange : seedCountOf seedCountStr - (store.withVirtual.length : Int)
      ≤ 9223372036854775000)
    (hrun : run newSource (seedInit seedCountStr workersStr none store) acts = some t) :
    (seedInit seedCountStr workersStr none store).inserted = 0 ∧
    t.inserted = (t.workers.map (fun wk => okSize wk.batches)).sum
      - (t.workers.map Worker.unadded).sum ∧
    0 ≤ t.inserted ∧ t.inserted ≤ t.remaining ∧
    (∀ a u, step newSource t a = some u →
      u.inserted = t.inserted ∨
        ∃ (w : Nat) (wk : Worker) (r : Rand) (size : Int),
          t.workers[w]? = some wk ∧ wk.pc = WorkerPc.committed r size ∧
          0 ≤ size ∧ u.inserted = t.inserted + size) ∧
    (t.main = MainPc.returned none → t.inserted = t.remaining) := by
  obtain ⟨_, h1, h2, h3⟩ := seedInit_sending _ _ _ _ _ hinit
  have hs0 := seedInit_run seedCountStr workersStr store h1 h2 h3
  have hinv := inv_reachable newSource _ _ _ _ acts t hinit hrun
  obtain ⟨_, hcap, _⟩ := capacity_reachable newSource _ _ _ _ acts t hinit hrun
  have hflow0 := flow_init seedCountStr workersStr store h1 h2 h3 hrange
  have hack0 : Ack (seedInit seedCountStr workersStr none store) := by
    rw [hs0]
    refine { acked := ?_, capacity := ?_ }
    · have z1 : ((List.replicate (numWorkersOf workersStr).toNat
          ({ pc := WorkerPc.created, batches := [], sent := [] } : Worker)).map
            Worker.unadded).sum = 0 :=
        sum_map_zero _ _ (fun x hx => by rw [List.eq_of_mem_replicate hx]; rfl)
      have z2 : ((List.replicate (numWorkersOf workersStr).toNat
          ({ pc := WorkerPc.created, batches := [], sent := [] } : Worker)).map
            (fun wk => okSize wk.batches)).sum = 0 :=
        sum_map_zero _ _ (fun x hx => by rw [List.eq_of_mem_replicate hx]; rfl)
      simp only [z1, z2]
      rfl
    · simpa using h2
  have hboth := run_invariant newSource
    (fun x => Flow store.withVirtual.length store.withoutVirtual.length x ∧ Ack x)
    (fun _ _ _ hx hst => ⟨flow_step hx.1 hst, ack_step hx.1 hx.2 hst⟩) acts _ t
    ⟨hflow0, hack0⟩ hrun
  obtain ⟨hflow, hack⟩ := hboth
  refine ⟨by rw [hs0], ?_, hflow.insertedNonneg, hflow.inserted_le, ?_, ?_⟩
  · have := hack.acked
    omega
  · intro a u hst
    rcases step_inserted hst with h | ⟨w, wk, r, size, hw, hpc, h⟩
    · exact Or.inl h
    · obtain ⟨hz, hwrap, _⟩ := add_in_range hflow hw hpc
      exact Or.inr ⟨w, wk, r, size, hw, hpc, hz, by rw [h, hwrap]⟩
  · intro hres
    obtain ⟨d1, d2, d3, d4⟩ := returned_all_done hinv none hres
    obtain ⟨r1, _⟩ := hinv.returned none hres
    have hnil : ∀ o ∈ t.received, o = none := by
      rw [← firstError_none_iff, ← waitForWorkers_eq]
      exact r1.symm
    have hok : ∀ wk ∈ t.workers, allOk wk.batches := by
      intro wk hwk b hb
      have hmem : firstError (wk.batches.map Prod.snd) ∈ t.received :=
        d4.symm.subset (List.mem_map.mpr ⟨wk, hwk, rfl⟩)
      have := (firstError_none_iff _).mp (hnil _ hmem)
      exact this b.2 (List.mem_map_of_mem _ hb)
    have hjobs : t.jobs = [] := by
      cases hws : t.workers with
      | nil =>
        have hwl := hinv.workersLen
        have hc := hack.capacity
        rw [hws] at hwl
        simp only [List.length_nil, Nat.cast_zero] at hwl
        apply List.eq_nil_of_length_eq_zero
        omega
      | cons wk0 rest =>
        have hw0 : wk0 ∈ t.workers := by rw [hws]; exact List.mem_cons_self _ _
        have hwi := hinv.workers _ hw0
        unfold WorkerInv at hwi
        simp only [d3 _ hw0] at hwi
        rcases hwi with ⟨e, oks, size, _, hb, _⟩ | ⟨_, _, hd⟩
        · have := hok _ hw0 (size, some e) (by rw [hb]; simp)
          cases this
        · exact hd.2
    have hheld : (t.workers.map Worker.held).sum = 0 :=
      sum_map_zero _ _ (fun wk hwk => by simp [Worker.held, d3 wk hwk])
    have hlost : (t.workers.map (fun wk => lostSize wk.batches)).sum = 0 :=
      sum_map_zero _ _ (fun wk hwk => lostSize_allOk _ (hok wk hwk))
    have hsent := hflow.sentAll (fun i hi => by rw [hres] at hi; cases hi)
    have hcons := hflow.conservation
    rw [hjobs, hheld, hlost, hsent] at hcons
    simp only [List.sum_nil] at hcons
    omega


/-! ## The progress counter at the largest target -/

theorem run_snoc (newSource : Int → Nat → Nat) : ∀ (acts : List Action) (s t u : SeedState)
    (a : Action), run newSource s acts = some t → step newSource t a = some u →
    run newSource s (acts ++ [a]) = some u := by
  intro acts
  induction acts with
  | nil =>
    intro s t u a h hst
    simp only [run, Option.some.injEq] at h
    subst h
    simp [run, hst]
  | cons b acts ih =>
    intro s t u a h hst
    simp only [run, List.cons_append] at h ⊢
    cases hb : step newSource s b with
    | none => simp [hb] at h
    | some v =>
      simp only [hb] at h ⊢
      exact ih v t u a h hst

/-- One job: `Seed` sends it, the worker takes it and commits its batch on a store
that fails no call. -/
theorem idle_to_committed (newSource : Int → Nat → Nat) (s0 t : SeedState) (i ins : Int)
    (hreach : ∃ acts, run newSource s0 acts = some t) (h : IdleAt t i ins)
    (hlt : i < 9223372036854775807) :
    ∃ acts u, run newSource s0 acts = some u ∧
      CommittedAt u (nextIndex i) ins (jobSize 9223372036854775807 i) := by
  obtain ⟨acts, hacts⟩ := hreach
  obtain ⟨hrem, hcap, hm, hj, hins, wk, r, hws, hpc⟩ := h
  -- the send
  have h1 : step newSource t Action.main = some
      { t with jobs := t.jobs ++ [jobSize t.remaining i],
               sentJobs := t.sentJobs ++ [jobSize t.remaining i],
               main := MainPc.sending (nextIndex i) } := by
    have a1 : i < t.remaining := by rw [hrem]; exact hlt
    have a2 : (t.jobs.length : Int) < t.jobsCap := by rw [hj, hcap]; decide
    simp only [step, mainStep, hm, a1, a2, if_true]
  have r1 := run_snoc newSource acts s0 t _ _ hacts h1
  -- the receive
  have h2 : step newSource
      { t with jobs := t.jobs ++ [jobSize t.remaining i],
               sentJobs := t.sentJobs ++ [jobSize t.remaining i],
               main := MainPc.sending (nextIndex i) } (Action.work 0 TxFaults.ok) = some
      { t with jobs := [],
               sentJobs := t.sentJobs ++ [jobSize t.remaining i],
               main := MainPc.sending (nextIndex i),
               workers := [{ wk with pc := WorkerPc.holding r (jobSize t.remaining i) }] } := by
    simp only [step, workStep, hws, hj, List.nil_append, List.getElem?_cons_zero, hpc,
      List.set_cons_zero]
  have r2 := run_snoc newSource _ s0 _ _ _ r1 h2
  -- the call of insertBatch
  have hok := insertBatch_ok_faults t.store r (jobSize t.remaining i)
  have h3 : ∃ u, step newSource
      { t with jobs := [],
               sentJobs := t.sentJobs ++ [jobSize t.remaining i],
               main := MainPc.sending (nextIndex i),
               workers := [{ wk with pc := WorkerPc.holding r (jobSize t.remaining i) }] }
        (Action.work 0 TxFaults.ok) = some u ∧
      CommittedAt u (nextIndex i) ins (jobSize 9223372036854775807 i) := by
    simp only [step, workStep, List.getElem?_cons_zero, hok, List.set_cons_zero]
    exact ⟨_, rfl, hrem, hcap, rfl, rfl, hins, _, _, rfl, by rw [hrem]⟩
  obtain ⟨u, h3, hu⟩ := h3
  exact ⟨_, u, run_snoc newSource _ s0 _ _ _ r2 h3, hu⟩

/-- Line 95 after a committed batch. -/
theorem committed_to_idle (newSource : Int → Nat → Nat) (s0 t : SeedState) (i ins size : Int)
    (hreach : ∃ acts, run newSource s0 acts = some t) (h : CommittedAt t i ins size) :
    ∃ u, step newSource t (Action.work 0 TxFaults.ok) = some u ∧
      (∃ acts, run newSource s0 acts = some u) ∧ IdleAt u i (wrap64 (ins + size)) := by
  obtain ⟨acts, hacts⟩ := hreach
  obtain ⟨hrem, hcap, hm, hj, hins, wk, r, hws, hpc⟩ := h
  have h1 : step newSource t (Action.work 0 TxFaults.ok) = some
      { t with inserted := wrap64 (t.inserted + size),
               workers := [{ wk with pc := WorkerPc.waiting r }] } := by
    simp only [step, workStep, hws, List.getElem?_cons_zero, hpc, List.set_cons_zero]
  refine ⟨_, h1, ⟨_, run_snoc newSource acts s0 t _ _ hacts h1⟩, ?_⟩
  exact ⟨hrem, hcap, hm, hj, by rw [← hins], _, _, rfl, rfl⟩

/-- After `k` full jobs, for `k` up to 1844674407370955. -/
theorem idle_after_full_jobs (newSource : Int → Nat → Nat) (s0 : SeedState)
    (h0 : IdleAt s0 0 0) (k : Nat) (hk : k ≤ 1844674407370955) :
    ∃ acts t, run newSource s0 acts = some t ∧ IdleAt t (5000 * (k : Int)) (5000 * (k : Int)) := by
  induction k with
  | zero => exact ⟨[], s0, rfl, by simpa using h0⟩
  | succ k ih =>
    obtain ⟨acts, t, hrun, hidle⟩ := ih (by omega)
    obtain ⟨acts2, u, hrun2, hcom⟩ :=
      idle_to_committed newSource s0 t _ _ ⟨acts, hrun⟩ hidle (by omega)
    obtain ⟨v, _, ⟨acts3, hrun3⟩, hv⟩ := committed_to_idle newSource s0 u _ _ _ ⟨acts2, hrun2⟩ hcom
    refine ⟨acts3, v, hrun3, ?_⟩
    have e1 : nextIndex (5000 * (k : Int)) = 5000 * ((k + 1 : Nat) : Int) := by
      unfold nextIndex batchSize
      rw [wrap64_of_inRange _ (by omega) (by omega)]
      push_cast
      omega
    have e2 : jobSize 9223372036854775807 (5000 * (k : Int)) = 5000 := by
      unfold jobSize batchSize
      rw [wrap64_of_inRange _ (by omega) (by omega)]
      omega
    have e3 : wrap64 (5000 * (k : Int) + 5000) = 5000 * ((k + 1 : Nat) : Int) := by
      rw [wrap64_of_inRange _ (by omega) (by omega)]
      push_cast
      omega
    rw [e1, e2, e3] at hv
    exact hv

/-- C12 (evaluation at the failing input): with a target of 9223372036854775807
on empty tables, one worker and a store that fails no call, `Seed` reaches a
state in which the counter `inserted` equals `remaining` = 9223372036854775807
and the worker has committed the batch of the job of size -4193; the worker's
next transition, the addition of line 95, takes the counter down to
9223372036854771614. -/
theorem counter_decreases_at_maxInt (newSource : Int → Nat → Nat) (now : Int) :
    ∃ acts t u,
      run newSource (seedInit "9223372036854775807" "1" none emptyStore) acts = some t ∧
      step newSource t (Action.work 0 TxFaults.ok) = some u ∧
      t.remaining = 9223372036854775807 ∧ t.inserted = 9223372036854775807 ∧
      (∃ wk r, t.workers = [wk] ∧ wk.pc = WorkerPc.committed r (-4193)) ∧
      u.inserted = 9223372036854771614 ∧ u.inserted < t.inserted := by
  have hc : seedCountOf "9223372036854775807" = 9223372036854775807 := by decide
  have hw : numWorkersOf "1" = 1 := by decide
  have e0 := seedInit_run "9223372036854775807" "1" emptyStore (by rw [hc]; decide)
    (by rw [hw]; decide) (by rw [hw]; decide)
  rw [hc, hw] at e0
  have hstart : ∃ s1, step newSource (seedInit "9223372036854775807" "1" none emptyStore)
      (Action.start 0 now) = some s1 ∧ IdleAt s1 0 0 := by
    rw [e0]
    refine ⟨_, rfl, ?_⟩
    have b1 : (9223372036854775807 : Int) - ((emptyStore.withVirtual.length : Nat) : Int)
        = 9223372036854775807 := by decide
    have b2 : wrap64 (1 * 2) = 2 := by decide
    exact ⟨b1, b2, rfl, rfl, rfl, _, _, rfl, rfl⟩
  obtain ⟨s1, hs1, hidle⟩ := hstart
  obtain ⟨acts1, t1, hr1, h1⟩ :=
    idle_after_full_jobs newSource s1 hidle 1844674407370955 (Nat.le_refl _)
  have a1 : (5000 : Int) * ((1844674407370955 : Nat) : Int) = 9223372036854775000 := by decide
  rw [a1] at h1
  obtain ⟨acts2, t2, hr2, h2⟩ :=
    idle_to_committed newSource s1 t1 _ _ ⟨acts1, hr1⟩ h1 (by decide)
  have a2 : nextIndex 9223372036854775000 = -9223372036854771616 := by decide
  have a3 : jobSize 9223372036854775807 9223372036854775000 = 807 := by decide
  rw [a2, a3] at h2
  obtain ⟨t3, _, hr3, h3⟩ := committed_to_idle newSource s1 t2 _ _ _ ⟨acts2, hr2⟩ h2
  have a4 : wrap64 (9223372036854775000 + 807) = 9223372036854775807 := by decide
  rw [a4] at h3
  obtain ⟨acts4, t4, hr4, h4⟩ :=
    idle_to_committed newSource s1 t3 _ _ hr3 h3 (by decide)
  have a5 : jobSize 9223372036854775807 (-9223372036854771616) = -4193 := by decide
  rw [a5] at h4
  obtain ⟨u, hu, _, h5⟩ := committed_to_idle newSource s1 t4 _ _ _ ⟨acts4, hr4⟩ h4
  have a6 : wrap64 (9223372036854775807 + -4193) = 9223372036854771614 := by decide
  rw [a6] at h5
  obtain ⟨hrem, _, _, _, hins, hwk⟩ := h4
  have hu5 : u.inserted = 9223372036854771614 := h5.2.2.2.2.1
  refine ⟨Action.start 0 now :: acts4, t4, u, ?_, hu, hrem, hins, hwk, hu5, ?_⟩
  · simp only [run, hs1]
    exact hr4
  · rw [hu5, hins]
    decide


/-! ## An outcome that is never received -/

/-- C8 (evaluation at the failing input): with a target of 15001 on empty tables
and one worker whose first call of `insertBatch` fails, the run `deadlockRun`
ends in a state in which the worker has returned after sending exactly one
value, the error of that call, which lies in `results`; `Seed` has received
nothing, stands in the loop of line 121 and has not returned; no goroutine has
a transition, so that every continuation of the run is empty: the receives of
lines 127-132 never obtain the outcome of the worker. -/
theorem outcome_never_received (newSource : Int → Nat → Nat) :
    ∃ t wk, run newSource (seedInit "15001" "1" none emptyStore) deadlockRun = some t ∧
      t.numWorkers = 1 ∧ t.workers = [wk] ∧ wk.pc = WorkerPc.done ∧
      wk.batches = [(5000, some (SeedErr.insertWith "boom"))] ∧
      wk.sent = [some (SeedErr.insertWith "boom")] ∧
      t.results = [some (SeedErr.insertWith "boom")] ∧
      t.received = [] ∧ t.main = MainPc.sending 15000 ∧
      (∀ a, step newSource t a = none) ∧
      ∀ acts u, run newSource t acts = some u →
        acts = [] ∧ u.received = [] ∧ u.results = [some (SeedErr.insertWith "boom")] ∧
        ∀ res, u.main ≠ MainPc.returned res := by
  have hsome : (run newSource (seedInit "15001" "1" none emptyStore) deadlockRun).isSome
      = true := by
    rfl
  obtain ⟨t, ht⟩ := Option.isSome_iff_exists.mp hsome
  have hval : (run newSource (seedInit "15001" "1" none emptyStore) deadlockRun).map
      (fun u => (u.main, u.remaining, u.jobs, u.numWorkers, u.results, u.received,
        u.workers.map (fun wk => (wk.pc, wk.batches, wk.sent))))
      = some (MainPc.sending 15000, 15001, [5000, 5000], 1,
          [some (SeedErr.insertWith "boom")], [],
          [(WorkerPc.done, [(5000, some (SeedErr.insertWith "boom"))],
            [some (SeedErr.insertWith "boom")])]) := by
    rfl
  rw [ht] at hval
  simp only [Option.map_some', Option.some.injEq, Prod.mk.injEq] at hval
  obtain ⟨hm, hr, hj, hn, hres, hrec, hw⟩ := hval
  have hinit : (seedInit "15001" "1" none emptyStore).main = MainPc.sending 0 := by decide
  have hinv := inv_reachable newSource _ _ _ _ deadlockRun t hinit ht
  obtain ⟨_, hcap, _⟩ := capacity_reachable newSource _ _ _ _ deadlockRun t hinit ht
  obtain ⟨wk, hws, hpc, hb, hsent⟩ : ∃ wk, t.workers = [wk] ∧ wk.pc = WorkerPc.done ∧
      wk.batches = [(5000, some (SeedErr.insertWith "boom"))] ∧
      wk.sent = [some (SeedErr.insertWith "boom")] := by
    cases hl : t.workers with
    | nil => rw [hl] at hw; simp at hw
    | cons a rest =>
      rw [hl] at hw
      simp only [List.map_cons, List.cons.injEq, Prod.mk.injEq, List.map_eq_nil_iff] at hw
      obtain ⟨⟨h1, h2, h3⟩, h4⟩ := hw
      exact ⟨a, by rw [h4], h1, h2, h3⟩
  have hdone : ∀ x ∈ t.workers, x.pc = WorkerPc.done := by
    intro x hx
    rw [hws] at hx
    simp only [List.mem_singleton] at hx
    rw [hx]
    exact hpc
  have hnr : ∀ res, t.main ≠ MainPc.returned res := by
    intro res h
    rw [hm] at h
    cases h
  have hstuck : ∀ a, step newSource t a = none :=
    (stuck_iff newSource hinv hcap hnr).mpr
      ⟨15000, hm, by rw [hr]; decide, by rw [hcap, hn, hj]; decide, hdone⟩
  refine ⟨t, wk, ht, hn, hws, hpc, hb, hsent, hres, hrec, hm, hstuck, ?_⟩
  intro acts u hu
  obtain ⟨e1, e2⟩ := run_of_stuck newSource t hstuck acts u hu
  subst e1
  exact ⟨e2, hrec, hres, hnr⟩

end Seeding
